import Mathlib

/-!
Verification development for the B+tree key-value store in src/b+tree/kvs.c.

Keys and values are byte strings, modelled as lists of natural numbers; all
code paths apply the same 8-bit casts the C source applies, so values at or
above 256 behave exactly as their low byte where the C would truncate.
Machine integers are modelled as Nat with explicit reductions modulo their
width.  The tree is modelled as an inductive structure; the doubly linked
leaf list of the C source always links the leaves in tree order (split_leaf
inserts the new right half directly after the split leaf), so the leaf chain
is modelled as the in-order list of leaves.
-/

namespace KVSModel

/-! ## Configuration constants (kvs.h) -/

def KVS_BPTREE_ORDER : Nat := 64

def KVS_DEFAULT_POOL_SIZE : Nat := 128 * 1024 * 1024

def KVS_BLOOM_INIT_BITS : Nat := 2 ^ 20

def KVS_BLOOM_MAX_BITS : Nat := 2 ^ 26

def KVS_OK : Int := 0

def KVS_ERR_NOMEM : Int := -1

def KVS_ERR_NOTFOUND : Int := -2

def KVS_ERR_IO : Int := -3

/-! ## Entry and node (kvs.c lines 14-34)

An Entry owns its key and value bytes; klen and vlen are the lengths of
those lists.  A leaf node stores keys[i] and entries[i] side by side, and
keys[i] always holds the same bytes as entries[i]->key: a fresh insert sets
both from the same entry, a tombstone revival replaces the entry with one
whose key compared equal, and splits copy both arrays in step.  The model
therefore stores only the entry list and reads slot keys through it. -/

structure Entry where
  key : List Nat
  value : List Nat
  deleted : Bool
deriving DecidableEq, Repr, Inhabited

inductive BPNode where
  | leaf (entries : List Entry)
  | internal (keys : List (List Nat)) (children : List BPNode)
deriving Repr, Inhabited

/-! ## Hash functions (kvs.c lines 62-80)

fnv1a casts each char to uint8 before mixing; hash2 and hash3 use the raw
char, which on the reference platform is signed and is sign-extended to 32
bits before entering the unsigned arithmetic.  sext32 performs that
conversion on a byte value. -/

def sext32 (b : Nat) : Nat :=
  let v := b % 256
  if v < 128 then v else 2 ^ 32 - 256 + v

def fnv1a (key : List Nat) : Nat :=
  key.foldl (fun h b => ((h ^^^ (b % 256)) * 16777619) % 2 ^ 32) 2166136261

def hash2 (key : List Nat) : Nat :=
  key.foldl (fun h b => ((h * 32 + h) % 2 ^ 32) ^^^ sext32 b) 0x5bd1e995

def hash3 (key : List Nat) : Nat :=
  key.foldl (fun h b => (h * 31 + sext32 b) % 2 ^ 32) 0x811c9dc5

/-! ## Key comparison (kvs.c lines 130-136)

memcmp over the common prefix, then the shorter key is smaller. -/

def memcmpBytes : List Nat → List Nat → Ordering
  | [], _ => .eq
  | _ :: _, [] => .eq
  | a :: as, b :: bs =>
    if a < b then .lt else if b < a then .gt else memcmpBytes as bs

def keycmp (k1 k2 : List Nat) : Ordering :=
  let m := min k1.length k2.length
  match memcmpBytes (k1.take m) (k2.take m) with
  | .eq => if k1.length < k2.length then .lt
           else if k2.length < k1.length then .gt else .eq
  | o => o

/-! ## Binary search (kvs.c lines 155-179)

Both loops shrink the interval by at least one each round, so the number of
iterations is at most the initial interval width; the fuel argument is set
to that width and hence never runs out. -/

def bsearch_lt (keys : List (List Nat)) (key : List Nat) :
    Nat → Nat → Nat → Nat
  | 0, lo, _ => lo
  | fuel + 1, lo, hi =>
    if lo < hi then
      let mid := (lo + hi) / 2
      if keycmp (keys.getD mid []) key = .lt then
        bsearch_lt keys key fuel (mid + 1) hi
      else
        bsearch_lt keys key fuel lo mid
    else lo

def leaf_find_pos (keys : List (List Nat)) (key : List Nat) : Nat :=
  bsearch_lt keys key keys.length 0 keys.length

def bsearch_le (keys : List (List Nat)) (key : List Nat) :
    Nat → Nat → Nat → Nat
  | 0, lo, _ => lo
  | fuel + 1, lo, hi =>
    if lo < hi then
      let mid := (lo + hi) / 2
      if keycmp (keys.getD mid []) key ≠ .gt then
        bsearch_le keys key fuel (mid + 1) hi
      else
        bsearch_le keys key fuel lo mid
    else lo

def internal_find_pos (keys : List (List Nat)) (key : List Nat) : Nat :=
  bsearch_le keys key keys.length 0 keys.length

/-! ## Tree traversal helpers -/

def leafKeys (es : List Entry) : List (List Nat) := es.map (·.key)

/- In-order list of leaves; this is the leaf chain maintained through the
next and prev links in the C source. -/
mutual

def leavesOf : BPNode → List (List Entry)
  | .leaf es => [es]
  | .internal _ cs => leavesOfList cs

def leavesOfList : List BPNode → List (List Entry)
  | [] => []
  | c :: rest => leavesOf c ++ leavesOfList rest

end

/- find_leaf (kvs.c lines 181-190), returning the entry array of the leaf
reached by the descent. -/
mutual

def find_leaf : BPNode → List Nat → List Entry
  | .leaf es, _ => es
  | .internal ks cs, key => find_leaf_child cs (internal_find_pos ks key) key

def find_leaf_child : List BPNode → Nat → List Nat → List Entry
  | [], _, _ => []
  | c :: _, 0, key => find_leaf c key
  | _ :: rest, n + 1, key => find_leaf_child rest n key

end

/- Index, in the in-order leaf list, of the leaf reached by the same
descent as find_leaf; used to model cursor positioning. -/
mutual

def find_leaf_idx : BPNode → List Nat → Nat
  | .leaf _, _ => 0
  | .internal ks cs, key =>
    find_leaf_idx_child cs (internal_find_pos ks key) key

def find_leaf_idx_child : List BPNode → Nat → List Nat → Nat
  | [], _, _ => 0
  | c :: _, 0, key => find_leaf_idx c key
  | c :: rest, n + 1, key =>
    (leavesOf c).length + find_leaf_idx_child rest n key

end

/-! ## Splits (kvs.c lines 192-277)

A split returns the two halves and the separator to the caller, which the C
source applies to the parent in place; see insert_recursive below. -/

inductive InsResult where
  | one (t : BPNode)
  | two (l : BPNode) (sep : List Nat) (r : BPNode)

def insertAt (xs : List α) (i : Nat) (a : α) : List α :=
  xs.take i ++ a :: xs.drop i

def split_leaf (es : List Entry) : InsResult :=
  let mid := es.length / 2
  .two (.leaf (es.take mid)) ((es.getD mid default).key) (.leaf (es.drop mid))

def split_internal (ks : List (List Nat)) (cs : List BPNode) : InsResult :=
  let mid := ks.length / 2
  .two (.internal (ks.take mid) (cs.take (mid + 1)))
    (ks.getD mid [])
    (.internal (ks.drop (mid + 1)) (cs.drop (mid + 1)))

/-! ## Recursive insert (kvs.c lines 279-322)

The Bool is the added flag (count increase); the final Nat counts nodes
created by splits, which the C source tracks through bpnode_new. -/

mutual

def insert_recursive : BPNode → List Nat → Entry → InsResult × Bool × Nat
  | .leaf es, key, entry =>
    let pos := leaf_find_pos (leafKeys es) key
    if pos < es.length ∧ keycmp (es.getD pos default).key key = .eq then
      if (es.getD pos default).deleted = false then
        -- update in place: only the value pointer and vlen change
        (.one (.leaf (es.set pos { es.getD pos default with
          value := entry.value })), false, 0)
      else
        -- tombstoned slot: the entry pointer is replaced
        (.one (.leaf (es.set pos entry)), true, 0)
    else
      let es' := insertAt es pos entry
      if KVS_BPTREE_ORDER - 1 ≤ es'.length then
        (split_leaf es', true, 1)
      else
        (.one (.leaf es'), true, 0)
  | .internal ks cs, key, entry =>
    let pos := internal_find_pos ks key
    let r := insert_child cs pos key entry
    let ks' := match r.1 with
      | .one _ => ks
      | .two _ sep _ => insertAt ks pos sep
    let cs' := match r.1 with
      | .one c' => cs.set pos c'
      | .two l _ rt => insertAt (cs.set pos l) (pos + 1) rt
    if KVS_BPTREE_ORDER - 1 ≤ ks'.length then
      (split_internal ks' cs', r.2.1, r.2.2 + 1)
    else
      (.one (.internal ks' cs'), r.2.1, r.2.2)

def insert_child : List BPNode → Nat → List Nat → Entry →
    InsResult × Bool × Nat
  | [], _, _, _ => (.one (.leaf []), false, 0)
  | c :: _, 0, key, entry => insert_recursive c key entry
  | _ :: rest, n + 1, key, entry => insert_child rest n key entry

end

/- delete: find_leaf descent plus the in-place tombstone write of
kvs_delete (kvs.c lines 449-465), expressed as a path copy.  The Bool
reports whether a live matching entry was tombstoned. -/
mutual

def delete_at : BPNode → List Nat → BPNode × Bool
  | .leaf es, key =>
    let pos := leaf_find_pos (leafKeys es) key
    if pos < es.length ∧ keycmp (es.getD pos default).key key = .eq ∧
        (es.getD pos default).deleted = false then
      (.leaf (es.set pos { es.getD pos default with deleted := true }), true)
    else
      (.leaf es, false)
  | .internal ks cs, key =>
    let r := delete_at_child cs (internal_find_pos ks key) key
    (.internal ks r.1, r.2)

def delete_at_child : List BPNode → Nat → List Nat → List BPNode × Bool
  | [], _, _ => ([], false)
  | c :: rest, 0, key =>
    let r := delete_at c key
    (r.1 :: rest, r.2)
  | c :: rest, n + 1, key =>
    let r := delete_at_child rest n key
    (c :: r.1, r.2)

end
/-! ## The store (kvs.c lines 36-53)

first_leaf is the leftmost leaf, which in the model is the head of the
in-order leaf list, so it carries no separate field.  The filepath member
only feeds kvs_close and is not modelled. -/

structure KVS where
  pool_size : Nat
  pool_pos : Nat
  root : BPNode
  count : Nat
  height : Nat
  node_count : Nat
  bloom : Nat
  bloom_bits : Nat
  bloom_set_bits : Nat
deriving Repr

/-! ## Bloom filter (kvs.c lines 82-128)

The bit vector is a Nat whose bit at position p is the C bit at byte p/8,
bit p%8.  bloom_set_bit only bumps the set-bit counter on a 0 to 1
transition, exactly as the source does. -/

def bloom_set_bit (db : KVS) (pos : Nat) : KVS :=
  if db.bloom.testBit pos then db
  else { db with bloom := db.bloom ||| 2 ^ pos,
                 bloom_set_bits := db.bloom_set_bits + 1 }

def bloom_get_bit (db : KVS) (pos : Nat) : Bool := db.bloom.testBit pos

def bloom_add (db : KVS) (k : List Nat) : KVS :=
  let bits := db.bloom_bits
  let db := bloom_set_bit db (fnv1a k % bits)
  let db := bloom_set_bit db (hash2 k % bits)
  bloom_set_bit db (hash3 k % bits)

def bloom_maybe (db : KVS) (k : List Nat) : Bool :=
  let bits := db.bloom_bits
  bloom_get_bit db (fnv1a k % bits) &&
  bloom_get_bit db (hash2 k % bits) &&
  bloom_get_bit db (hash3 k % bits)

/-- bloom_rebuild (kvs.c lines 325-335): walk the leaf chain and re-add
every entry that is not tombstoned. -/
def bloom_rebuild (db : KVS) : KVS :=
  (leavesOf db.root).foldl
    (fun d es => es.foldl
      (fun d e => if e.deleted then d else bloom_add d e.key) d)
    db

/-- bloom_expand (kvs.c lines 112-122). -/
def bloom_expand (db : KVS) : KVS :=
  let new_bits := min (db.bloom_bits * 4) KVS_BLOOM_MAX_BITS
  if new_bits = db.bloom_bits then db
  else
    bloom_rebuild
      { db with bloom := 0, bloom_bits := new_bits, bloom_set_bits := 0 }

/-- bloom_check_expand (kvs.c lines 124-128).  The C source compares the
double set_bits/bits against 0.5; for the power-of-two vector sizes the
store uses, that floating division is exact, and the comparison is
equivalent to the integer comparison below. -/
def bloom_check_expand (db : KVS) : KVS :=
  if db.bloom_bits ≤ 2 * db.bloom_set_bits ∧
      db.bloom_bits < KVS_BLOOM_MAX_BITS then
    bloom_expand db
  else db

/-! ## Memory pool (kvs.c lines 138-145)

Allocation returns a stable address; the model keeps the bump position and
reports success or failure.  The address itself is represented by the data
that the caller stores into it. -/

def poolRound (size : Nat) : Nat := (size + 7) / 8 * 8

def pool_alloc (db : KVS) (size : Nat) : Option KVS :=
  let size := poolRound size
  if db.pool_size < db.pool_pos + size then none
  else some { db with pool_pos := db.pool_pos + size }

/-- sizeof(Entry) on the reference LP64 platform: two 8-byte pointers, two
uint32, one uint8, padded to 8-byte alignment. -/
def ENTRY_SIZE : Nat := 32

/-! ## Public API -/

/-- kvs_open (kvs.c lines 338-359) with no snapshot path: one empty leaf as
root. -/
def kvs_open : KVS :=
  { pool_size := KVS_DEFAULT_POOL_SIZE
    pool_pos := 0
    root := .leaf []
    count := 0
    height := 1
    node_count := 1
    bloom := 0
    bloom_bits := KVS_BLOOM_INIT_BITS
    bloom_set_bits := 0 }

/-- kvs_put_raw (kvs.c lines 382-407).  The three pool allocations happen
before the failure check, so each one that fits advances the pool position
even if a later one fails. -/
def kvs_put_raw (db : KVS) (key value : List Nat) : KVS × Int :=
  let a1 := pool_alloc db ENTRY_SIZE
  let db1 := a1.getD db
  let a2 := pool_alloc db1 (key.length + 1)
  let db2 := a2.getD db1
  let a3 := pool_alloc db2 (value.length + 1)
  let db3 := a3.getD db2
  if a1.isNone ∨ a2.isNone ∨ a3.isNone then (db3, KVS_ERR_NOMEM)
  else
    let entry : Entry := { key := key, value := value, deleted := false }
    let db4 := bloom_add db3 key
    let r := insert_recursive db4.root key entry
    let db5 :=
      match r.1 with
      | .one t =>
        { db4 with root := t
                   count := db4.count + (if r.2.1 then 1 else 0)
                   node_count := db4.node_count + r.2.2 }
      | .two l sep rt =>
        -- the root split: a new internal root is created and height grows
        { db4 with root := .internal [sep] [l, rt]
                   count := db4.count + (if r.2.1 then 1 else 0)
                   height := db4.height + 1
                   node_count := db4.node_count + r.2.2 + 1 }
    let db6 := if db5.count % 1000 = 0 then bloom_check_expand db5 else db5
    (db6, KVS_OK)

/-- The guard on kvs.c line 404: a put runs the bloom fill check exactly
when it completes successfully and leaves the live count divisible by
1000. -/
def put_checks_fill (db : KVS) (key value : List Nat) : Bool :=
  decide ((kvs_put_raw db key value).2 = KVS_OK) &&
  decide ((kvs_put_raw db key value).1.count % 1000 = 0)

/-- kvs_get_raw (kvs.c lines 413-430); the returned value is a fresh copy
of the entry value. -/
def kvs_get_raw (db : KVS) (key : List Nat) : Option (List Nat) :=
  if bloom_maybe db key = false then none
  else
    let es := find_leaf db.root key
    let pos := leaf_find_pos (leafKeys es) key
    if pos < es.length ∧ keycmp (es.getD pos default).key key = .eq ∧
        (es.getD pos default).deleted = false then
      some (es.getD pos default).value
    else none

/-- kvs_exists (kvs.c lines 436-447). -/
def kvs_exists (db : KVS) (key : List Nat) : Bool :=
  if bloom_maybe db key = false then false
  else
    let es := find_leaf db.root key
    let pos := leaf_find_pos (leafKeys es) key
    decide (pos < es.length ∧ keycmp (es.getD pos default).key key = .eq ∧
      (es.getD pos default).deleted = false)

/-- kvs_delete (kvs.c lines 449-465).  A hit tombstones a live entry, so
the C decrement of the size_t count cannot underflow there; Nat
subtraction matches it. -/
def kvs_delete (db : KVS) (key : List Nat) : KVS × Int :=
  if bloom_maybe db key = false then (db, KVS_ERR_NOTFOUND)
  else
    let r := delete_at db.root key
    if r.2 then
      ({ db with root := r.1, count := db.count - 1 }, KVS_OK)
    else (db, KVS_ERR_NOTFOUND)

/-! ## Cursor (kvs.c lines 55-60 and 467-550)

A cursor holds a leaf pointer, here the index of the leaf in the in-order
leaf chain (none models a NULL pointer), and a C int index.  The skip
loops in next and prev advance strictly through the chain, so the number
of iterations is bounded by the total number of entry slots plus the
number of leaves; the fuel passed below is that bound plus two and hence
never runs out on states whose chain matches the tree, which is every
state this development evaluates them on. -/

structure KVSCursor where
  node : Option Nat
  index : Int
deriving Repr, DecidableEq

def chainLeaf (L : List (List Entry)) (ni : Nat) : List Entry := L.getD ni []

def cursorFuel (L : List (List Entry)) : Nat :=
  (L.map List.length).sum + L.length + 2

/-- The do-while loop of kvs_cursor_next: first the body (advance, hopping
to the next leaf on overflow), then repeat while the cursor rests on a
tombstoned entry. -/
def next_loop (L : List (List Entry)) : Nat → Nat → Int → KVSCursor
  | 0, ni, idx => ⟨some ni, idx⟩
  | fuel + 1, ni, idx =>
    let idx := idx + 1
    if (chainLeaf L ni).length ≤ idx then
      if ni + 1 < L.length then
        if 0 < (chainLeaf L (ni + 1)).length ∧
            ((chainLeaf L (ni + 1)).getD 0 default).deleted = true then
          next_loop L fuel (ni + 1) 0
        else ⟨some (ni + 1), 0⟩
      else ⟨none, 0⟩
    else
      if ((chainLeaf L ni).getD idx.toNat default).deleted = true then
        next_loop L fuel ni idx
      else ⟨some ni, idx⟩

def kvs_cursor_next (db : KVS) (cur : KVSCursor) : KVSCursor :=
  match cur.node with
  | none => cur
  | some ni =>
    let L := leavesOf db.root
    next_loop L (cursorFuel L) ni cur.index

/-- The do-while loop of kvs_cursor_prev. -/
def prev_loop (L : List (List Entry)) : Nat → Nat → Int → KVSCursor
  | 0, ni, idx => ⟨some ni, idx⟩
  | fuel + 1, ni, idx =>
    let idx := idx - 1
    if idx < 0 then
      if ni = 0 then ⟨none, idx⟩
      else
        let idx' : Int := (chainLeaf L (ni - 1)).length - 1
        if 0 ≤ idx' ∧
            ((chainLeaf L (ni - 1)).getD idx'.toNat default).deleted = true
        then prev_loop L fuel (ni - 1) idx'
        else ⟨some (ni - 1), idx'⟩
    else
      if ((chainLeaf L ni).getD idx.toNat default).deleted = true then
        prev_loop L fuel ni idx
      else ⟨some ni, idx⟩

def kvs_cursor_prev (db : KVS) (cur : KVSCursor) : KVSCursor :=
  match cur.node with
  | none => cur
  | some ni =>
    let L := leavesOf db.root
    prev_loop L (cursorFuel L) ni cur.index

def kvs_cursor_valid (db : KVS) (cur : KVSCursor) : Bool :=
  match cur.node with
  | none => false
  | some ni =>
    decide (0 ≤ cur.index ∧ cur.index < (chainLeaf (leavesOf db.root) ni).length)

/-- kvs_cursor_first: start at (first_leaf, 0), then run the while loop
that calls kvs_cursor_next while the entry under the cursor is
tombstoned.  kvs_cursor_next never leaves the cursor on a tombstoned
entry (every exit of its loop has either an invalid position or a live
entry), so the loop body runs at most once; the model calls it once under
the loop condition. -/
def kvs_cursor_first (db : KVS) : KVSCursor :=
  let L := leavesOf db.root
  let cur : KVSCursor := ⟨some 0, 0⟩
  if 0 < (chainLeaf L 0).length ∧
      ((chainLeaf L 0).getD 0 default).deleted = true then
    kvs_cursor_next db cur
  else cur

/-- kvs_cursor_last: descend the rightmost spine, which reaches the last
leaf of the chain, position at num_keys - 1, then run the while loop that
calls kvs_cursor_prev while the cursor rests on a tombstoned entry; as
with first, the body runs at most once. -/
def kvs_cursor_last (db : KVS) : KVSCursor :=
  let L := leavesOf db.root
  let ni := L.length - 1
  let idx : Int := (chainLeaf L ni).length - 1
  let cur : KVSCursor := ⟨some ni, idx⟩
  if 0 ≤ idx ∧ ((chainLeaf L ni).getD idx.toNat default).deleted = true then
    kvs_cursor_prev db cur
  else cur

/-- kvs_cursor_seek (kvs.c lines 497-507): descend to the leaf that would
hold the key, take the leaf search position, and on overflow move to the
head of the next leaf.  No tombstone check appears in the source. -/
def kvs_cursor_seek (db : KVS) (key : List Nat) : KVSCursor :=
  let L := leavesOf db.root
  let ni := find_leaf_idx db.root key
  let es := chainLeaf L ni
  let pos := leaf_find_pos (leafKeys es) key
  if es.length ≤ pos then
    if ni + 1 < L.length then ⟨some (ni + 1), 0⟩ else ⟨none, 0⟩
  else ⟨some ni, (pos : Int)⟩

def kvs_cursor_key (db : KVS) (cur : KVSCursor) : Option (List Nat) :=
  if kvs_cursor_valid db cur then
    match cur.node with
    | some ni =>
      some (((chainLeaf (leavesOf db.root) ni).getD cur.index.toNat
        default).key)
    | none => none
  else none

def kvs_cursor_value (db : KVS) (cur : KVSCursor) : Option (List Nat) :=
  if kvs_cursor_valid db cur then
    match cur.node with
    | some ni =>
      some (((chainLeaf (leavesOf db.root) ni).getD cur.index.toNat
        default).value)
    | none => none
  else none

/-! ## Iteration (kvs.c lines 628-668) -/

/-- kvs_foreach: walk the leaf chain and hand every non-tombstoned entry
to the callback; the model returns the list of callback arguments, whose
length is the count the C function returns. -/
def kvs_foreach (db : KVS) : List (List Nat × List Nat) :=
  ((leavesOf db.root).map (fun es =>
    es.filterMap (fun e =>
      if e.deleted then none else some (e.key, e.value)))).flatten

/-- The while loop of kvs_range: visit entries from the cursor position
until a key above the upper bound appears.  kvs_cursor_next advances the
cursor strictly, so the iteration count is bounded by cursorFuel. -/
def range_loop (db : KVS) (hiKey : List Nat) :
    Nat → KVSCursor → List (List Nat × List Nat)
  | 0, _ => []
  | fuel + 1, cur =>
    if kvs_cursor_valid db cur then
      match kvs_cursor_key db cur, kvs_cursor_value db cur with
      | some k, some v =>
        if keycmp k hiKey = .gt then []
        else (k, v) :: range_loop db hiKey fuel (kvs_cursor_next db cur)
      | _, _ => []
    else []

/-- kvs_range (kvs.c lines 644-668): seek to the lower bound, then walk
while key is at most the upper bound, visiting through the plain cursor
accessors.  The model returns the list of callback arguments. -/
def kvs_range (db : KVS) (loKey hiKey : List Nat) :
    List (List Nat × List Nat) :=
  let cur := kvs_cursor_seek db loKey
  range_loop db hiKey (cursorFuel (leavesOf db.root)) cur

/-! ## Stats (kvs.c lines 619-626); bloom_fill_rate is a double used only
for reporting and is omitted. -/

structure KVSStats where
  count : Nat
  memory_used : Nat
  bloom_bits : Nat
  tree_height : Nat
  node_count : Nat
deriving Repr, DecidableEq

def kvs_stats (db : KVS) : KVSStats :=
  { count := db.count
    memory_used := db.pool_pos
    bloom_bits := db.bloom_bits
    tree_height := db.height
    node_count := db.node_count }
/-! ## Persistence (kvs.c lines 552-616)

The file is a byte list.  fwrite of an n-byte little-endian integer
produces the n low-order bytes; fread that runs past the end of the file
leaves the remainder of the destination unchanged, that is, holding
indeterminate bytes, which the model draws from an oracle function g.
The file position after a short read stops at the end of the file. -/

def KVS_MAGIC : Nat := 0x54504253

def le_bytes (n v : Nat) : List Nat :=
  (List.range n).map (fun i => v >>> (8 * i) % 256)

def bytes_val (bs : List Nat) : Nat :=
  bs.foldr (fun b acc => b % 256 + 256 * acc) 0

/-- The bloom bit vector as the byte image fwrite emits: byte j holds bits
8j to 8j+7. -/
def bloom_bytes (db : KVS) : List Nat :=
  (List.range (db.bloom_bits / 8)).map (fun j => db.bloom >>> (8 * j) % 256)

/-- One entry record: 4-byte key length, 4-byte value length, key bytes,
value bytes.  The C source writes e->klen bytes, where e->klen is the
uint32 image of the key length, hence the takes. -/
def entry_bytes (e : Entry) : List Nat :=
  le_bytes 4 e.key.length ++ le_bytes 4 e.value.length ++
  e.key.take (e.key.length % 2 ^ 32) ++ e.value.take (e.value.length % 2 ^ 32)

/-- kvs_save (kvs.c lines 555-582): header, bloom image, then every
non-tombstoned entry along the leaf chain. -/
def kvs_save_bytes (db : KVS) : List Nat :=
  le_bytes 4 KVS_MAGIC ++ le_bytes 8 db.count ++ le_bytes 8 db.bloom_bits ++
  bloom_bytes db ++
  ((leavesOf db.root).map (fun es =>
    (es.filterMap (fun e =>
      if e.deleted then none else some (entry_bytes e))).flatten)).flatten

/-- fread of n bytes at position pos: available bytes come from the file,
the rest from the oracle that stands for the untouched destination
memory. -/
def readBytes (file : List Nat) (g : Nat → Nat) (pos n : Nat) : List Nat :=
  (List.range n).map (fun i =>
    if pos + i < file.length then file.getD (pos + i) 0 else g (pos + i))

/-- The entry replay loop of kvs_load; the return value of kvs_put_raw is
ignored, exactly as in the source. -/
def load_loop (file : List Nat) (g : Nat → Nat) :
    Nat → KVS → Nat → KVS
  | _, db, 0 => db
  | pos, db, n + 1 =>
    let klen := bytes_val (readBytes file g pos 4)
    let pos := min (pos + 4) file.length
    let vlen := bytes_val (readBytes file g pos 4)
    let pos := min (pos + 4) file.length
    let key := readBytes file g pos klen
    let pos := min (pos + klen) file.length
    let v := readBytes file g pos vlen
    let pos := min (pos + vlen) file.length
    load_loop file g pos (kvs_put_raw db key v).1 n

/-- kvs_load (kvs.c lines 584-616).  The only failure exits in the source
are a file that cannot be opened (not modelled: the caller hands the
bytes) and a magic mismatch; no fread return value is checked.  After the
magic test the function always builds and returns a store.  The bloom
vector and bit count are installed from the file, while bloom_set_bits
keeps the zero kvs_open left there. -/
def kvs_load (file : List Nat) (g : Nat → Nat) : Option KVS :=
  let magic := bytes_val (readBytes file g 0 4)
  let pos := min 4 file.length
  if magic ≠ KVS_MAGIC then none
  else
    let db := kvs_open
    let count := bytes_val (readBytes file g pos 8)
    let pos := min (pos + 8) file.length
    let bbits := bytes_val (readBytes file g pos 8)
    let pos := min (pos + 8) file.length
    let bvec := bytes_val (readBytes file g pos (bbits / 8))
    let pos := min (pos + bbits / 8) file.length
    let db := { db with bloom_bits := bbits, bloom := bvec }
    some (load_loop file g pos db count)

/-! ## Operation sequences

A store state is reachable when some sequence of puts, deletes and gets
starting from a fresh store produces it; gets do not mutate the store. -/

inductive KVSOp where
  | put (key value : List Nat)
  | del (key : List Nat)
  | get (key : List Nat)

def kvs_step (db : KVS) (op : KVSOp) : KVS :=
  match op with
  | .put k v => (kvs_put_raw db k v).1
  | .del k => (kvs_delete db k).1
  | .get _ => db

def kvs_run (ops : List KVSOp) : KVS := ops.foldl kvs_step kvs_open

def Reachable (db : KVS) : Prop := ∃ ops, kvs_run ops = db

/-- Execution that also counts the inserts: the successful puts that grew
the live count (a fresh key or a tombstone revival, not an overwrite of a
live key). -/
def kvs_step_counting (p : KVS × Nat) (op : KVSOp) : KVS × Nat :=
  match op with
  | .put k v =>
    let r := kvs_put_raw p.1 k v
    (r.1, p.2 + (if r.2 = KVS_OK ∧ r.1.count = p.1.count + 1 then 1 else 0))
  | .del k => ((kvs_delete p.1 k).1, p.2)
  | .get _ => p

def kvs_run_counting (ops : List KVSOp) : KVS × Nat :=
  ops.foldl kvs_step_counting (kvs_open, 0)
/-! ## Abstraction to entry lists

The entry sequence of a tree is the concatenation of its leaves in chain
order; it is what foreach, save and bloom_rebuild walk. -/

def entriesOf (t : BPNode) : List Entry := (leavesOf t).flatten

def liveList (t : BPNode) : List Entry :=
  (entriesOf t).filter (fun e => !e.deleted)

/-! ## Reference list-level operations

These mirror the put, delete and get effects on the flat, key-sorted entry
sequence and serve as the specification the tree operations are proved
against. -/

def listPut (k : List Nat) (e : Entry) : List Entry → List Entry × Bool
  | [] => ([e], true)
  | e0 :: rest =>
    match keycmp k e0.key with
    | .lt => (e :: e0 :: rest, true)
    | .eq =>
      if e0.deleted then (e :: rest, true)
      else ({ e0 with value := e.value } :: rest, false)
    | .gt =>
      let r := listPut k e rest
      (e0 :: r.1, r.2)

def listDel (k : List Nat) : List Entry → List Entry × Bool
  | [] => ([], false)
  | e0 :: rest =>
    match keycmp k e0.key with
    | .lt => (e0 :: rest, false)
    | .eq =>
      if e0.deleted then (e0 :: rest, false)
      else ({ e0 with deleted := true } :: rest, true)
    | .gt =>
      let r := listDel k rest
      (e0 :: r.1, r.2)

def listGet (k : List Nat) : List Entry → Option (List Nat)
  | [] => none
  | e0 :: rest =>
    match keycmp k e0.key with
    | .lt => none
    | .eq => if e0.deleted then none else some e0.value
    | .gt => listGet k rest

/-! ## Ordering predicates and the structural invariant -/

def keyLt (a b : List Nat) : Prop := keycmp a b = .lt

instance : DecidableEq Ordering := fun a b => by
  cases a <;> cases b <;> first
    | exact isTrue rfl
    | exact isFalse (by intro h; cases h)

instance (a b : List Nat) : Decidable (keyLt a b) := by
  unfold keyLt; infer_instance

/-- Optional lower bound: every key of a subtree is at least the separator
to its left. -/
def lbOk : Option (List Nat) → List Nat → Prop
  | none, _ => True
  | some lo, k => keycmp lo k = .lt ∨ lo = k

/-- Optional upper bound: every key of a subtree is strictly below the
separator to its right. -/
def ubOk : Option (List Nat) → List Nat → Prop
  | none, _ => True
  | some hi, k => keycmp k hi = .lt

def bndOk (lo hi : Option (List Nat)) (k : List Nat) : Prop :=
  lbOk lo k ∧ ubOk hi k

/- The B+tree shape and order invariant: each node is sorted, keys lie in
the bounds, and an internal node interleaves children with separators in
the usual way. -/
mutual

def TreeWF : Option (List Nat) → BPNode → Option (List Nat) → Prop
  | lo, .leaf es, hi =>
    (leafKeys es).Pairwise keyLt ∧ ∀ k ∈ leafKeys es, bndOk lo hi k
  | lo, .internal ks cs, hi =>
    ks.Pairwise keyLt ∧ (∀ k ∈ ks, bndOk lo hi k) ∧ ChildrenWF lo ks cs hi

def ChildrenWF :
    Option (List Nat) → List (List Nat) → List BPNode → Option (List Nat) →
    Prop
  | lo, [], [c], hi => TreeWF lo c hi
  | lo, k :: ks, c :: cs, hi => TreeWF lo c (some k) ∧ ChildrenWF (some k) ks cs hi
  | _, _, _, _ => False

end

/- The per-node sortedness property of every key array in the tree, the
object of the sortedness claim. -/
mutual

def NodesSorted : BPNode → Prop
  | .leaf es => (leafKeys es).Pairwise keyLt
  | .internal ks cs => ks.Pairwise keyLt ∧ NodesSortedList cs

def NodesSortedList : List BPNode → Prop
  | [] => True
  | c :: rest => NodesSorted c ∧ NodesSortedList rest

end

/-! ## Resource accounting

Every entry reachable from the tree was paid for by the three pool
allocations of the put that created it. -/

def entryCost (e : Entry) : Nat :=
  ENTRY_SIZE + poolRound (e.key.length + 1) + poolRound (e.value.length + 1)

def treeCost (t : BPNode) : Nat := ((entriesOf t).map entryCost).sum

/-- Every key that a live entry holds passes the bloom filter; this is what
makes the negative-lookup short cut of get, exists and delete sound. -/
def BloomSound (db : KVS) : Prop :=
  ∀ e ∈ entriesOf db.root, e.deleted = false → bloom_maybe db e.key = true

/-- The full store invariant maintained by every operation. -/
structure Inv (db : KVS) : Prop where
  wf : TreeWF none db.root none
  count_eq : db.count = (liveList db.root).length
  sound : BloomSound db
  pool_le : db.pool_pos ≤ db.pool_size
  pool_sz : db.pool_size = KVS_DEFAULT_POOL_SIZE
  cost_le : treeCost db.root ≤ db.pool_pos
  bits_pos : 0 < db.bloom_bits
  bits_le : db.bloom_bits ≤ KVS_BLOOM_MAX_BITS
/-- A store state with a nearly exhausted arena, used to witness the
out-of-memory paths; kvs_put_raw operates on any store state. -/
def c4wit : KVS :=
  { pool_size := 8, pool_pos := 0, root := .leaf [], count := 0, height := 1,
    node_count := 1, bloom := 0, bloom_bits := 8, bloom_set_bits := 0 }

/-- A store state whose arena holds exactly one entry record, used to
witness the partial-consumption path of a failing put. -/
def c10wit : KVS :=
  { pool_size := 32, pool_pos := 0, root := .leaf [], count := 0, height := 1,
    node_count := 1, bloom := 0, bloom_bits := 8, bloom_set_bits := 0 }

/-! ## A distinguished family of store states

One key is put and deleted over and over; after each round the store holds
the single tombstoned entry, three bloom bits and 48 more arena bytes.
These states drive the growth-stride analysis. -/

def c6bloom : Nat := 2 ^ 796972 ||| 2 ^ 990292 ||| 2 ^ 465724

def c6state (p : Nat) : KVS :=
  { pool_size := KVS_DEFAULT_POOL_SIZE, pool_pos := p,
    root := .leaf [{ key := [97], value := [49], deleted := true }],
    count := 0, height := 1, node_count := 1,
    bloom := c6bloom, bloom_bits := KVS_BLOOM_INIT_BITS, bloom_set_bits := 3 }

def c6live (p : Nat) : KVS :=
  { pool_size := KVS_DEFAULT_POOL_SIZE, pool_pos := p,
    root := .leaf [{ key := [97], value := [49], deleted := false }],
    count := 1, height := 1, node_count := 1,
    bloom := c6bloom, bloom_bits := KVS_BLOOM_INIT_BITS, bloom_set_bits := 3 }

def c6ops (n : Nat) : List KVSOp :=
  (List.replicate n [KVSOp.put [97] [49], KVSOp.del [97]]).flatten

/-- The store state a successful put reaches just before the stride check:
allocations done, key added to the bloom, entry inserted, counters
updated; every field is written in terms of the pre-state. -/
def put_mid (db : KVS) (k v : List Nat) : KVS :=
  let r := insert_recursive db.root k { key := k, value := v, deleted := false }
  { pool_size := db.pool_size
    pool_pos := db.pool_pos + ENTRY_SIZE + poolRound (k.length + 1) +
      poolRound (v.length + 1)
    root := match r.1 with
      | .one t => t
      | .two l sep rt => .internal [sep] [l, rt]
    count := db.count + (if r.2.1 then 1 else 0)
    height := db.height + (match r.1 with | .one _ => 0 | .two _ _ _ => 1)
    node_count := db.node_count + r.2.2 +
      (match r.1 with | .one _ => 0 | .two _ _ _ => 1)
    bloom := (bloom_add db k).bloom
    bloom_bits := db.bloom_bits
    bloom_set_bits := (bloom_add db k).bloom_set_bits }

/-- The result of a put whose three arena allocations fit; kvs_put_raw is
proved equal to this normal form whenever the allocations succeed. -/
def put_success_result (db : KVS) (k v : List Nat) : KVS × Int :=
  (if (put_mid db k v).count % 1000 = 0 then bloom_check_expand (put_mid db k v)
   else put_mid db k v, KVS_OK)

/-! ## Abstraction helpers for the correctness proofs -/

def entriesOfList (cs : List BPNode) : List Entry := (leavesOfList cs).flatten

def liveLen (es : List Entry) : Nat := (es.filter (fun e => !e.deleted)).length

def InsResult.absOf : InsResult → List Entry
  | .one t => entriesOf t
  | .two l _ r => entriesOf l ++ entriesOf r

/-- Separators produced by a split sit strictly above the lower bound of
the node that split. -/
def sepBnd (lo hi : Option (List Nat)) (s : List Nat) : Prop :=
  (match lo with | none => True | some l => keycmp l s = .lt) ∧ ubOk hi s

def WFRes (lo : Option (List Nat)) (r : InsResult)
    (hi : Option (List Nat)) : Prop :=
  match r with
  | .one t => TreeWF lo t hi
  | .two l s rt => TreeWF lo l (some s) ∧ sepBnd lo hi s ∧ TreeWF (some s) rt hi

/-- The lookup kvs_get_raw performs on the entry array of the leaf the
descent reached (kvs.c lines 419-429). -/
def leafLookup (es : List Entry) (key : List Nat) : Option (List Nat) :=
  let pos := leaf_find_pos (leafKeys es) key
  if pos < es.length ∧ keycmp (es.getD pos default).key key = .eq ∧
      (es.getD pos default).deleted = false then
    some (es.getD pos default).value
  else none

def listCost (es : List Entry) : Nat := (es.map entryCost).sum

/-! # Theorems -/

set_option exponentiation.threshold 2000000

set_option maxRecDepth 20000

/-- C1: the claim states that no tombstoned entry is ever surfaced at the
public interface.  The code violates it: after put then delete of key 97,
get reports not-found and foreach skips the entry, but cursor seek leaves
the cursor valid and positioned on the tombstoned entry, whose key and
value accessors return it, and range invokes the callback on it.
kvs_cursor_seek (kvs.c lines 497-507) has no tombstone check, unlike
first, last, next and prev, and kvs_range is built on seek. -/
theorem c1_seek_and_range_surface_tombstone :
    (kvs_put_raw kvs_open [97] [49]).2 = KVS_OK ∧
    (kvs_delete (kvs_put_raw kvs_open [97] [49]).1 [97]).2 = KVS_OK ∧
    ((fun s2 =>
      kvs_get_raw s2 [97] = none ∧
      kvs_foreach s2 = [] ∧
      (find_leaf s2.root [97]).map (fun e => (e.key, e.deleted)) =
        [([97], true)] ∧
      kvs_cursor_valid s2 (kvs_cursor_seek s2 [97]) = true ∧
      kvs_cursor_key s2 (kvs_cursor_seek s2 [97]) = some [97] ∧
      kvs_cursor_value s2 (kvs_cursor_seek s2 [97]) = some [49] ∧
      kvs_range s2 [97] [97] = [([97], [49])])
     (kvs_delete (kvs_put_raw kvs_open [97] [49]).1 [97]).1) := by
  decide

/-- C2: the claim states that load fails on a wrong magic, a truncated
header or a truncated body.  Only the magic test exists in kvs_load
(kvs.c lines 584-616); no fread result is checked, so a file holding
exactly the four magic bytes, with the header and body missing, still
produces a store, built from whatever indeterminate values the unchecked
reads left behind (the oracle g).  The second conjunct shows the magic
test itself works. -/
theorem c2_truncated_load_still_returns_store :
    (∀ g : Nat → Nat, (kvs_load [0x53, 0x42, 0x50, 0x54] g).isSome = true) ∧
    (∀ g : Nat → Nat, kvs_load [0x53, 0x42, 0x50, 0x55] g = none) := by
  constructor
  · intro g
    simp [kvs_load, readBytes, bytes_val, KVS_MAGIC, List.range_succ]
  · intro g
    simp [kvs_load, readBytes, bytes_val, KVS_MAGIC, List.range_succ]

/-- Out-of-memory behaviour of kvs_put_raw: the failure condition and the
frame of the failing call. -/
lemma put_oom_characterization (db : KVS) (k v : List Nat) :
    ((kvs_put_raw db k v).2 = KVS_ERR_NOMEM ↔
      db.pool_size <
        db.pool_pos + ENTRY_SIZE + poolRound (k.length + 1) +
          poolRound (v.length + 1)) ∧
    ((kvs_put_raw db k v).2 = KVS_ERR_NOMEM →
      (kvs_put_raw db k v).1.root = db.root ∧
      (kvs_put_raw db k v).1.count = db.count ∧
      (kvs_put_raw db k v).1.height = db.height ∧
      (kvs_put_raw db k v).1.node_count = db.node_count ∧
      (kvs_put_raw db k v).1.bloom = db.bloom ∧
      (kvs_put_raw db k v).1.bloom_bits = db.bloom_bits ∧
      (kvs_put_raw db k v).1.bloom_set_bits = db.bloom_set_bits ∧
      (kvs_put_raw db k v).1.pool_size = db.pool_size) := by
  have hE : poolRound ENTRY_SIZE = ENTRY_SIZE := by decide
  unfold kvs_put_raw pool_alloc
  rw [hE]
  set rk := poolRound (k.length + 1) with hrk
  set rv := poolRound (v.length + 1) with hrv
  by_cases h1 : db.pool_size < db.pool_pos + ENTRY_SIZE
  · by_cases h2 : db.pool_size < db.pool_pos + rk
    · by_cases h3 : db.pool_size < db.pool_pos + rv
      · exact ⟨⟨fun _ => by omega, fun _ => by simp [h1, h2, h3]⟩,
          fun _ => by simp [h1, h2, h3]⟩
      · exact ⟨⟨fun _ => by omega, fun _ => by simp [h1, h2, h3]⟩,
          fun _ => by simp [h1, h2, h3]⟩
    · by_cases h3 : db.pool_size < db.pool_pos + rk + rv
      · exact ⟨⟨fun _ => by omega, fun _ => by simp [h1, h2, h3]⟩,
          fun _ => by simp [h1, h2, h3]⟩
      · exact ⟨⟨fun _ => by omega, fun _ => by simp [h1, h2, h3]⟩,
          fun _ => by simp [h1, h2, h3]⟩
  · by_cases h2 : db.pool_size < db.pool_pos + ENTRY_SIZE + rk
    · by_cases h3 : db.pool_size < db.pool_pos + ENTRY_SIZE + rv
      · exact ⟨⟨fun _ => by omega, fun _ => by simp [h1, h2, h3]⟩,
          fun _ => by simp [h1, h2, h3]⟩
      · exact ⟨⟨fun _ => by omega, fun _ => by simp [h1, h2, h3]⟩,
          fun _ => by simp [h1, h2, h3]⟩
    · by_cases h3 : db.pool_size < db.pool_pos + ENTRY_SIZE + rk + rv
      · exact ⟨⟨fun _ => by omega, fun _ => by simp [h1, h2, h3]⟩,
          fun _ => by simp [h1, h2, h3]⟩
      · constructor
        · constructor
          · intro hbad
            simp [h1, h2, h3, KVS_OK, KVS_ERR_NOMEM] at hbad
          · intro hsum
            exact absurd hsum (by omega)
        · intro hbad
          simp [h1, h2, h3, KVS_OK, KVS_ERR_NOMEM] at hbad
/-- C4: a put whose arena allocation fails reports out-of-memory and
leaves the index untouched.  The failure happens exactly when the three
requested blocks do not all fit (the allocations are attempted in order,
so this sum condition is equivalent to one of them failing), and in that
case every component of the store except the arena position is exactly as
before the call: the root (hence the node structure and every entry),
count, height, node count and the whole bloom state. -/
theorem c4_put_oom_frame (db : KVS) (k v : List Nat) :
    ((kvs_put_raw db k v).2 = KVS_ERR_NOMEM ↔
      db.pool_size <
        db.pool_pos + ENTRY_SIZE + poolRound (k.length + 1) +
          poolRound (v.length + 1)) ∧
    ((kvs_put_raw db k v).2 = KVS_ERR_NOMEM →
      (kvs_put_raw db k v).1.root = db.root ∧
      (kvs_put_raw db k v).1.count = db.count ∧
      (kvs_put_raw db k v).1.height = db.height ∧
      (kvs_put_raw db k v).1.node_count = db.node_count ∧
      (kvs_put_raw db k v).1.bloom = db.bloom ∧
      (kvs_put_raw db k v).1.bloom_bits = db.bloom_bits ∧
      (kvs_put_raw db k v).1.bloom_set_bits = db.bloom_set_bits ∧
      (kvs_put_raw db k v).1.pool_size = db.pool_size) :=
  put_oom_characterization db k v

/-- Witness for C4 at a concrete input: a store whose arena is too small
for the entry record, so the put fails and every listed component is
unchanged. -/
theorem c4_put_oom_frame_witness :
    (kvs_put_raw c4wit [97] [49]).2 = KVS_ERR_NOMEM ∧
    ((kvs_put_raw c4wit [97] [49]).1.root = c4wit.root ∧
      (kvs_put_raw c4wit [97] [49]).1.count = c4wit.count ∧
      (kvs_put_raw c4wit [97] [49]).1.height = c4wit.height ∧
      (kvs_put_raw c4wit [97] [49]).1.node_count = c4wit.node_count ∧
      (kvs_put_raw c4wit [97] [49]).1.bloom = c4wit.bloom ∧
      (kvs_put_raw c4wit [97] [49]).1.bloom_bits = c4wit.bloom_bits ∧
      (kvs_put_raw c4wit [97] [49]).1.bloom_set_bits = c4wit.bloom_set_bits ∧
      (kvs_put_raw c4wit [97] [49]).1.pool_size = c4wit.pool_size) :=
  have h : (kvs_put_raw c4wit [97] [49]).2 = KVS_ERR_NOMEM :=
    (c4_put_oom_frame c4wit [97] [49]).1.mpr (by decide)
  ⟨h, (c4_put_oom_frame c4wit [97] [49]).2 h⟩

/-- C10: a put that fails with out-of-memory can still permanently consume
arena memory.  When the entry-record allocation succeeds but the key and
value allocations fail, the put reports no-memory and the tree, count and
bloom are untouched, yet the arena position, which kvs_stats reports as
memory_used, has advanced by the entry record and stays advanced. -/
theorem c10_failed_put_consumes_arena (db : KVS) (k v : List Nat)
    (h1 : db.pool_pos + ENTRY_SIZE ≤ db.pool_size)
    (h2 : db.pool_size < db.pool_pos + ENTRY_SIZE + poolRound (k.length + 1))
    (h3 : db.pool_size < db.pool_pos + ENTRY_SIZE + poolRound (v.length + 1)) :
    (kvs_put_raw db k v).2 = KVS_ERR_NOMEM ∧
    (kvs_put_raw db k v).1.root = db.root ∧
    (kvs_put_raw db k v).1.count = db.count ∧
    (kvs_put_raw db k v).1.bloom = db.bloom ∧
    (kvs_put_raw db k v).1.pool_pos = db.pool_pos + ENTRY_SIZE ∧
    (kvs_stats (kvs_put_raw db k v).1).memory_used =
      db.pool_pos + ENTRY_SIZE ∧
    db.pool_pos < (kvs_stats (kvs_put_raw db k v).1).memory_used := by
  have hE : poolRound ENTRY_SIZE = ENTRY_SIZE := by decide
  unfold kvs_put_raw pool_alloc kvs_stats
  rw [hE]
  have h1' : ¬ db.pool_size < db.pool_pos + ENTRY_SIZE := by omega
  simp [h1', h2, h3]
  decide

/-- Witness for C10: with a 32-byte arena the entry record exactly fits,
the key allocation fails, and eight bytes stay consumed. -/
theorem c10_failed_put_consumes_arena_witness :
    (kvs_put_raw c10wit [97] [49]).2 = KVS_ERR_NOMEM ∧
    (kvs_put_raw c10wit [97] [49]).1.root = c10wit.root ∧
    (kvs_put_raw c10wit [97] [49]).1.count = c10wit.count ∧
    (kvs_put_raw c10wit [97] [49]).1.bloom = c10wit.bloom ∧
    (kvs_put_raw c10wit [97] [49]).1.pool_pos = c10wit.pool_pos + ENTRY_SIZE ∧
    (kvs_stats (kvs_put_raw c10wit [97] [49]).1).memory_used =
      c10wit.pool_pos + ENTRY_SIZE ∧
    c10wit.pool_pos < (kvs_stats (kvs_put_raw c10wit [97] [49]).1).memory_used :=
  c10_failed_put_consumes_arena c10wit [97] [49] (by decide) (by decide)
    (by decide)

/-! ## Bloom filter frame and monotonicity lemmas -/

lemma bloom_set_bit_frame (db : KVS) (p : Nat) :
    (bloom_set_bit db p).root = db.root ∧
    (bloom_set_bit db p).count = db.count ∧
    (bloom_set_bit db p).pool_pos = db.pool_pos ∧
    (bloom_set_bit db p).pool_size = db.pool_size ∧
    (bloom_set_bit db p).height = db.height ∧
    (bloom_set_bit db p).node_count = db.node_count ∧
    (bloom_set_bit db p).bloom_bits = db.bloom_bits := by
  unfold bloom_set_bit
  split <;> simp

lemma bloom_add_frame (db : KVS) (k : List Nat) :
    (bloom_add db k).root = db.root ∧
    (bloom_add db k).count = db.count ∧
    (bloom_add db k).pool_pos = db.pool_pos ∧
    (bloom_add db k).pool_size = db.pool_size ∧
    (bloom_add db k).height = db.height ∧
    (bloom_add db k).node_count = db.node_count ∧
    (bloom_add db k).bloom_bits = db.bloom_bits := by
  unfold bloom_add
  refine ⟨?_, ?_, ?_, ?_, ?_, ?_, ?_⟩ <;>
    simp [bloom_set_bit_frame]

lemma bloom_fold_frame (L : List (List Entry)) (db : KVS) :
    let f := fun (d : KVS) (es : List Entry) => es.foldl
      (fun d e => if e.deleted then d else bloom_add d e.key) d
    (L.foldl f db).root = db.root ∧
    (L.foldl f db).count = db.count ∧
    (L.foldl f db).pool_pos = db.pool_pos ∧
    (L.foldl f db).pool_size = db.pool_size ∧
    (L.foldl f db).height = db.height ∧
    (L.foldl f db).node_count = db.node_count ∧
    (L.foldl f db).bloom_bits = db.bloom_bits := by
  induction L generalizing db with
  | nil => simp
  | cons es rest ih =>
    intro f
    have inner : ∀ (es : List Entry) (d : KVS),
        (es.foldl (fun d e => if e.deleted then d else bloom_add d e.key) d).root = d.root ∧
        (es.foldl (fun d e => if e.deleted then d else bloom_add d e.key) d).count = d.count ∧
        (es.foldl (fun d e => if e.deleted then d else bloom_add d e.key) d).pool_pos = d.pool_pos ∧
        (es.foldl (fun d e => if e.deleted then d else bloom_add d e.key) d).pool_size = d.pool_size ∧
        (es.foldl (fun d e => if e.deleted then d else bloom_add d e.key) d).height = d.height ∧
        (es.foldl (fun d e => if e.deleted then d else bloom_add d e.key) d).node_count = d.node_count ∧
        (es.foldl (fun d e => if e.deleted then d else bloom_add d e.key) d).bloom_bits = d.bloom_bits := by
      intro es
      induction es with
      | nil => intro d; simp
      | cons e rest2 ih2 =>
        intro d
        simp only [List.foldl_cons]
        rcases ih2 (if e.deleted then d else bloom_add d e.key) with
          ⟨a1, a2, a3, a4, a5, a6, a7⟩
        by_cases hd : e.deleted <;>
          simp_all [bloom_add_frame]
    simp only [List.foldl_cons]
    rcases ih (es.foldl (fun d e => if e.deleted then d else bloom_add d e.key) db) with
      ⟨a1, a2, a3, a4, a5, a6, a7⟩
    rcases inner es db with ⟨b1, b2, b3, b4, b5, b6, b7⟩
    exact ⟨by rw [a1, b1], by rw [a2, b2], by rw [a3, b3], by rw [a4, b4],
      by rw [a5, b5], by rw [a6, b6], by rw [a7, b7]⟩

lemma bloom_rebuild_frame (db : KVS) :
    (bloom_rebuild db).root = db.root ∧
    (bloom_rebuild db).count = db.count ∧
    (bloom_rebuild db).pool_pos = db.pool_pos ∧
    (bloom_rebuild db).pool_size = db.pool_size ∧
    (bloom_rebuild db).height = db.height ∧
    (bloom_rebuild db).node_count = db.node_count := by
  unfold bloom_rebuild
  rcases bloom_fold_frame (leavesOf db.root) db with ⟨a1, a2, a3, a4, a5, a6, a7⟩
  exact ⟨a1, a2, a3, a4, a5, a6⟩

lemma bloom_expand_frame (db : KVS) :
    (bloom_expand db).root = db.root ∧
    (bloom_expand db).count = db.count ∧
    (bloom_expand db).pool_pos = db.pool_pos ∧
    (bloom_expand db).pool_size = db.pool_size ∧
    (bloom_expand db).height = db.height ∧
    (bloom_expand db).node_count = db.node_count := by
  unfold bloom_expand
  by_cases h : min (db.bloom_bits * 4) KVS_BLOOM_MAX_BITS = db.bloom_bits
  · simp [h]
  · have hr := bloom_rebuild_frame { db with bloom := 0, bloom_bits := min (db.bloom_bits * 4) KVS_BLOOM_MAX_BITS, bloom_set_bits := 0 }
    simp only [h, if_neg, not_false_eq_true]
    simpa using hr

lemma bloom_check_expand_frame (db : KVS) :
    (bloom_check_expand db).root = db.root ∧
    (bloom_check_expand db).count = db.count ∧
    (bloom_check_expand db).pool_pos = db.pool_pos ∧
    (bloom_check_expand db).pool_size = db.pool_size ∧
    (bloom_check_expand db).height = db.height ∧
    (bloom_check_expand db).node_count = db.node_count := by
  unfold bloom_check_expand
  split
  · exact bloom_expand_frame db
  · exact ⟨rfl, rfl, rfl, rfl, rfl, rfl⟩

lemma bloom_set_bit_mono (db : KVS) (p q : Nat)
    (h : db.bloom.testBit q = true) :
    (bloom_set_bit db p).bloom.testBit q = true := by
  unfold bloom_set_bit
  split
  · exact h
  · simp [Nat.testBit_or, h]

lemma bloom_add_mono (db : KVS) (k : List Nat) (q : Nat)
    (h : db.bloom.testBit q = true) :
    (bloom_add db k).bloom.testBit q = true := by
  unfold bloom_add
  exact bloom_set_bit_mono _ _ _ (bloom_set_bit_mono _ _ _ (bloom_set_bit_mono _ _ _ h))

lemma bloom_maybe_mono_add (db : KVS) (k k' : List Nat)
    (h : bloom_maybe db k = true) :
    bloom_maybe (bloom_add db k') k = true := by
  unfold bloom_maybe bloom_get_bit at *
  have hb := (bloom_add_frame db k').2.2.2.2.2.2
  simp only [hb]
  simp only [Bool.and_eq_true] at h ⊢
  exact ⟨⟨bloom_add_mono _ _ _ h.1.1, bloom_add_mono _ _ _ h.1.2⟩,
    bloom_add_mono _ _ _ h.2⟩

lemma bloom_add_self (db : KVS) (k : List Nat) :
    bloom_maybe (bloom_add db k) k = true := by
  have hset : ∀ (d : KVS) (p : Nat), (bloom_set_bit d p).bloom.testBit p = true := by
    intro d p
    unfold bloom_set_bit
    split
    · assumption
    · simp [Nat.testBit_or]
  unfold bloom_maybe bloom_get_bit
  have hb := (bloom_add_frame db k).2.2.2.2.2.2
  simp only [hb, Bool.and_eq_true]
  unfold bloom_add
  refine ⟨⟨?_, ?_⟩, ?_⟩
  · exact bloom_set_bit_mono _ _ _ (bloom_set_bit_mono _ _ _ (hset _ _))
  · exact bloom_set_bit_mono _ _ _ (hset _ _)
  · exact hset _ _

/-- Every non-tombstoned entry of the walked leaves passes the filter after
the rebuild fold, and previously passing keys keep passing. -/
lemma bloom_fold_covers (L : List (List Entry)) (db : KVS) :
    let f := fun (d : KVS) (es : List Entry) => es.foldl
      (fun d e => if e.deleted then d else bloom_add d e.key) d
    (∀ k, bloom_maybe db k = true → bloom_maybe (L.foldl f db) k = true) ∧
    (∀ es ∈ L, ∀ e ∈ es, e.deleted = false →
      bloom_maybe (L.foldl f db) e.key = true) := by
  induction L generalizing db with
  | nil => simp
  | cons es rest ih =>
    intro f
    have inner : ∀ (es : List Entry) (d : KVS),
        (∀ k, bloom_maybe d k = true →
          bloom_maybe (es.foldl (fun d e => if e.deleted then d else bloom_add d e.key) d) k = true) ∧
        (∀ e ∈ es, e.deleted = false →
          bloom_maybe (es.foldl (fun d e => if e.deleted then d else bloom_add d e.key) d) e.key = true) := by
      intro es
      induction es with
      | nil => simp
      | cons e rest2 ih2 =>
        intro d
        simp only [List.foldl_cons]
        constructor
        · intro k hk
          apply (ih2 _).1
          by_cases hd : e.deleted <;> simp [hd, bloom_maybe_mono_add, hk]
        · intro e' he' hlive
          rcases List.mem_cons.mp he' with he' | he'
          · subst he'
            apply (ih2 _).1
            simp [hlive, bloom_add_self]
          · exact (ih2 _).2 e' he' hlive
    simp only [List.foldl_cons]
    constructor
    · intro k hk
      exact (ih _).1 k ((inner es db).1 k hk)
    · intro es' hes' e he hlive
      rcases List.mem_cons.mp hes' with hes' | hes'
      · subst hes'
        exact (ih _).1 _ ((inner es' db).2 e he hlive)
      · exact (ih _).2 es' hes' e he hlive

lemma bloom_rebuild_covers (db : KVS) (e : Entry)
    (he : e ∈ entriesOf db.root) (hlive : e.deleted = false) :
    bloom_maybe (bloom_rebuild db) e.key = true := by
  unfold bloom_rebuild
  rcases List.mem_flatten.mp (by simpa [entriesOf] using he) with ⟨es, hes, hin⟩
  exact (bloom_fold_covers (leavesOf db.root) db).2 es hes e hin hlive

lemma bloom_set_bit_pool (db : KVS) (x p : Nat) :
    bloom_set_bit { db with pool_pos := x } p =
      { bloom_set_bit db p with pool_pos := x } := by
  unfold bloom_set_bit
  by_cases h : db.bloom.testBit p <;> simp [h]

lemma bloom_add_pool (db : KVS) (x : Nat) (k : List Nat) :
    bloom_add { db with pool_pos := x } k =
      { bloom_add db k with pool_pos := x } := by
  unfold bloom_add
  simp only [bloom_set_bit_pool]

lemma kvs_put_raw_success (db : KVS) (k v : List Nat)
    (hfit : db.pool_pos + ENTRY_SIZE + poolRound (k.length + 1) +
      poolRound (v.length + 1) ≤ db.pool_size) :
    kvs_put_raw db k v = put_success_result db k v := by
  have hE : poolRound ENTRY_SIZE = ENTRY_SIZE := by decide
  have h1 : ¬ db.pool_size < db.pool_pos + ENTRY_SIZE := by omega
  have h2 : ¬ db.pool_size < db.pool_pos + ENTRY_SIZE + poolRound (k.length + 1) := by omega
  have h3 : ¬ db.pool_size < db.pool_pos + ENTRY_SIZE + poolRound (k.length + 1) +
      poolRound (v.length + 1) := by omega
  unfold kvs_put_raw pool_alloc put_success_result put_mid
  rw [hE]
  simp only [h1, h2, h3, if_neg, not_false_eq_true, Option.getD_some,
    Option.isNone_some, Bool.false_eq_true, or_self, if_false]
  rw [show ({ db with pool_pos := db.pool_pos + ENTRY_SIZE } : KVS).pool_size =
    db.pool_size from rfl]
  simp only [bloom_add_pool]
  cases hr : (insert_recursive db.root k { key := k, value := v, deleted := false }).1 with
  | one t => simp [hr, bloom_add_frame]
  | two l sep rt => simp [hr, bloom_add_frame]


lemma c6_bloom_add_id : ∀ p, bloom_add (c6state p) [97] = c6state p := by
  intro p
  have t1 : Nat.testBit c6bloom (fnv1a [97] % KVS_BLOOM_INIT_BITS) = true := by decide
  have t2 : Nat.testBit c6bloom (hash2 [97] % KVS_BLOOM_INIT_BITS) = true := by decide
  have t3 : Nat.testBit c6bloom (hash3 [97] % KVS_BLOOM_INIT_BITS) = true := by decide
  unfold bloom_add bloom_set_bit c6state
  simp only [t1, t2, t3, if_pos]

lemma c6_put_round (p : Nat) (hp : p + 48 ≤ KVS_DEFAULT_POOL_SIZE) :
    kvs_put_raw (c6state p) [97] [49] = (c6live (p + 48), KVS_OK) := by
  have i1 : insert_recursive
      (.leaf [{ key := [97], value := [49], deleted := true }]) [97]
      { key := [97], value := [49], deleted := false } =
      (.one (.leaf [{ key := [97], value := [49], deleted := false }]), true, 0) := rfl
  have hfit : (c6state p).pool_pos + ENTRY_SIZE +
      poolRound (([97] : List Nat).length + 1) +
      poolRound (([49] : List Nat).length + 1) ≤ (c6state p).pool_size := by
    show p + ENTRY_SIZE + poolRound 2 + poolRound 2 ≤ KVS_DEFAULT_POOL_SIZE
    have : ENTRY_SIZE + poolRound 2 + poolRound 2 = 48 := by decide
    omega
  rw [kvs_put_raw_success _ _ _ hfit]
  have hmid : put_mid (c6state p) [97] [49] = c6live (p + 48) := by
    unfold put_mid
    rw [show (c6state p).root =
      .leaf [{ key := [97], value := [49], deleted := true }] from rfl]
    rw [i1, c6_bloom_add_id p]
    unfold c6state c6live
    have harith : p + ENTRY_SIZE + poolRound 2 + poolRound 2 = p + 48 := by
      have h48 : ENTRY_SIZE + poolRound 2 + poolRound 2 = 48 := by decide
      omega
    simp [harith]
  unfold put_success_result
  rw [hmid]
  rw [if_neg (by simp [c6live])]

lemma c6_del_round (p : Nat) :
    kvs_delete (c6live p) [97] = (c6state p, KVS_OK) := by
  have t1 : Nat.testBit c6bloom (fnv1a [97] % KVS_BLOOM_INIT_BITS) = true := by decide
  have t2 : Nat.testBit c6bloom (hash2 [97] % KVS_BLOOM_INIT_BITS) = true := by decide
  have t3 : Nat.testBit c6bloom (hash3 [97] % KVS_BLOOM_INIT_BITS) = true := by decide
  have d1 : delete_at (.leaf [{ key := [97], value := [49], deleted := false }]) [97] =
      (.leaf [{ key := [97], value := [49], deleted := true }], true) := rfl
  have hm : bloom_maybe (c6live p) [97] = true := by
    unfold bloom_maybe bloom_get_bit c6live
    simp only [t1, t2, t3, Bool.and_self]
  unfold kvs_delete
  rw [hm]
  rw [if_neg (by decide)]
  rw [show (c6live p).root =
    .leaf [{ key := [97], value := [49], deleted := false }] from rfl]
  rw [d1]
  simp only [if_true]
  unfold c6live c6state
  simp


lemma c6_first_round :
    kvs_put_raw kvs_open [97] [49] = (c6live 48, KVS_OK) := by
  have h : c6live 48 = (kvs_put_raw kvs_open [97] [49]).1 := by rfl
  rw [h]
  exact Prod.ext rfl rfl

lemma c6_round_step (p : Nat) (hp : p + 48 ≤ KVS_DEFAULT_POOL_SIZE) :
    kvs_step (kvs_step (c6state p) (KVSOp.put [97] [49])) (KVSOp.del [97]) =
      c6state (p + 48) := by
  simp only [kvs_step]
  rw [c6_put_round p hp]
  have h : (c6live (p + 48), KVS_OK).1 = c6live (p + 48) := rfl
  rw [h, c6_del_round]

lemma c6_rounds (n : Nat) : ∀ p, p + 48 * n ≤ KVS_DEFAULT_POOL_SIZE →
    List.foldl kvs_step (c6state p) (c6ops n) = c6state (p + 48 * n) := by
  induction n with
  | zero =>
    intro p hp
    simp [c6ops]
  | succ n ih =>
    intro p hp
    have hp48 : p + 48 ≤ KVS_DEFAULT_POOL_SIZE := by omega
    have hops : c6ops (n + 1) =
        KVSOp.put [97] [49] :: KVSOp.del [97] :: c6ops n := by
      simp [c6ops, List.replicate_succ]
    have harith : p + 48 * (n + 1) = p + 48 + 48 * n := by omega
    rw [hops, harith]
    simp only [List.foldl_cons]
    rw [show kvs_step (kvs_step (c6state p) (KVSOp.put [97] [49]))
        (KVSOp.del [97]) = c6state (p + 48) from c6_round_step p hp48]
    exact ih (p + 48) (by omega)

lemma c6_round_step_counting (p m : Nat) (hp : p + 48 ≤ KVS_DEFAULT_POOL_SIZE) :
    kvs_step_counting (kvs_step_counting (c6state p, m) (KVSOp.put [97] [49]))
      (KVSOp.del [97]) = (c6state (p + 48), m + 1) := by
  simp only [kvs_step_counting]
  rw [c6_put_round p hp]
  rw [if_pos ⟨rfl, rfl⟩]
  have h1 : (c6live (p + 48), KVS_OK).1 = c6live (p + 48) := rfl
  rw [h1, c6_del_round]

lemma c6_rounds_counting (n : Nat) :
    ∀ p m, p + 48 * n ≤ KVS_DEFAULT_POOL_SIZE →
    List.foldl kvs_step_counting (c6state p, m) (c6ops n) =
      (c6state (p + 48 * n), m + n) := by
  induction n with
  | zero =>
    intro p m hp
    simp [c6ops]
  | succ n ih =>
    intro p m hp
    have hp48 : p + 48 ≤ KVS_DEFAULT_POOL_SIZE := by omega
    have hops : c6ops (n + 1) =
        KVSOp.put [97] [49] :: KVSOp.del [97] :: c6ops n := by
      simp [c6ops, List.replicate_succ]
    have ha1 : p + 48 * (n + 1) = p + 48 + 48 * n := by omega
    have ha2 : m + (n + 1) = m + 1 + n := by omega
    rw [hops, ha1, ha2]
    simp only [List.foldl_cons]
    rw [show kvs_step_counting (kvs_step_counting (c6state p, m)
        (KVSOp.put [97] [49])) (KVSOp.del [97]) = (c6state (p + 48), m + 1) from
      c6_round_step_counting p m hp48]
    exact ih (p + 48) (m + 1) (by omega)

lemma c6_run (n : Nat) (h : 48 + 48 * n ≤ KVS_DEFAULT_POOL_SIZE) :
    kvs_run (c6ops (n + 1)) = c6state (48 + 48 * n) := by
  unfold kvs_run
  have hops : c6ops (n + 1) =
      KVSOp.put [97] [49] :: KVSOp.del [97] :: c6ops n := by
    simp [c6ops, List.replicate_succ]
  rw [hops]
  simp only [List.foldl_cons]
  rw [show kvs_step (kvs_step kvs_open (KVSOp.put [97] [49]))
      (KVSOp.del [97]) = c6state 48 from by
    simp only [kvs_step]
    rw [c6_first_round]
    have h1 : (c6live 48, KVS_OK).1 = c6live 48 := rfl
    rw [h1, c6_del_round]]
  exact c6_rounds n 48 (by omega)

lemma c6_run_counting (n : Nat) (h : 48 + 48 * n ≤ KVS_DEFAULT_POOL_SIZE) :
    kvs_run_counting (c6ops (n + 1)) = (c6state (48 + 48 * n), n + 1) := by
  unfold kvs_run_counting
  have hops : c6ops (n + 1) =
      KVSOp.put [97] [49] :: KVSOp.del [97] :: c6ops n := by
    simp [c6ops, List.replicate_succ]
  rw [hops]
  simp only [List.foldl_cons]
  rw [show kvs_step_counting (kvs_step_counting (kvs_open, 0)
      (KVSOp.put [97] [49])) (KVSOp.del [97]) = (c6state 48, 1) from by
    simp only [kvs_step_counting]
    rw [c6_first_round]
    rw [if_pos ⟨rfl, rfl⟩]
    have h1 : (c6live 48, KVS_OK).1 = c6live 48 := rfl
    rw [h1, c6_del_round]]
  rw [c6_rounds_counting n 48 1 (by omega)]
  have h2 : 1 + n = n + 1 := by omega
  rw [h2]

/-- C6 counterexample: the claim says the bloom filter computes the fill
ratio on every 1,000th insert.  The guard on kvs.c line 404 tests the live
count, not the insert ordinal, so deletes shift the two apart.  In the
sequence below, 999 alternating put/delete rounds of one key are followed
by one more put of it: that put is the 1,000th insert of the sequence (the
counting run reports 999 inserts before it and 1000 after), it succeeds
and raises the live count to 1, yet 1 mod 1000 is nonzero, so the put does
not run the fill check, and the filter is not resized. -/
theorem c6_counterexample_thousandth_insert_skips_check :
    (kvs_run_counting (c6ops 999)).2 = 999 ∧
    (kvs_put_raw (kvs_run (c6ops 999)) [97] [49]).2 = KVS_OK ∧
    (kvs_put_raw (kvs_run (c6ops 999)) [97] [49]).1.count =
      (kvs_run (c6ops 999)).count + 1 ∧
    (kvs_run_counting (c6ops 999 ++ [KVSOp.put [97] [49]])).2 = 1000 ∧
    put_checks_fill (kvs_run (c6ops 999)) [97] [49] = false ∧
    (kvs_put_raw (kvs_run (c6ops 999)) [97] [49]).1.bloom_bits =
      (kvs_run (c6ops 999)).bloom_bits := by
  have hnum : (999 : Nat) = 998 + 1 := by norm_num
  have hbound : 48 + 48 * 998 ≤ KVS_DEFAULT_POOL_SIZE := by
    unfold KVS_DEFAULT_POOL_SIZE; omega
  have hrun : kvs_run (c6ops 999) = c6state 47952 := by
    rw [hnum, c6_run 998 hbound]
  have hcnt : kvs_run_counting (c6ops 999) = (c6state 47952, 999) := by
    rw [hnum, c6_run_counting 998 hbound]
  have hput : kvs_put_raw (c6state 47952) [97] [49] = (c6live 48000, KVS_OK) :=
    c6_put_round 47952 (by unfold KVS_DEFAULT_POOL_SIZE; omega)
  refine ⟨?_, ?_, ?_, ?_, ?_, ?_⟩
  · rw [hcnt]
  · rw [hrun, hput]
  · rw [hrun, hput]
    rfl
  · rw [show kvs_run_counting (c6ops 999 ++ [KVSOp.put [97] [49]]) =
        List.foldl kvs_step_counting (kvs_run_counting (c6ops 999))
          [KVSOp.put [97] [49]] from by
      unfold kvs_run_counting
      rw [List.foldl_append]]
    rw [hcnt]
    simp only [List.foldl_cons, List.foldl_nil]
    simp only [kvs_step_counting]
    rw [hput]
    rw [if_pos ⟨rfl, rfl⟩]
  · unfold put_checks_fill
    rw [hrun, hput]
    simp [c6live, KVS_OK]
  · rw [hrun, hput]
    rfl

lemma bloom_rebuild_bits (d : KVS) :
    (bloom_rebuild d).bloom_bits = d.bloom_bits := by
  unfold bloom_rebuild
  exact (bloom_fold_frame (leavesOf d.root) d).2.2.2.2.2.2

lemma check_expand_bits (d : KVS) :
    (bloom_check_expand d).bloom_bits =
      if d.bloom_bits ≤ 2 * d.bloom_set_bits ∧ d.bloom_bits < KVS_BLOOM_MAX_BITS
      then min (d.bloom_bits * 4) KVS_BLOOM_MAX_BITS
      else d.bloom_bits := by
  unfold bloom_check_expand
  by_cases h : d.bloom_bits ≤ 2 * d.bloom_set_bits ∧ d.bloom_bits < KVS_BLOOM_MAX_BITS
  · simp only [if_pos h]
    unfold bloom_expand
    by_cases h2 : min (d.bloom_bits * 4) KVS_BLOOM_MAX_BITS = d.bloom_bits
    · simp only [if_pos h2]
      exact h2.symm
    · simp only [if_neg h2]
      exact bloom_rebuild_bits _
  · simp only [if_neg h]

lemma check_expand_covers (d : KVS)
    (h : (bloom_check_expand d).bloom_bits ≠ d.bloom_bits) :
    ∀ e ∈ entriesOf d.root, e.deleted = false →
      bloom_maybe (bloom_check_expand d) e.key = true := by
  intro e he hlive
  unfold bloom_check_expand at *
  by_cases h1 : d.bloom_bits ≤ 2 * d.bloom_set_bits ∧ d.bloom_bits < KVS_BLOOM_MAX_BITS
  · simp only [if_pos h1] at *
    unfold bloom_expand at *
    by_cases h2 : min (d.bloom_bits * 4) KVS_BLOOM_MAX_BITS = d.bloom_bits
    · simp only [if_pos h2] at h
      exact absurd rfl h
    · simp only [if_neg h2] at *
      exact bloom_rebuild_covers _ e he hlive
  · simp only [if_neg h1] at h
    exact absurd rfl h

lemma kvs_delete_bits (db : KVS) (k : List Nat) :
    (kvs_delete db k).1.bloom_bits = db.bloom_bits := by
  unfold kvs_delete
  by_cases h1 : bloom_maybe db k = false
  · simp [h1]
  · simp only [if_neg h1]
    by_cases h2 : (delete_at db.root k).2 <;> simp [h2]

lemma put_bits_characterization (db : KVS) (k v : List Nat) :
    (kvs_put_raw db k v).1.bloom_bits =
      if put_checks_fill db k v = true ∧
          db.bloom_bits ≤ 2 * (bloom_add db k).bloom_set_bits ∧
          db.bloom_bits < KVS_BLOOM_MAX_BITS
      then min (db.bloom_bits * 4) KVS_BLOOM_MAX_BITS
      else db.bloom_bits := by
  by_cases hfit : db.pool_pos + ENTRY_SIZE + poolRound (k.length + 1) +
      poolRound (v.length + 1) ≤ db.pool_size
  case neg =>
    have hno : (kvs_put_raw db k v).2 = KVS_ERR_NOMEM :=
      (put_oom_characterization db k v).1.mpr (by omega)
    have hbits : (kvs_put_raw db k v).1.bloom_bits = db.bloom_bits :=
      ((put_oom_characterization db k v).2 hno).2.2.2.2.2.1
    have hpcf : put_checks_fill db k v = false := by
      unfold put_checks_fill
      rw [hno]
      simp [KVS_OK, KVS_ERR_NOMEM]
    rw [hbits, if_neg]
    simp [hpcf]
  case pos =>
    have hps := kvs_put_raw_success db k v hfit
    have hpcf : put_checks_fill db k v =
        decide ((put_mid db k v).count % 1000 = 0) := by
      unfold put_checks_fill
      rw [hps]
      unfold put_success_result
      by_cases hs : (put_mid db k v).count % 1000 = 0
      · simp only [if_pos hs]
        have hc : (bloom_check_expand (put_mid db k v)).count =
            (put_mid db k v).count := (bloom_check_expand_frame _).2.1
        simp [KVS_OK, hc, hs]
      · simp only [if_neg hs]
        simp [KVS_OK, hs]
    rw [hps]
    unfold put_success_result
    by_cases hs : (put_mid db k v).count % 1000 = 0
    · simp only [if_pos hs]
      rw [check_expand_bits]
      rw [show (put_mid db k v).bloom_bits = db.bloom_bits from rfl]
      rw [show (put_mid db k v).bloom_set_bits =
        (bloom_add db k).bloom_set_bits from rfl]
      rw [hpcf]
      simp [hs]
    · simp only [if_neg hs]
      rw [show (put_mid db k v).bloom_bits = db.bloom_bits from rfl]
      rw [if_neg]
      rw [hpcf]
      simp [hs]

lemma put_growth_covers (db : KVS) (k v : List Nat)
    (hne : (kvs_put_raw db k v).1.bloom_bits ≠ db.bloom_bits) :
    ∀ e ∈ entriesOf (kvs_put_raw db k v).1.root, e.deleted = false →
      bloom_maybe (kvs_put_raw db k v).1 e.key = true := by
  by_cases hfit : db.pool_pos + ENTRY_SIZE + poolRound (k.length + 1) +
      poolRound (v.length + 1) ≤ db.pool_size
  case neg =>
    have hno : (kvs_put_raw db k v).2 = KVS_ERR_NOMEM :=
      (put_oom_characterization db k v).1.mpr (by omega)
    have hbits : (kvs_put_raw db k v).1.bloom_bits = db.bloom_bits :=
      ((put_oom_characterization db k v).2 hno).2.2.2.2.2.1
    exact absurd hbits hne
  case pos =>
    have hps := kvs_put_raw_success db k v hfit
    rw [hps] at hne ⊢
    unfold put_success_result at hne ⊢
    by_cases hs : (put_mid db k v).count % 1000 = 0
    · simp only [if_pos hs] at hne ⊢
      intro e he hlive
      have hroot : (bloom_check_expand (put_mid db k v)).root =
          (put_mid db k v).root := (bloom_check_expand_frame _).1
      rw [hroot] at he
      refine check_expand_covers (put_mid db k v) ?_ e he hlive
      rw [show (put_mid db k v).bloom_bits = db.bloom_bits from rfl]
      exact hne
    · simp only [if_neg hs] at hne
      exact absurd (show (put_mid db k v).bloom_bits = db.bloom_bits
        from rfl) hne

/-- C6 amended: a put computes the fill ratio exactly when it succeeds and
leaves the live count divisible by 1000 (which coincides with every
1,000th insert only on histories without deletes or overwrites); exactly
when that check runs with 2 times set-bits at or above the bit count and
the bit count below 2^26, the vector is resized to min(4 times bits,
2^26); a delete never resizes the filter; and the rebuild pass that a
growth performs re-adds every live entry, so each one still passes the
filter afterwards.  put_checks_fill is the line-404 guard; the middle
condition reads the set-bit counter right after the put added its key,
which is the state the check sees. -/
theorem c6_growth_characterization_amended (db : KVS) (k v : List Nat) :
    ((kvs_put_raw db k v).1.bloom_bits =
      if put_checks_fill db k v = true ∧
          db.bloom_bits ≤ 2 * (bloom_add db k).bloom_set_bits ∧
          db.bloom_bits < KVS_BLOOM_MAX_BITS
      then min (db.bloom_bits * 4) KVS_BLOOM_MAX_BITS
      else db.bloom_bits) ∧
    ((kvs_delete db k).1.bloom_bits = db.bloom_bits) ∧
    (∀ e ∈ entriesOf db.root, e.deleted = false →
      bloom_maybe (bloom_rebuild db) e.key = true) :=
  ⟨put_bits_characterization db k v, kvs_delete_bits db k,
    fun e he hlive => bloom_rebuild_covers db e he hlive⟩

/-- Witness for C6 amended at a concrete store holding one live entry. -/
theorem c6_growth_characterization_amended_witness :
    ((kvs_put_raw (c6live 0) [97] [49]).1.bloom_bits =
      if put_checks_fill (c6live 0) [97] [49] = true ∧
          (c6live 0).bloom_bits ≤ 2 * (bloom_add (c6live 0) [97]).bloom_set_bits ∧
          (c6live 0).bloom_bits < KVS_BLOOM_MAX_BITS
      then min ((c6live 0).bloom_bits * 4) KVS_BLOOM_MAX_BITS
      else (c6live 0).bloom_bits) ∧
    ((kvs_delete (c6live 0) [97]).1.bloom_bits = (c6live 0).bloom_bits) ∧
    bloom_maybe (bloom_rebuild (c6live 0))
      (⟨[97], [49], false⟩ : Entry).key = true := by
  obtain ⟨h1, h2, h3⟩ := c6_growth_characterization_amended (c6live 0) [97] [49]
  exact ⟨h1, h2, h3 ⟨[97], [49], false⟩ (by decide) (by decide)⟩

/-! ## Order theory of keycmp

keycmp is the standard lexicographic comparison of byte lists: these
equations and the resulting order lemmas drive every search proof. -/

lemma keycmp_nil_nil : keycmp [] [] = .eq := rfl

lemma keycmp_nil_cons (b : Nat) (bs : List Nat) :
    keycmp [] (b :: bs) = .lt := by
  unfold keycmp memcmpBytes
  simp

lemma keycmp_cons_nil (a : Nat) (as : List Nat) :
    keycmp (a :: as) [] = .gt := by
  unfold keycmp memcmpBytes
  simp

lemma keycmp_cons_cons (a b : Nat) (as bs : List Nat) :
    keycmp (a :: as) (b :: bs) =
      if a < b then .lt else if b < a then .gt else keycmp as bs := by
  by_cases h1 : a < b
  · simp only [if_pos h1]
    unfold keycmp
    have hm : min (a :: as).length (b :: bs).length = min as.length bs.length + 1 := by
      simp [Nat.succ_min_succ]
    rw [hm]
    simp only [List.take_succ_cons]
    unfold memcmpBytes
    simp [h1]
  · by_cases h2 : b < a
    · simp only [if_neg h1, if_pos h2]
      unfold keycmp
      have hm : min (a :: as).length (b :: bs).length = min as.length bs.length + 1 := by
        simp [Nat.succ_min_succ]
      rw [hm]
      simp only [List.take_succ_cons]
      unfold memcmpBytes
      simp [h1, h2]
    · have hab : a = b := by omega
      subst hab
      simp only [if_neg h1, if_neg h2]
      show keycmp (a :: as) (a :: bs) = keycmp as bs
      unfold keycmp
      have hm : min (a :: as).length (a :: bs).length = min as.length bs.length + 1 := by
        simp [Nat.succ_min_succ]
      rw [hm]
      simp only [List.take_succ_cons]
      rw [show memcmpBytes (a :: List.take (min as.length bs.length) as)
          (a :: List.take (min as.length bs.length) bs) =
          memcmpBytes (List.take (min as.length bs.length) as)
            (List.take (min as.length bs.length) bs) from by
        conv_lhs => unfold memcmpBytes
        simp]
      simp only [List.length_cons, Nat.add_lt_add_iff_right]

lemma keycmp_eq_iff (a b : List Nat) : keycmp a b = .eq ↔ a = b := by
  induction a generalizing b with
  | nil =>
    cases b with
    | nil => simp [keycmp_nil_nil]
    | cons y ys => simp [keycmp_nil_cons]
  | cons x xs ih =>
    cases b with
    | nil => simp [keycmp_cons_nil]
    | cons y ys =>
      rw [keycmp_cons_cons]
      by_cases h1 : x < y
      · simp [h1]
        omega
      · by_cases h2 : y < x
        · simp [h1, h2]
          omega
        · have : x = y := by omega
          subst this
          simp [h1, h2, ih]

lemma keycmp_refl (a : List Nat) : keycmp a a = .eq := (keycmp_eq_iff a a).mpr rfl

lemma keycmp_swap (a b : List Nat) : (keycmp a b).swap = keycmp b a := by
  induction a generalizing b with
  | nil =>
    cases b with
    | nil => rw [keycmp_nil_nil]; rfl
    | cons y ys => rw [keycmp_nil_cons, keycmp_cons_nil]; rfl
  | cons x xs ih =>
    cases b with
    | nil => rw [keycmp_cons_nil, keycmp_nil_cons]; rfl
    | cons y ys =>
      rw [keycmp_cons_cons, keycmp_cons_cons]
      by_cases h1 : x < y
      · have h2 : ¬ y < x := by omega
        simp [h1, h2, Ordering.swap]
      · by_cases h2 : y < x
        · simp [h1, h2, Ordering.swap]
        · simp [h1, h2, ih]

lemma keycmp_lt_trans : ∀ {a b c : List Nat},
    keycmp a b = .lt → keycmp b c = .lt → keycmp a c = .lt := by
  intro a
  induction a with
  | nil =>
    intro b c hab hbc
    cases c with
    | nil =>
      cases b with
      | nil => exact absurd hab (by simp [keycmp_nil_nil])
      | cons y ys => exact absurd hbc (by simp [keycmp_cons_nil])
    | cons z zs => exact keycmp_nil_cons z zs
  | cons x xs ih =>
    intro b c hab hbc
    cases b with
    | nil => exact absurd hab (by simp [keycmp_cons_nil])
    | cons y ys =>
      cases c with
      | nil => exact absurd hbc (by simp [keycmp_cons_nil])
      | cons z zs =>
        rw [keycmp_cons_cons] at hab hbc ⊢
        by_cases h1 : x < y
        · by_cases h2 : y < z
          · simp [show x < z by omega]
          · by_cases h3 : z < y
            · simp [h2, h3] at hbc
            · have : y = z := by omega
              subst this
              simp [h1]
        · by_cases h2 : y < x
          · simp [h1, h2] at hab
          · have hxy : x = y := by omega
            subst hxy
            rw [if_neg (lt_irrefl x), if_neg (lt_irrefl x)] at hab
            by_cases h3 : x < z
            · simp [h3]
            · by_cases h4 : z < x
              · simp [h3, h4] at hbc
              · have : x = z := by omega
                subst this
                rw [if_neg (lt_irrefl x), if_neg (lt_irrefl x)] at hbc ⊢
                exact ih hab hbc

lemma keycmp_gt_iff_lt (a b : List Nat) :
    keycmp a b = .gt ↔ keycmp b a = .lt := by
  rw [← keycmp_swap b a]
  cases keycmp b a <;> simp [Ordering.swap]

lemma keycmp_trichotomy (a b : List Nat) :
    keycmp a b = .lt ∨ keycmp a b = .eq ∨ keycmp a b = .gt := by
  cases keycmp a b <;> simp

/-! ## Binary search correctness -/

lemma keycmp_lt_of_lt_of_le {a b c : List Nat}
    (h1 : keycmp a b = .lt) (h2 : keycmp b c ≠ .gt) : keycmp a c = .lt := by
  rcases keycmp_trichotomy b c with h | h | h
  · exact keycmp_lt_trans h1 h
  · rw [keycmp_eq_iff] at h
    subst h
    exact h1
  · exact absurd h h2

lemma sorted_getD_lt {ks : List (List Nat)} (hs : ks.Pairwise keyLt)
    {i j : Nat} (hij : i < j) (hj : j < ks.length) :
    keycmp (ks.getD i []) (ks.getD j []) = .lt := by
  have hi : i < ks.length := lt_trans hij hj
  rw [ks.getD_eq_getElem [] hi, ks.getD_eq_getElem [] hj]
  exact List.pairwise_iff_getElem.mp hs i j hi hj hij

lemma bsearch_lt_go {ks : List (List Nat)} {key : List Nat}
    (hs : ks.Pairwise keyLt) :
    ∀ fuel lo hi, hi - lo ≤ fuel → lo ≤ hi → hi ≤ ks.length →
    (∀ i, i < lo → keycmp (ks.getD i []) key = .lt) →
    (∀ i, hi ≤ i → i < ks.length → ¬ keycmp (ks.getD i []) key = .lt) →
    (∀ i, i < bsearch_lt ks key fuel lo hi →
      keycmp (ks.getD i []) key = .lt) ∧
    (∀ i, bsearch_lt ks key fuel lo hi ≤ i → i < ks.length →
      ¬ keycmp (ks.getD i []) key = .lt) ∧
    bsearch_lt ks key fuel lo hi ≤ ks.length := by
  intro fuel
  induction fuel with
  | zero =>
    intro lo hi hf hlh hhl hlo hhi
    unfold bsearch_lt
    have heq : hi = lo := by omega
    subst heq
    exact ⟨hlo, fun i h1 h2 => hhi i (by omega) h2, by omega⟩
  | succ fuel ih =>
    intro lo hi hf hlh hhl hlo hhi
    unfold bsearch_lt
    by_cases hlt : lo < hi
    · simp only [if_pos hlt]
      by_cases hmid : keycmp (ks.getD ((lo + hi) / 2) []) key = .lt
      · simp only [if_pos hmid]
        refine ih ((lo + hi) / 2 + 1) hi (by omega) (by omega) hhl ?_ hhi
        intro i hi2
        by_cases hi3 : i < (lo + hi) / 2
        · exact keycmp_lt_trans (sorted_getD_lt hs hi3 (by omega)) hmid
        · have : i = (lo + hi) / 2 := by omega
          subst this
          exact hmid
      · simp only [if_neg hmid]
        refine ih lo ((lo + hi) / 2) (by omega) (by omega) (by omega) hlo ?_
        intro i hi2 hi3 habs
        by_cases hi4 : (lo + hi) / 2 < i
        · exact hmid (keycmp_lt_trans
            (sorted_getD_lt hs hi4 hi3) habs)
        · have : i = (lo + hi) / 2 := by omega
          subst this
          exact hmid habs
    · simp only [if_neg hlt]
      have heq : hi = lo := by omega
      subst heq
      exact ⟨hlo, fun i h1 h2 => hhi i (by omega) h2, by omega⟩

lemma leaf_find_pos_spec {ks : List (List Nat)} {key : List Nat}
    (hs : ks.Pairwise keyLt) :
    (∀ i, i < leaf_find_pos ks key → keycmp (ks.getD i []) key = .lt) ∧
    (∀ i, leaf_find_pos ks key ≤ i → i < ks.length →
      ¬ keycmp (ks.getD i []) key = .lt) ∧
    leaf_find_pos ks key ≤ ks.length := by
  unfold leaf_find_pos
  exact bsearch_lt_go hs ks.length 0 ks.length (by omega) (by omega)
    (le_refl _) (fun i h => absurd h (by omega)) (fun i h1 h2 => absurd h1 (by omega))

lemma bsearch_le_go {ks : List (List Nat)} {key : List Nat}
    (hs : ks.Pairwise keyLt) :
    ∀ fuel lo hi, hi - lo ≤ fuel → lo ≤ hi → hi ≤ ks.length →
    (∀ i, i < lo → keycmp (ks.getD i []) key ≠ .gt) →
    (∀ i, hi ≤ i → i < ks.length → keycmp (ks.getD i []) key = .gt) →
    (∀ i, i < bsearch_le ks key fuel lo hi →
      keycmp (ks.getD i []) key ≠ .gt) ∧
    (∀ i, bsearch_le ks key fuel lo hi ≤ i → i < ks.length →
      keycmp (ks.getD i []) key = .gt) ∧
    bsearch_le ks key fuel lo hi ≤ ks.length := by
  intro fuel
  induction fuel with
  | zero =>
    intro lo hi hf hlh hhl hlo hhi
    unfold bsearch_le
    have heq : hi = lo := by omega
    subst heq
    exact ⟨hlo, fun i h1 h2 => hhi i (by omega) h2, by omega⟩
  | succ fuel ih =>
    intro lo hi hf hlh hhl hlo hhi
    unfold bsearch_le
    by_cases hlt : lo < hi
    · simp only [if_pos hlt]
      by_cases hmid : keycmp (ks.getD ((lo + hi) / 2) []) key ≠ .gt
      · simp only [if_pos hmid]
        refine ih ((lo + hi) / 2 + 1) hi (by omega) (by omega) hhl ?_ hhi
        intro i hi2
        by_cases hi3 : i < (lo + hi) / 2
        · exact fun habs => by
            have hlt2 := sorted_getD_lt hs hi3 (show (lo + hi) / 2 < ks.length by omega)
            have := keycmp_lt_of_lt_of_le hlt2 hmid
            rw [this] at habs
            cases habs
        · have : i = (lo + hi) / 2 := by omega
          subst this
          exact hmid
      · simp only [if_neg hmid]
        push_neg at hmid
        refine ih lo ((lo + hi) / 2) (by omega) (by omega) (by omega) hlo ?_
        intro i hi2 hi3
        by_cases hi4 : (lo + hi) / 2 < i
        · have hlt2 := sorted_getD_lt hs hi4 hi3
          rw [keycmp_gt_iff_lt] at hmid ⊢
          exact keycmp_lt_trans hmid hlt2
        · have : i = (lo + hi) / 2 := by omega
          subst this
          exact hmid
    · simp only [if_neg hlt]
      have heq : hi = lo := by omega
      subst heq
      exact ⟨hlo, fun i h1 h2 => hhi i (by omega) h2, by omega⟩

lemma internal_find_pos_spec {ks : List (List Nat)} {key : List Nat}
    (hs : ks.Pairwise keyLt) :
    (∀ i, i < internal_find_pos ks key → keycmp (ks.getD i []) key ≠ .gt) ∧
    (∀ i, internal_find_pos ks key ≤ i → i < ks.length →
      keycmp (ks.getD i []) key = .gt) ∧
    internal_find_pos ks key ≤ ks.length := by
  unfold internal_find_pos
  exact bsearch_le_go hs ks.length 0 ks.length (by omega) (by omega)
    (le_refl _) (fun i h => absurd h (by omega)) (fun i h1 h2 => absurd h1 (by omega))

/-! ## Abstraction rewriting -/

lemma entriesOf_leaf (es : List Entry) : entriesOf (.leaf es) = es := by
  unfold entriesOf leavesOf
  simp

lemma entriesOf_internal (ks : List (List Nat)) (cs : List BPNode) :
    entriesOf (.internal ks cs) = entriesOfList cs := rfl

lemma entriesOfList_nil : entriesOfList [] = [] := rfl

lemma entriesOfList_cons (c : BPNode) (cs : List BPNode) :
    entriesOfList (c :: cs) = entriesOf c ++ entriesOfList cs := by
  unfold entriesOfList
  rw [show leavesOfList (c :: cs) = leavesOf c ++ leavesOfList cs from rfl,
    List.flatten_append]
  rfl

/-! ## Bound weakening -/

lemma lbOk_weaken {lo : Option (List Nat)} {a x : List Nat}
    (h1 : lbOk lo a) (h2 : lbOk (some a) x) : lbOk lo x := by
  cases lo with
  | none => trivial
  | some l =>
    rcases h2 with h2 | h2
    · rcases h1 with h1 | h1
      · exact Or.inl (keycmp_lt_trans h1 h2)
      · subst h1
        exact Or.inl h2
    · subst h2
      exact h1

lemma ubOk_weaken {hi : Option (List Nat)} {b x : List Nat}
    (h1 : ubOk hi b) (h2 : keycmp x b = .lt) : ubOk hi x := by
  cases hi with
  | none => trivial
  | some u => exact keycmp_lt_trans h2 h1

lemma ubOk_weaken_le {hi : Option (List Nat)} {b x : List Nat}
    (h1 : ubOk hi b) (h2 : keycmp x b = .lt ∨ x = b) : ubOk hi x := by
  rcases h2 with h2 | h2
  · exact ubOk_weaken h1 h2
  · subst h2
    exact h1

/-! ## Entry keys lie within the bounds of their subtree -/

mutual

theorem entriesOf_bnd : ∀ (t : BPNode) lo hi, TreeWF lo t hi →
    ∀ e ∈ entriesOf t, bndOk lo hi e.key
  | .leaf es, lo, hi, hwf, e, he => by
    rw [entriesOf_leaf] at he
    exact hwf.2 e.key (List.mem_map_of_mem _ he)
  | .internal ks cs, lo, hi, hwf, e, he => by
    rw [entriesOf_internal] at he
    exact entriesOfList_bnd cs ks lo hi hwf.2.2 hwf.1
      (fun x hx => hwf.2.1 x hx) e he

theorem entriesOfList_bnd : ∀ (cs : List BPNode) ks lo hi,
    ChildrenWF lo ks cs hi → ks.Pairwise keyLt →
    (∀ x ∈ ks, bndOk lo hi x) →
    ∀ e ∈ entriesOfList cs, bndOk lo hi e.key
  | [], [], _, _, hwf, _, _, _, _ => (hwf : False).elim
  | [], _ :: _, _, _, hwf, _, _, _, _ => (hwf : False).elim
  | _ :: _ :: _, [], _, _, hwf, _, _, _, _ => (hwf : False).elim
  | [c], [], lo, hi, hwf, _, _, e, he => by
    rw [entriesOfList_cons] at he
    rcases List.mem_append.mp he with he | he
    · exact entriesOf_bnd c lo hi hwf e he
    · exact absurd he (by simp [entriesOfList_nil])
  | c :: cs, k0 :: ks, lo, hi, hwf, hsort, hks, e, he => by
    have hwf2 : TreeWF lo c (some k0) ∧ ChildrenWF (some k0) ks cs hi := hwf
    have hps := List.pairwise_cons.mp hsort
    have hk0 := hks k0 (by simp)
    rw [entriesOfList_cons] at he
    rcases List.mem_append.mp he with he | he
    · have hb := entriesOf_bnd c lo (some k0) hwf2.1 e he
      exact ⟨hb.1, ubOk_weaken hk0.2 hb.2⟩
    · have hb := entriesOfList_bnd cs ks (some k0) hi hwf2.2 hps.2
        (fun x hx => ⟨Or.inl (hps.1 x hx), (hks x (by simp [hx])).2⟩) e he
      exact ⟨lbOk_weaken hk0.1 hb.1, hb.2⟩

end

/-! ## Live-entry counting -/

lemma liveLen_nil : liveLen [] = 0 := rfl

lemma liveLen_cons (x : Entry) (l : List Entry) :
    liveLen (x :: l) = (if x.deleted then 0 else 1) + liveLen l := by
  unfold liveLen
  rw [List.filter_cons]
  by_cases h : x.deleted <;> simp [h, Nat.add_comm]

lemma liveLen_append (a b : List Entry) :
    liveLen (a ++ b) = liveLen a + liveLen b := by
  unfold liveLen
  rw [List.filter_append, List.length_append]

lemma set_getD_self : ∀ (l : List α) (n : Nat) (d : α),
    l.set n (l.getD n d) = l
  | [], _, _ => rfl
  | _ :: _, 0, _ => by simp
  | x :: xs, n + 1, d => by
    simpa [List.getD] using congrArg (x :: ·) (set_getD_self xs n d)

/-! ## Positional characterization of the reference list operations

The hypotheses are exactly the facts binary search provides about the
insertion position. -/

lemma listPut_found : ∀ (es : List Entry) (pos : Nat) (k : List Nat)
    (e : Entry),
    (∀ i, i < pos → keycmp (es.getD i default).key k = .lt) →
    pos < es.length →
    keycmp (es.getD pos default).key k = .eq →
    listPut k e es =
      (es.set pos (if (es.getD pos default).deleted then e
        else { es.getD pos default with value := e.value }),
       (es.getD pos default).deleted)
  | [], pos, k, e, _, hpos, _ => absurd hpos (by simp)
  | e0 :: rest, 0, k, e, _, _, heq => by
    simp only [List.getD_cons_zero] at heq ⊢
    have hk : keycmp k e0.key = .eq := by
      rw [keycmp_eq_iff] at heq ⊢
      exact heq.symm
    by_cases hd : e0.deleted
    · simp [listPut, hk, hd]
    · simp [listPut, hk, hd]
  | e0 :: rest, pos + 1, k, e, hb, hpos, heq => by
    have h0 : keycmp e0.key k = .lt := by
      simpa using hb 0 (Nat.succ_pos pos)
    have hk : keycmp k e0.key = .gt := (keycmp_gt_iff_lt k e0.key).mpr h0
    have ih := listPut_found rest pos k e
      (fun i hi => by simpa using hb (i + 1) (Nat.succ_lt_succ hi))
      (by simpa using hpos) (by simpa using heq)
    simp only [listPut, hk]
    simp [ih]

lemma listPut_absent : ∀ (es : List Entry) (pos : Nat) (k : List Nat)
    (e : Entry),
    (∀ i, i < pos → keycmp (es.getD i default).key k = .lt) →
    pos ≤ es.length →
    (∀ i, pos ≤ i → i < es.length →
      keycmp (es.getD i default).key k = .gt) →
    listPut k e es = (insertAt es pos e, true)
  | [], pos, k, e, _, _, _ => by simp [listPut, insertAt]
  | e0 :: rest, 0, k, e, _, _, hgt => by
    have h0 : keycmp e0.key k = .gt := by
      simpa using hgt 0 (le_refl 0) (by simp)
    have hk : keycmp k e0.key = .lt := (keycmp_gt_iff_lt e0.key k).mp h0
    simp [listPut, hk, insertAt]
  | e0 :: rest, pos + 1, k, e, hb, hpos, hgt => by
    have h0 : keycmp e0.key k = .lt := by
      simpa using hb 0 (Nat.succ_pos pos)
    have hk : keycmp k e0.key = .gt := (keycmp_gt_iff_lt k e0.key).mpr h0
    have ih := listPut_absent rest pos k e
      (fun i hi => by simpa using hb (i + 1) (Nat.succ_lt_succ hi))
      (by simpa using hpos)
      (fun i h1 h2 => by
        simpa using hgt (i + 1) (Nat.succ_le_succ h1) (Nat.succ_lt_succ h2))
    simp only [listPut, hk]
    simp [ih, insertAt]

lemma listDel_found : ∀ (es : List Entry) (pos : Nat) (k : List Nat),
    (∀ i, i < pos → keycmp (es.getD i default).key k = .lt) →
    pos < es.length →
    keycmp (es.getD pos default).key k = .eq →
    (es.getD pos default).deleted = false →
    listDel k es =
      (es.set pos { es.getD pos default with deleted := true }, true)
  | [], pos, k, _, hpos, _, _ => absurd hpos (by simp)
  | e0 :: rest, 0, k, _, _, heq, hlive => by
    simp only [List.getD_cons_zero] at heq hlive ⊢
    have hk : keycmp k e0.key = .eq := by
      rw [keycmp_eq_iff] at heq ⊢
      exact heq.symm
    simp [listDel, hk, hlive]
  | e0 :: rest, pos + 1, k, hb, hpos, heq, hlive => by
    have h0 : keycmp e0.key k = .lt := by
      simpa using hb 0 (Nat.succ_pos pos)
    have hk : keycmp k e0.key = .gt := (keycmp_gt_iff_lt k e0.key).mpr h0
    have ih := listDel_found rest pos k
      (fun i hi => by simpa using hb (i + 1) (Nat.succ_lt_succ hi))
      (by simpa using hpos) (by simpa using heq) (by simpa using hlive)
    simp only [listDel, hk]
    simp [ih]

lemma listDel_miss : ∀ (es : List Entry) (pos : Nat) (k : List Nat),
    (∀ i, i < pos → keycmp (es.getD i default).key k = .lt) →
    (pos = es.length ∨ keycmp (es.getD pos default).key k = .gt ∨
      (keycmp (es.getD pos default).key k = .eq ∧
        (es.getD pos default).deleted = true)) →
    listDel k es = (es, false)
  | [], pos, k, _, _ => by simp [listDel]
  | e0 :: rest, 0, k, _, hmiss => by
    rcases hmiss with h | h | h
    · exact absurd h (by simp)
    · have hk : keycmp k e0.key = .lt :=
        (keycmp_gt_iff_lt e0.key k).mp (by simpa using h)
      simp [listDel, hk]
    · have hk : keycmp k e0.key = .eq := by
        have h1 : keycmp e0.key k = .eq := by simpa using h.1
        rw [keycmp_eq_iff] at h1 ⊢
        exact h1.symm
      have hd : e0.deleted = true := by simpa using h.2
      simp [listDel, hk, hd]
  | e0 :: rest, pos + 1, k, hb, hmiss => by
    have h0 : keycmp e0.key k = .lt := by
      simpa using hb 0 (Nat.succ_pos pos)
    have hk : keycmp k e0.key = .gt := (keycmp_gt_iff_lt k e0.key).mpr h0
    have ih := listDel_miss rest pos k
      (fun i hi => by simpa using hb (i + 1) (Nat.succ_lt_succ hi))
      (by
        rcases hmiss with h | h | h
        · exact Or.inl (by simpa using h)
        · exact Or.inr (Or.inl (by simpa using h))
        · exact Or.inr (Or.inr ⟨by simpa using h.1, by simpa using h.2⟩))
    simp only [listDel, hk]
    simp [ih]

lemma listGet_found : ∀ (es : List Entry) (pos : Nat) (k : List Nat),
    (∀ i, i < pos → keycmp (es.getD i default).key k = .lt) →
    pos < es.length →
    keycmp (es.getD pos default).key k = .eq →
    listGet k es = (if (es.getD pos default).deleted then none
      else some (es.getD pos default).value)
  | [], pos, k, _, hpos, _ => absurd hpos (by simp)
  | e0 :: rest, 0, k, _, _, heq => by
    simp only [List.getD_cons_zero] at heq ⊢
    have hk : keycmp k e0.key = .eq := by
      rw [keycmp_eq_iff] at heq ⊢
      exact heq.symm
    simp [listGet, hk]
  | e0 :: rest, pos + 1, k, hb, hpos, heq => by
    have h0 : keycmp e0.key k = .lt := by
      simpa using hb 0 (Nat.succ_pos pos)
    have hk : keycmp k e0.key = .gt := (keycmp_gt_iff_lt k e0.key).mpr h0
    have ih := listGet_found rest pos k
      (fun i hi => by simpa using hb (i + 1) (Nat.succ_lt_succ hi))
      (by simpa using hpos) (by simpa using heq)
    simp only [listGet, hk]
    simp [ih]

lemma listGet_miss : ∀ (es : List Entry) (pos : Nat) (k : List Nat),
    (∀ i, i < pos → keycmp (es.getD i default).key k = .lt) →
    (pos = es.length ∨ keycmp (es.getD pos default).key k = .gt ∨
      (keycmp (es.getD pos default).key k = .eq ∧
        (es.getD pos default).deleted = true)) →
    listGet k es = none
  | [], pos, k, _, _ => by simp [listGet]
  | e0 :: rest, 0, k, _, hmiss => by
    rcases hmiss with h | h | h
    · exact absurd h (by simp)
    · have hk : keycmp k e0.key = .lt :=
        (keycmp_gt_iff_lt e0.key k).mp (by simpa using h)
      simp [listGet, hk]
    · have hk : keycmp k e0.key = .eq := by
        have h1 : keycmp e0.key k = .eq := by simpa using h.1
        rw [keycmp_eq_iff] at h1 ⊢
        exact h1.symm
      have hd : e0.deleted = true := by simpa using h.2
      simp [listGet, hk, hd]
  | e0 :: rest, pos + 1, k, hb, hmiss => by
    have h0 : keycmp e0.key k = .lt := by
      simpa using hb 0 (Nat.succ_pos pos)
    have hk : keycmp k e0.key = .gt := (keycmp_gt_iff_lt k e0.key).mpr h0
    have ih := listGet_miss rest pos k
      (fun i hi => by simpa using hb (i + 1) (Nat.succ_lt_succ hi))
      (by
        rcases hmiss with h | h | h
        · exact Or.inl (by simpa using h)
        · exact Or.inr (Or.inl (by simpa using h))
        · exact Or.inr (Or.inr ⟨by simpa using h.1, by simpa using h.2⟩))
    simp only [listGet, hk]
    simp [ih]

/-! ## Compositional behaviour of the reference operations -/

lemma listPut_append_left : ∀ (A B : List Entry) (k : List Nat) (e : Entry),
    (∀ b ∈ B, keycmp k b.key = .lt) →
    listPut k e (A ++ B) = ((listPut k e A).1 ++ B, (listPut k e A).2)
  | [], B, k, e, hB => by
    cases B with
    | nil => simp [listPut]
    | cons b0 B =>
      have hk := hB b0 (by simp)
      simp [listPut, hk]
  | a0 :: A, B, k, e, hB => by
    cases hc : keycmp k a0.key
    · simp [listPut, hc]
    · by_cases hd : a0.deleted <;> simp [listPut, hc, hd]
    · have ih := listPut_append_left A B k e hB
      simp [listPut, hc, ih]

lemma listPut_append_right : ∀ (A B : List Entry) (k : List Nat) (e : Entry),
    (∀ a ∈ A, keycmp k a.key = .gt) →
    listPut k e (A ++ B) = (A ++ (listPut k e B).1, (listPut k e B).2)
  | [], B, k, e, _ => by simp
  | a0 :: A, B, k, e, hA => by
    have hk := hA a0 (by simp)
    have ih := listPut_append_right A B k e (fun a ha => hA a (by simp [ha]))
    simp [listPut, hk, ih]

lemma listDel_append_left : ∀ (A B : List Entry) (k : List Nat),
    (∀ b ∈ B, keycmp k b.key = .lt) →
    listDel k (A ++ B) = ((listDel k A).1 ++ B, (listDel k A).2)
  | [], B, k, hB => by
    cases B with
    | nil => simp [listDel]
    | cons b0 B =>
      have hk := hB b0 (by simp)
      simp [listDel, hk]
  | a0 :: A, B, k, hB => by
    cases hc : keycmp k a0.key
    · simp [listDel, hc]
    · by_cases hd : a0.deleted <;> simp [listDel, hc, hd]
    · have ih := listDel_append_left A B k hB
      simp [listDel, hc, ih]

lemma listDel_append_right : ∀ (A B : List Entry) (k : List Nat),
    (∀ a ∈ A, keycmp k a.key = .gt) →
    listDel k (A ++ B) = (A ++ (listDel k B).1, (listDel k B).2)
  | [], B, k, _ => by simp
  | a0 :: A, B, k, hA => by
    have hk := hA a0 (by simp)
    have ih := listDel_append_right A B k (fun a ha => hA a (by simp [ha]))
    simp [listDel, hk, ih]

lemma listGet_append_left : ∀ (A B : List Entry) (k : List Nat),
    (∀ b ∈ B, keycmp k b.key = .lt) →
    listGet k (A ++ B) = listGet k A
  | [], B, k, hB => by
    cases B with
    | nil => simp
    | cons b0 B =>
      have hk := hB b0 (by simp)
      simp [listGet, hk]
  | a0 :: A, B, k, hB => by
    cases hc : keycmp k a0.key
    · simp [listGet, hc]
    · by_cases hd : a0.deleted <;> simp [listGet, hc, hd]
    · have ih := listGet_append_left A B k hB
      simp [listGet, hc, ih]

lemma listGet_append_right : ∀ (A B : List Entry) (k : List Nat),
    (∀ a ∈ A, keycmp k a.key = .gt) →
    listGet k (A ++ B) = listGet k B
  | [], B, k, _ => by simp
  | a0 :: A, B, k, hA => by
    have hk := hA a0 (by simp)
    have ih := listGet_append_right A B k (fun a ha => hA a (by simp [ha]))
    simp [listGet, hk, ih]

/-! ## Live-count deltas of the reference operations -/

lemma listPut_liveLen : ∀ (es : List Entry) (k : List Nat) (e : Entry),
    e.deleted = false →
    liveLen (listPut k e es).1 =
      liveLen es + (if (listPut k e es).2 then 1 else 0)
  | [], k, e, he => by simp [listPut, liveLen_cons, liveLen_nil, he]
  | e0 :: rest, k, e, he => by
    cases hc : keycmp k e0.key
    · by_cases hd : e0.deleted <;>
        simp [listPut, hc, liveLen_cons, he, hd] <;> omega
    · by_cases hd : e0.deleted <;>
        simp [listPut, hc, liveLen_cons, he, hd] <;> omega
    · have ih := listPut_liveLen rest k e he
      by_cases hd : e0.deleted <;>
        simp [listPut, hc, liveLen_cons, hd, ih] <;> omega

lemma listDel_liveLen : ∀ (es : List Entry) (k : List Nat),
    liveLen (listDel k es).1 + (if (listDel k es).2 then 1 else 0) =
      liveLen es
  | [], k => by simp [listDel, liveLen_nil]
  | e0 :: rest, k => by
    cases hc : keycmp k e0.key
    · simp [listDel, hc]
    · by_cases hd : e0.deleted <;>
        simp [listDel, hc, liveLen_cons, hd] <;> omega
    · have ih := listDel_liveLen rest k
      by_cases hd : e0.deleted <;>
        simp [listDel, hc, liveLen_cons, hd] <;> omega

/-! ## The put, delete, put round at the list level -/

lemma c7_list : ∀ (es : List Entry) (k : List Nat) (e1 e2 : Entry),
    e1.key = k → e1.deleted = false → e2.key = k → e2.deleted = false →
    (listDel k (listPut k e1 es).1).2 = true ∧
    (listPut k e2 (listDel k (listPut k e1 es).1).1).2 = true ∧
    listGet k (listPut k e2 (listDel k (listPut k e1 es).1).1).1 =
      some e2.value ∧
    liveLen (listPut k e2 (listDel k (listPut k e1 es).1).1).1 =
      liveLen (listPut k e1 es).1
  | [], k, e1, e2, h1, h1d, h2, h2d => by
    have hk1 : keycmp k e1.key = .eq := by rw [h1]; exact keycmp_refl k
    have hk2 : keycmp k e2.key = .eq := by rw [h2]; exact keycmp_refl k
    simp [listPut, listDel, listGet, hk1, hk2, h1d, h2d, liveLen_cons]
  | e0 :: rest, k, e1, e2, h1, h1d, h2, h2d => by
    have hk1 : keycmp k e1.key = .eq := by rw [h1]; exact keycmp_refl k
    have hk2 : keycmp k e2.key = .eq := by rw [h2]; exact keycmp_refl k
    cases hc : keycmp k e0.key
    · simp [listPut, listDel, listGet, hc, hk1, hk2, h1d, h2d, liveLen_cons]
    · by_cases hd : e0.deleted <;>
        simp [listPut, listDel, listGet, hc, hd, hk1, hk2, h1d, h2d,
          liveLen_cons]
    · have ih := c7_list rest k e1 e2 h1 h1d h2 h2d
      simp [listPut, listDel, listGet, hc, liveLen_cons,
        ih.1, ih.2.1, ih.2.2.1, ih.2.2.2]

/-! ## A successful lookup names a live entry -/

lemma listGet_some_imp : ∀ (es : List Entry) (k v : List Nat),
    listGet k es = some v →
    ∃ e ∈ es, e.deleted = false ∧ e.key = k ∧ e.value = v
  | [], k, v, h => by simp [listGet] at h
  | e0 :: rest, k, v, h => by
    cases hc : keycmp k e0.key
    · rw [listGet, hc] at h
      exact absurd h (by simp)
    · by_cases hd : e0.deleted
      · rw [listGet, hc] at h
        simp [hd] at h
      · rw [listGet, hc] at h
        simp [hd] at h
        refine ⟨e0, by simp, by simpa using hd, ?_, h⟩
        have := (keycmp_eq_iff k e0.key).mp hc
        exact this.symm
    · rw [listGet, hc] at h
      obtain ⟨e, he, hprop⟩ := listGet_some_imp rest k v h
      exact ⟨e, by simp [he], hprop⟩

/-! ## Put of a key above every present key appends -/

lemma listPut_all_gt : ∀ (es : List Entry) (k : List Nat) (e : Entry),
    (∀ x ∈ es, keycmp k x.key = .gt) →
    listPut k e es = (es ++ [e], true)
  | [], k, e, _ => by simp [listPut]
  | e0 :: rest, k, e, hA => by
    have hk := hA e0 (by simp)
    have ih := listPut_all_gt rest k e (fun a ha => hA a (by simp [ha]))
    simp [listPut, hk, ih]

/-! ## Sorted insertion -/

lemma mem_take_imp_getD {l : List α} {pos : Nat} {x : α} (d : α)
    (h : x ∈ l.take pos) :
    ∃ i, i < pos ∧ i < l.length ∧ l.getD i d = x := by
  obtain ⟨j, hj, hx⟩ := List.mem_iff_getElem.mp h
  have hlen : j < min pos l.length := by simpa using hj
  refine ⟨j, by omega, by omega, ?_⟩
  rw [List.getD_eq_getElem l d (by omega), ← hx, List.getElem_take]

lemma mem_drop_imp_getD {l : List α} {pos : Nat} {x : α} (d : α)
    (h : x ∈ l.drop pos) :
    ∃ i, pos ≤ i ∧ i < l.length ∧ l.getD i d = x := by
  obtain ⟨j, hj, hx⟩ := List.mem_iff_getElem.mp h
  have hlen : j < l.length - pos := by simpa using hj
  refine ⟨pos + j, by omega, by omega, ?_⟩
  rw [List.getD_eq_getElem l d (by omega), ← hx, List.getElem_drop]

lemma pairwise_insertAt {R : α → α → Prop} (l : List α) (pos : Nat) (a : α)
    (hs : l.Pairwise R)
    (hb : ∀ x ∈ l.take pos, R x a)
    (ha : ∀ x ∈ l.drop pos, R a x) :
    (insertAt l pos a).Pairwise R := by
  unfold insertAt
  rw [List.pairwise_append]
  have hsplit : (l.take pos ++ l.drop pos).Pairwise R := by
    rw [List.take_append_drop]
    exact hs
  refine ⟨hs.sublist (List.take_sublist _ _), ?_, ?_⟩
  · rw [List.pairwise_cons]
    exact ⟨ha, hs.sublist (List.drop_sublist _ _)⟩
  · intro x hx b hbmem
    rcases List.mem_cons.mp hbmem with rfl | hbmem
    · exact hb x hx
    · exact (List.pairwise_append.mp hsplit).2.2 x hx b hbmem

/-! ## Key arrays of modified leaves -/

lemma leafKeys_length (es : List Entry) :
    (leafKeys es).length = es.length := by
  simp [leafKeys]

lemma leafKeys_set (es : List Entry) (pos : Nat) (x : Entry) :
    leafKeys (es.set pos x) = (leafKeys es).set pos x.key := by
  unfold leafKeys
  rw [List.map_set]

lemma leafKeys_insertAt (es : List Entry) (pos : Nat) (x : Entry) :
    leafKeys (insertAt es pos x) = insertAt (leafKeys es) pos x.key := by
  unfold leafKeys insertAt
  rw [List.map_append, List.map_take, List.map_cons, List.map_drop]

lemma leafKeys_getD (es : List Entry) (i : Nat) (hi : i < es.length) :
    (leafKeys es).getD i [] = (es.getD i default).key := by
  unfold leafKeys
  rw [List.getD_eq_getElem _ [] (by simpa using hi),
    List.getD_eq_getElem _ default hi, List.getElem_map]

/-! ## insertAt structure -/

lemma insertAt_zero (l : List α) (a : α) : insertAt l 0 a = a :: l := by
  simp [insertAt]

lemma insertAt_cons_succ (x : α) (xs : List α) (n : Nat) (a : α) :
    insertAt (x :: xs) (n + 1) a = x :: insertAt xs n a := by
  simp [insertAt]

lemma mem_insertAt {l : List α} {pos : Nat} {a x : α}
    (h : x ∈ insertAt l pos a) : x = a ∨ x ∈ l := by
  unfold insertAt at h
  rcases List.mem_append.mp h with h | h
  · exact Or.inr (List.mem_of_mem_take h)
  · rcases List.mem_cons.mp h with h | h
    · exact Or.inl h
    · exact Or.inr (List.mem_of_mem_drop h)

lemma tail_keys_bnd {k0 : List Nat} {ks : List (List Nat)}
    {lo hi : Option (List Nat)}
    (hsort : (k0 :: ks).Pairwise keyLt) (hb : ∀ x ∈ k0 :: ks, bndOk lo hi x) :
    ∀ x ∈ ks, bndOk (some k0) hi x :=
  fun x hx => ⟨Or.inl ((List.pairwise_cons.mp hsort).1 x hx),
    (hb x (by simp [hx])).2⟩

lemma leavesOfList_append : ∀ (a b : List BPNode),
    leavesOfList (a ++ b) = leavesOfList a ++ leavesOfList b
  | [], _ => rfl
  | c :: a, b => by
    show leavesOf c ++ leavesOfList (a ++ b) =
      (leavesOf c ++ leavesOfList a) ++ leavesOfList b
    rw [leavesOfList_append a b, List.append_assoc]

lemma leafKeys_take (es : List Entry) (n : Nat) :
    leafKeys (es.take n) = (leafKeys es).take n := by
  unfold leafKeys
  rw [List.map_take]

lemma leafKeys_drop (es : List Entry) (n : Nat) :
    leafKeys (es.drop n) = (leafKeys es).drop n := by
  unfold leafKeys
  rw [List.map_drop]

lemma getD_mem_of_lt {l : List α} {n : Nat} (d : α) (h : n < l.length) :
    l.getD n d ∈ l := by
  rw [List.getD_eq_getElem l d h]
  exact List.getElem_mem h

/-! ## Correctness of split_leaf -/

lemma split_leaf_WF (es : List Entry) (lo hi : Option (List Nat))
    (hs : (leafKeys es).Pairwise keyLt)
    (hb : ∀ x ∈ leafKeys es, bndOk lo hi x)
    (hlen : 2 ≤ es.length) :
    WFRes lo (split_leaf es) hi ∧ InsResult.absOf (split_leaf es) = es := by
  have hkl : (leafKeys es).length = es.length := leafKeys_length es
  have h1 : 1 ≤ es.length / 2 := by omega
  have h2 : es.length / 2 < es.length := by omega
  have hsep : (leafKeys es).getD (es.length / 2) [] =
      (es.getD (es.length / 2) default).key := leafKeys_getD es _ h2
  constructor
  · show WFRes lo (.two (.leaf (es.take (es.length / 2)))
      ((es.getD (es.length / 2) default).key)
      (.leaf (es.drop (es.length / 2)))) hi
    refine ⟨⟨?_, ?_⟩, ⟨?_, ?_⟩, ⟨?_, ?_⟩⟩
    · rw [leafKeys_take]
      exact hs.sublist (List.take_sublist _ _)
    · intro x hx
      rw [leafKeys_take] at hx
      have hxm : x ∈ leafKeys es := List.mem_of_mem_take hx
      obtain ⟨i, hi1, hi2, hieq⟩ := mem_take_imp_getD [] hx
      refine ⟨(hb x hxm).1, ?_⟩
      show keycmp x ((es.getD (es.length / 2) default).key) = .lt
      rw [← hsep, ← hieq]
      exact sorted_getD_lt hs (by omega) (by omega)
    · cases lo with
      | none => trivial
      | some l =>
        have h0m : (leafKeys es).getD 0 [] ∈ leafKeys es :=
          getD_mem_of_lt [] (by omega)
        have hlb := (hb _ h0m).1
        have h0mid : keycmp ((leafKeys es).getD 0 [])
            ((leafKeys es).getD (es.length / 2) []) = .lt :=
          sorted_getD_lt hs (by omega) (by omega)
        show keycmp l ((es.getD (es.length / 2) default).key) = .lt
        rw [← hsep]
        rcases hlb with hlb | hlb
        · exact keycmp_lt_trans hlb h0mid
        · rw [hlb]
          exact h0mid
    · have hm : (leafKeys es).getD (es.length / 2) [] ∈ leafKeys es :=
        getD_mem_of_lt [] (by omega)
      have := (hb _ hm).2
      rw [hsep] at this
      exact this
    · rw [leafKeys_drop]
      exact hs.sublist (List.drop_sublist _ _)
    · intro x hx
      rw [leafKeys_drop] at hx
      have hxm : x ∈ leafKeys es := List.mem_of_mem_drop hx
      obtain ⟨i, hi1, hi2, hieq⟩ := mem_drop_imp_getD [] hx
      refine ⟨?_, (hb x hxm).2⟩
      show lbOk (some ((es.getD (es.length / 2) default).key)) x
      rcases Nat.eq_or_lt_of_le hi1 with heq | hlt
      · right
        rw [← hsep, ← hieq, heq]
      · left
        rw [← hsep, ← hieq]
        exact sorted_getD_lt hs hlt (by omega)
  · show entriesOf (.leaf (es.take (es.length / 2))) ++
      entriesOf (.leaf (es.drop (es.length / 2))) = es
    rw [entriesOf_leaf, entriesOf_leaf, List.take_append_drop]

/-! ## Correctness of split_internal -/

lemma ChildrenWF_take : ∀ (cs : List BPNode) (ks : List (List Nat))
    (lo hi : Option (List Nat)) (mid : Nat),
    ChildrenWF lo ks cs hi → mid < ks.length →
    ChildrenWF lo (ks.take mid) (cs.take (mid + 1)) (some (ks.getD mid []))
  | _, [], _, _, mid, _, hm => absurd hm (by simp)
  | [], _ :: _, _, _, _, hwf, _ => (hwf : False).elim
  | c :: cs, k0 :: ks, lo, hi, 0, hwf, _ => by
    have hwf2 : TreeWF lo c (some k0) ∧ ChildrenWF (some k0) ks cs hi := hwf
    show ChildrenWF lo [] [c] (some k0)
    exact hwf2.1
  | c :: cs, k0 :: ks, lo, hi, mid + 1, hwf, hm => by
    have hwf2 : TreeWF lo c (some k0) ∧ ChildrenWF (some k0) ks cs hi := hwf
    have ih := ChildrenWF_take cs ks (some k0) hi mid hwf2.2
      (by simpa using hm)
    show ChildrenWF lo (k0 :: ks.take mid) (c :: cs.take (mid + 1))
      (some (ks.getD mid []))
    exact ⟨hwf2.1, ih⟩

lemma ChildrenWF_drop : ∀ (cs : List BPNode) (ks : List (List Nat))
    (lo hi : Option (List Nat)) (mid : Nat),
    ChildrenWF lo ks cs hi → mid < ks.length →
    ChildrenWF (some (ks.getD mid [])) (ks.drop (mid + 1))
      (cs.drop (mid + 1)) hi
  | _, [], _, _, mid, _, hm => absurd hm (by simp)
  | [], _ :: _, _, _, _, hwf, _ => (hwf : False).elim
  | c :: cs, k0 :: ks, lo, hi, 0, hwf, _ => by
    have hwf2 : TreeWF lo c (some k0) ∧ ChildrenWF (some k0) ks cs hi := hwf
    show ChildrenWF (some k0) ks cs hi
    exact hwf2.2
  | c :: cs, k0 :: ks, lo, hi, mid + 1, hwf, hm => by
    have hwf2 : TreeWF lo c (some k0) ∧ ChildrenWF (some k0) ks cs hi := hwf
    have ih := ChildrenWF_drop cs ks (some k0) hi mid hwf2.2
      (by simpa using hm)
    show ChildrenWF (some (ks.getD mid [])) (ks.drop (mid + 1))
      (cs.drop (mid + 1)) hi
    exact ih

lemma entriesOfList_take_drop (cs : List BPNode) (n : Nat) :
    entriesOfList (cs.take n) ++ entriesOfList (cs.drop n) =
      entriesOfList cs := by
  unfold entriesOfList
  rw [← List.flatten_append, ← leavesOfList_append, List.take_append_drop]

lemma split_internal_WF (ks : List (List Nat)) (cs : List BPNode)
    (lo hi : Option (List Nat))
    (hs : ks.Pairwise keyLt) (hb : ∀ x ∈ ks, bndOk lo hi x)
    (hcwf : ChildrenWF lo ks cs hi) (hlen : 2 ≤ ks.length) :
    WFRes lo (split_internal ks cs) hi ∧
    InsResult.absOf (split_internal ks cs) = entriesOfList cs := by
  have h1 : 1 ≤ ks.length / 2 := by omega
  have h2 : ks.length / 2 < ks.length := by omega
  constructor
  · show WFRes lo (.two
      (.internal (ks.take (ks.length / 2)) (cs.take (ks.length / 2 + 1)))
      (ks.getD (ks.length / 2) [])
      (.internal (ks.drop (ks.length / 2 + 1))
        (cs.drop (ks.length / 2 + 1)))) hi
    refine ⟨⟨?_, ?_, ?_⟩, ⟨?_, ?_⟩, ⟨?_, ?_, ?_⟩⟩
    · exact hs.sublist (List.take_sublist _ _)
    · intro x hx
      have hxm : x ∈ ks := List.mem_of_mem_take hx
      obtain ⟨i, hi1, hi2, hieq⟩ := mem_take_imp_getD [] hx
      refine ⟨(hb x hxm).1, ?_⟩
      show keycmp x (ks.getD (ks.length / 2) []) = .lt
      rw [← hieq]
      exact sorted_getD_lt hs (by omega) (by omega)
    · exact ChildrenWF_take cs ks lo hi _ hcwf h2
    · cases lo with
      | none => trivial
      | some l =>
        have h0m : ks.getD 0 [] ∈ ks := getD_mem_of_lt [] (by omega)
        have hlb := (hb _ h0m).1
        have h0mid : keycmp (ks.getD 0 []) (ks.getD (ks.length / 2) []) =
            .lt := sorted_getD_lt hs (by omega) (by omega)
        rcases hlb with hlb | hlb
        · exact keycmp_lt_trans hlb h0mid
        · show keycmp l (ks.getD (ks.length / 2) []) = .lt
          rw [hlb]
          exact h0mid
    · exact (hb _ (getD_mem_of_lt [] h2)).2
    · exact hs.sublist (List.drop_sublist _ _)
    · intro x hx
      have hxm : x ∈ ks := List.mem_of_mem_drop hx
      obtain ⟨i, hi1, hi2, hieq⟩ := mem_drop_imp_getD [] hx
      refine ⟨?_, (hb x hxm).2⟩
      left
      rw [← hieq]
      exact sorted_getD_lt hs (by omega) (by omega)
    · exact ChildrenWF_drop cs ks lo hi _ hcwf h2
  · show entriesOfList (cs.take (ks.length / 2 + 1)) ++
      entriesOfList (cs.drop (ks.length / 2 + 1)) = entriesOfList cs
    exact entriesOfList_take_drop cs _

/-! ## The post-insert node assembly, split or not -/

lemma leaf_result_WF (es2 : List Entry) (lo hi : Option (List Nat))
    (hs : (leafKeys es2).Pairwise keyLt)
    (hb : ∀ x ∈ leafKeys es2, bndOk lo hi x) :
    WFRes lo (if KVS_BPTREE_ORDER - 1 ≤ es2.length then split_leaf es2
      else .one (.leaf es2)) hi ∧
    InsResult.absOf (if KVS_BPTREE_ORDER - 1 ≤ es2.length then split_leaf es2
      else .one (.leaf es2)) = es2 := by
  by_cases h : KVS_BPTREE_ORDER - 1 ≤ es2.length
  · simp only [if_pos h]
    refine split_leaf_WF es2 lo hi hs hb ?_
    have : KVS_BPTREE_ORDER = 64 := rfl
    omega
  · simp only [if_neg h]
    exact ⟨⟨hs, hb⟩, entriesOf_leaf es2⟩

lemma internal_result_WF (ks2 : List (List Nat)) (cs2 : List BPNode)
    (lo hi : Option (List Nat))
    (hs : ks2.Pairwise keyLt) (hb : ∀ x ∈ ks2, bndOk lo hi x)
    (hcwf : ChildrenWF lo ks2 cs2 hi) :
    WFRes lo (if KVS_BPTREE_ORDER - 1 ≤ ks2.length then
      split_internal ks2 cs2 else .one (.internal ks2 cs2)) hi ∧
    InsResult.absOf (if KVS_BPTREE_ORDER - 1 ≤ ks2.length then
      split_internal ks2 cs2 else .one (.internal ks2 cs2)) =
      entriesOfList cs2 := by
  by_cases h : KVS_BPTREE_ORDER - 1 ≤ ks2.length
  · simp only [if_pos h]
    refine split_internal_WF ks2 cs2 lo hi hs hb hcwf ?_
    have : KVS_BPTREE_ORDER = 64 := rfl
    omega
  · simp only [if_neg h]
    exact ⟨⟨hs, hb, hcwf⟩, entriesOf_internal ks2 cs2⟩

lemma keycmp_ne_gt_of_le {a b : List Nat}
    (h : keycmp a b = .lt ∨ a = b) : keycmp a b ≠ .gt := by
  rcases h with h | h
  · rw [h]
    simp
  · subst h
    rw [keycmp_refl]
    simp

lemma entriesOfList_singleton (c : BPNode) :
    entriesOfList [c] = entriesOf c := by
  rw [entriesOfList_cons, entriesOfList_nil, List.append_nil]

/-! ## Correctness of the recursive insert

A single descent updates exactly the reached leaf; relative to the flat
entry sequence the result is the reference listPut, the added flag
matches, and the order invariant is preserved (with a possible split
handed to the caller). -/

mutual

theorem insert_correct : ∀ (t : BPNode) (lo hi : Option (List Nat))
    (k : List Nat) (e : Entry),
    TreeWF lo t hi → bndOk lo hi k → e.key = k →
    InsResult.absOf (insert_recursive t k e).1 =
      (listPut k e (entriesOf t)).1 ∧
    (insert_recursive t k e).2.1 = (listPut k e (entriesOf t)).2 ∧
    WFRes lo (insert_recursive t k e).1 hi
  | .leaf es, lo, hi, k, e, hwf, hbk, hek => by
    have hs : (leafKeys es).Pairwise keyLt := hwf.1
    have hb : ∀ x ∈ leafKeys es, bndOk lo hi x := hwf.2
    have hkl : (leafKeys es).length = es.length := leafKeys_length es
    have hlt := (@leaf_find_pos_spec (leafKeys es) k hs).1
    have hnlt := (@leaf_find_pos_spec (leafKeys es) k hs).2.1
    have hle := (@leaf_find_pos_spec (leafKeys es) k hs).2.2
    have hltE : ∀ i, i < leaf_find_pos (leafKeys es) k →
        keycmp (es.getD i default).key k = .lt := by
      intro i hi
      rw [← leafKeys_getD es i (by omega)]
      exact hlt i hi
    rw [entriesOf_leaf]
    by_cases hfound : leaf_find_pos (leafKeys es) k < es.length ∧
        keycmp (es.getD (leaf_find_pos (leafKeys es) k) default).key k = .eq
    · rcases hfound with ⟨hposlt, heq⟩
      have hput := listPut_found es (leaf_find_pos (leafKeys es) k) k e
        hltE hposlt heq
      have hkeyeq : (es.getD (leaf_find_pos (leafKeys es) k) default).key =
          k := (keycmp_eq_iff _ _).mp heq
      by_cases hdel :
          (es.getD (leaf_find_pos (leafKeys es) k) default).deleted = true
      · have hres : insert_recursive (.leaf es) k e =
            (.one (.leaf (es.set (leaf_find_pos (leafKeys es) k) e)),
              true, 0) := by
          simp only [insert_recursive]
          rw [if_pos ⟨hposlt, heq⟩, if_neg (by rw [hdel]; simp)]
        have hkeys : leafKeys (es.set (leaf_find_pos (leafKeys es) k) e) =
            leafKeys es := by
          have hgd : (leafKeys es).getD (leaf_find_pos (leafKeys es) k) [] =
              e.key := by
            rw [leafKeys_getD es _ hposlt, hkeyeq, hek]
          rw [leafKeys_set, ← hgd, set_getD_self]
        rw [hres, hput]
        refine ⟨?_, ?_, ?_⟩
        · show entriesOf (.leaf (es.set (leaf_find_pos (leafKeys es) k) e)) =
            _
          rw [entriesOf_leaf, hdel]
          rfl
        · exact hdel.symm
        · show TreeWF lo
            (.leaf (es.set (leaf_find_pos (leafKeys es) k) e)) hi
          exact ⟨by rw [hkeys]; exact hs, by rw [hkeys]; exact hb⟩
      · have hdf :
            (es.getD (leaf_find_pos (leafKeys es) k) default).deleted =
              false := by simpa using hdel
        have hres : insert_recursive (.leaf es) k e =
            (.one (.leaf (es.set (leaf_find_pos (leafKeys es) k)
              { es.getD (leaf_find_pos (leafKeys es) k) default with
                value := e.value })), false, 0) := by
          simp only [insert_recursive]
          rw [if_pos ⟨hposlt, heq⟩, if_pos hdf]
        have hkeys : leafKeys (es.set (leaf_find_pos (leafKeys es) k)
            { es.getD (leaf_find_pos (leafKeys es) k) default with
              value := e.value }) = leafKeys es := by
          rw [leafKeys_set]
          show (leafKeys es).set (leaf_find_pos (leafKeys es) k)
            (es.getD (leaf_find_pos (leafKeys es) k) default).key = _
          have hgd : (leafKeys es).getD (leaf_find_pos (leafKeys es) k) [] =
              (es.getD (leaf_find_pos (leafKeys es) k) default).key :=
            leafKeys_getD es _ hposlt
          rw [← hgd, set_getD_self]
        rw [hres, hput]
        refine ⟨?_, ?_, ?_⟩
        · show entriesOf (.leaf (es.set (leaf_find_pos (leafKeys es) k)
            { es.getD (leaf_find_pos (leafKeys es) k) default with
              value := e.value })) = _
          rw [entriesOf_leaf, hdf]
          rfl
        · exact hdf.symm
        · show TreeWF lo (.leaf (es.set (leaf_find_pos (leafKeys es) k)
            { es.getD (leaf_find_pos (leafKeys es) k) default with
              value := e.value })) hi
          exact ⟨by rw [hkeys]; exact hs, by rw [hkeys]; exact hb⟩
    · have hgtE : ∀ i, leaf_find_pos (leafKeys es) k ≤ i →
          i < es.length → keycmp (es.getD i default).key k = .gt := by
        intro i h1 h2
        have hplt : leaf_find_pos (leafKeys es) k < es.length := by omega
        have hposgt : keycmp
            (es.getD (leaf_find_pos (leafKeys es) k) default).key k =
              .gt := by
          have hnl := hnlt (leaf_find_pos (leafKeys es) k)
            (le_refl _) (by omega)
          rw [leafKeys_getD es _ hplt] at hnl
          have hne : ¬ keycmp
              (es.getD (leaf_find_pos (leafKeys es) k) default).key k =
                .eq := fun hc => hfound ⟨hplt, hc⟩
          rcases keycmp_trichotomy
            (es.getD (leaf_find_pos (leafKeys es) k) default).key k with
            h | h | h
          · exact absurd h hnl
          · exact absurd h hne
          · exact h
        rcases Nat.eq_or_lt_of_le h1 with h1e | h1l
        · rw [← h1e]
          exact hposgt
        · have hkey : keycmp
              (es.getD (leaf_find_pos (leafKeys es) k) default).key
              (es.getD i default).key = .lt := by
            rw [← leafKeys_getD es _ (by omega),
              ← leafKeys_getD es i (by omega)]
            exact sorted_getD_lt hs h1l (by omega)
          rw [keycmp_gt_iff_lt] at hposgt ⊢
          exact keycmp_lt_trans hposgt hkey
      have hput := listPut_absent es (leaf_find_pos (leafKeys es) k) k e
        hltE (by omega) hgtE
      have hres : insert_recursive (.leaf es) k e =
          (if KVS_BPTREE_ORDER - 1 ≤
              (insertAt es (leaf_find_pos (leafKeys es) k) e).length then
            (split_leaf (insertAt es (leaf_find_pos (leafKeys es) k) e),
              true, 1)
          else
            (.one (.leaf (insertAt es (leaf_find_pos (leafKeys es) k) e)),
              true, 0)) := by
        simp only [insert_recursive]
        rw [if_neg hfound]
      have hsort2 : (leafKeys
          (insertAt es (leaf_find_pos (leafKeys es) k) e)).Pairwise
            keyLt := by
        rw [leafKeys_insertAt, hek]
        refine pairwise_insertAt _ _ _ hs ?_ ?_
        · intro x hx
          obtain ⟨i, hi1, hi2, hieq⟩ := mem_take_imp_getD [] hx
          show keycmp x k = .lt
          rw [← hieq]
          exact hlt i hi1
        · intro x hx
          obtain ⟨i, hi1, hi2, hieq⟩ := mem_drop_imp_getD [] hx
          show keycmp k x = .lt
          rw [← hieq, leafKeys_getD es i (by omega), ← keycmp_gt_iff_lt]
          exact hgtE i hi1 (by omega)
      have hbnd2 : ∀ x ∈ leafKeys
          (insertAt es (leaf_find_pos (leafKeys es) k) e),
          bndOk lo hi x := by
        intro x hx
        rw [leafKeys_insertAt, hek] at hx
        rcases mem_insertAt hx with rfl | hx
        · exact hbk
        · exact hb x hx
      rw [hres]
      by_cases hsp : KVS_BPTREE_ORDER - 1 ≤
          (insertAt es (leaf_find_pos (leafKeys es) k) e).length
      · rw [if_pos hsp]
        have hSL := split_leaf_WF
          (insertAt es (leaf_find_pos (leafKeys es) k) e) lo hi hsort2
          hbnd2 (by
            have hordc : KVS_BPTREE_ORDER = 64 := rfl
            omega)
        refine ⟨?_, ?_, hSL.1⟩
        · rw [hput]
          exact hSL.2
        · rw [hput]
      · rw [if_neg hsp]
        refine ⟨?_, ?_, ?_⟩
        · show entriesOf
            (.leaf (insertAt es (leaf_find_pos (leafKeys es) k) e)) = _
          rw [hput, entriesOf_leaf]
        · rw [hput]
        · exact ⟨hsort2, hbnd2⟩
  | .internal ks cs, lo, hi, k, e, hwf, hbk, hek => by
    have hsort : ks.Pairwise keyLt := hwf.1
    have hbnds : ∀ x ∈ ks, bndOk lo hi x := hwf.2.1
    have hcwf : ChildrenWF lo ks cs hi := hwf.2.2
    have hspec := @internal_find_pos_spec ks k hsort
    rw [entriesOf_internal]
    rcases hr : insert_child cs (internal_find_pos ks k) k e with
      ⟨rr, add, nn⟩
    obtain ⟨hadd, hone, htwo⟩ := insert_child_correct cs ks lo hi
      (internal_find_pos ks k) k e hcwf hsort hbnds hbk hek
      hspec.1 hspec.2.1 hspec.2.2 rr add nn hr
    cases rr with
    | one c2 =>
      obtain ⟨habs2, hcwf2⟩ := hone c2 rfl
      have hres : insert_recursive (.internal ks cs) k e =
          (if KVS_BPTREE_ORDER - 1 ≤ ks.length then
            (split_internal ks (cs.set (internal_find_pos ks k) c2),
              add, nn + 1)
          else
            (.one (.internal ks (cs.set (internal_find_pos ks k) c2)),
              add, nn)) := by
        simp only [insert_recursive]
        rw [hr]
      rw [hres]
      by_cases hsp : KVS_BPTREE_ORDER - 1 ≤ ks.length
      · rw [if_pos hsp]
        have hSI := split_internal_WF ks
          (cs.set (internal_find_pos ks k) c2) lo hi hsort hbnds hcwf2
          (by
            have hordc : KVS_BPTREE_ORDER = 64 := rfl
            omega)
        exact ⟨by rw [← habs2]; exact hSI.2, hadd, hSI.1⟩
      · rw [if_neg hsp]
        exact ⟨by rw [← habs2]; exact entriesOf_internal _ _, hadd,
          hsort, hbnds, hcwf2⟩
    | two l sep rt =>
      obtain ⟨habs2, hcwf2, hsort2, hbnd2, hsepb2⟩ := htwo l sep rt rfl
      have hres : insert_recursive (.internal ks cs) k e =
          (if KVS_BPTREE_ORDER - 1 ≤
              (insertAt ks (internal_find_pos ks k) sep).length then
            (split_internal (insertAt ks (internal_find_pos ks k) sep)
              (insertAt (cs.set (internal_find_pos ks k) l)
                (internal_find_pos ks k + 1) rt), add, nn + 1)
          else
            (.one (.internal (insertAt ks (internal_find_pos ks k) sep)
              (insertAt (cs.set (internal_find_pos ks k) l)
                (internal_find_pos ks k + 1) rt)), add, nn)) := by
        simp only [insert_recursive]
        rw [hr]
      rw [hres]
      by_cases hsp : KVS_BPTREE_ORDER - 1 ≤
          (insertAt ks (internal_find_pos ks k) sep).length
      · rw [if_pos hsp]
        have hSI := split_internal_WF
          (insertAt ks (internal_find_pos ks k) sep)
          (insertAt (cs.set (internal_find_pos ks k) l)
            (internal_find_pos ks k + 1) rt) lo hi hsort2 hbnd2 hcwf2
          (by
            have hordc : KVS_BPTREE_ORDER = 64 := rfl
            omega)
        exact ⟨by rw [← habs2]; exact hSI.2, hadd, hSI.1⟩
      · rw [if_neg hsp]
        exact ⟨by rw [← habs2]; exact entriesOf_internal _ _, hadd,
          hsort2, hbnd2, hcwf2⟩

theorem insert_child_correct : ∀ (cs : List BPNode) (ks : List (List Nat))
    (lo hi : Option (List Nat)) (pos : Nat) (k : List Nat) (e : Entry),
    ChildrenWF lo ks cs hi → ks.Pairwise keyLt →
    (∀ x ∈ ks, bndOk lo hi x) → bndOk lo hi k → e.key = k →
    (∀ i, i < pos → keycmp (ks.getD i []) k ≠ .gt) →
    (∀ i, pos ≤ i → i < ks.length → keycmp (ks.getD i []) k = .gt) →
    pos ≤ ks.length →
    ∀ r add nn, insert_child cs pos k e = (r, add, nn) →
    (add = (listPut k e (entriesOfList cs)).2) ∧
    (∀ c2, r = .one c2 →
      entriesOfList (cs.set pos c2) = (listPut k e (entriesOfList cs)).1 ∧
      ChildrenWF lo ks (cs.set pos c2) hi) ∧
    (∀ l sep rt, r = .two l sep rt →
      entriesOfList (insertAt (cs.set pos l) (pos + 1) rt) =
        (listPut k e (entriesOfList cs)).1 ∧
      ChildrenWF lo (insertAt ks pos sep)
        (insertAt (cs.set pos l) (pos + 1) rt) hi ∧
      (insertAt ks pos sep).Pairwise keyLt ∧
      (∀ x ∈ insertAt ks pos sep, bndOk lo hi x) ∧
      sepBnd lo hi sep)
  | [], [], _, _, _, _, _, hwf, _, _, _, _, _, _, _ => (hwf : False).elim
  | [], _ :: _, _, _, _, _, _, hwf, _, _, _, _, _, _, _ =>
    (hwf : False).elim
  | _ :: _ :: _, [], _, _, _, _, _, hwf, _, _, _, _, _, _, _ =>
    (hwf : False).elim
  | [c], [], lo, hi, pos + 1, _, _, _, _, _, _, _, _, _, hle =>
    absurd hle (by simp)
  | [c], [], lo, hi, 0, k, e, hwf, _, _, hbk, hek, _, _, _ => by
    intro r add nn hr
    have hr2 : insert_recursive c k e = (r, add, nn) := hr
    obtain ⟨habs, hflag, hwfres⟩ :=
      insert_correct c lo hi k e hwf hbk hek
    rw [hr2] at habs hflag hwfres
    refine ⟨?_, ?_, ?_⟩
    · rw [entriesOfList_singleton]
      exact hflag
    · intro c2 hc2
      subst hc2
      constructor
      · show entriesOfList [c2] = _
        rw [entriesOfList_singleton, entriesOfList_singleton]
        exact habs
      · show ChildrenWF lo [] [c2] hi
        exact hwfres
    · intro l sep rt h2
      subst h2
      obtain ⟨hL, hS, hR⟩ := hwfres
      refine ⟨?_, ?_, ?_, ?_, hS⟩
      · show entriesOfList [l, rt] = (listPut k e (entriesOfList [c])).1
        rw [entriesOfList_singleton, entriesOfList_cons,
          entriesOfList_singleton]
        exact habs
      · show ChildrenWF lo [sep] [l, rt] hi
        exact ⟨hL, hR⟩
      · show ([sep] : List (List Nat)).Pairwise keyLt
        simp
      · intro x hx
        have hx2 : x ∈ [sep] := hx
        obtain rfl := List.mem_singleton.mp hx2
        refine ⟨?_, hS.2⟩
        cases lo with
        | none => trivial
        | some l2 => exact Or.inl hS.1
  | c :: rest, k0 :: ks, lo, hi, 0, k, e, hwf, hsort, hbnds, hbk, hek,
      _, hgt, _ => by
    intro r add nn hr
    have hwf2 : TreeWF lo c (some k0) ∧ ChildrenWF (some k0) ks rest hi :=
      hwf
    have hps := List.pairwise_cons.mp hsort
    have hk0gt : keycmp k0 k = .gt := by
      simpa using hgt 0 (le_refl 0) (by simp)
    have hklt : keycmp k k0 = .lt := (keycmp_gt_iff_lt k0 k).mp hk0gt
    have hr2 : insert_recursive c k e = (r, add, nn) := hr
    obtain ⟨habs, hflag, hwfres⟩ :=
      insert_correct c lo (some k0) k e hwf2.1 ⟨hbk.1, hklt⟩ hek
    rw [hr2] at habs hflag hwfres
    have htb : ∀ x ∈ ks, bndOk (some k0) hi x := tail_keys_bnd hsort hbnds
    have hBlt : ∀ b ∈ entriesOfList rest, keycmp k b.key = .lt := by
      intro b hbm
      have hlb := (entriesOfList_bnd rest ks (some k0) hi hwf2.2 hps.2
        htb b hbm).1
      exact keycmp_lt_of_lt_of_le hklt (keycmp_ne_gt_of_le hlb)
    have hsplitList : listPut k e (entriesOfList (c :: rest)) =
        ((listPut k e (entriesOf c)).1 ++ entriesOfList rest,
          (listPut k e (entriesOf c)).2) := by
      rw [entriesOfList_cons]
      exact listPut_append_left _ _ _ _ hBlt
    refine ⟨?_, ?_, ?_⟩
    · rw [hsplitList]
      exact hflag
    · intro c2 hc2
      subst hc2
      constructor
      · show entriesOfList (c2 :: rest) = _
        rw [entriesOfList_cons, hsplitList]
        have habsE : entriesOf c2 = (listPut k e (entriesOf c)).1 := habs
        rw [habsE]
      · show ChildrenWF lo (k0 :: ks) (c2 :: rest) hi
        exact ⟨hwfres, hwf2.2⟩
    · intro l sep rt h2
      subst h2
      obtain ⟨hL, hS, hR⟩ := hwfres
      have hsep_k0 : keycmp sep k0 = .lt := hS.2
      refine ⟨?_, ?_, ?_, ?_, ?_⟩
      · show entriesOfList (l :: rt :: rest) = _
        rw [entriesOfList_cons, entriesOfList_cons, hsplitList,
          ← List.append_assoc]
        have habsE : entriesOf l ++ entriesOf rt =
          (listPut k e (entriesOf c)).1 := habs
        rw [habsE]
      · show ChildrenWF lo (sep :: k0 :: ks) (l :: rt :: rest) hi
        exact ⟨hL, hR, hwf2.2⟩
      · show ((sep :: k0 :: ks) : List (List Nat)).Pairwise keyLt
        rw [List.pairwise_cons]
        refine ⟨?_, hsort⟩
        intro x hx
        rcases List.mem_cons.mp hx with rfl | hx
        · exact hsep_k0
        · exact keycmp_lt_trans hsep_k0 (hps.1 x hx)
      · intro x hx
        have hx2 : x ∈ sep :: k0 :: ks := hx
        rcases List.mem_cons.mp hx2 with rfl | hx2
        · refine ⟨?_, ubOk_weaken (hbnds k0 (by simp)).2 hsep_k0⟩
          cases lo with
          | none => trivial
          | some l2 => exact Or.inl hS.1
        · exact hbnds x hx2
      · exact ⟨hS.1, ubOk_weaken (hbnds k0 (by simp)).2 hsep_k0⟩
  | c :: rest, k0 :: ks, lo, hi, pos + 1, k, e, hwf, hsort, hbnds, hbk,
      hek, hlt, hgt, hle => by
    intro r add nn hr
    have hwf2 : TreeWF lo c (some k0) ∧ ChildrenWF (some k0) ks rest hi :=
      hwf
    have hps := List.pairwise_cons.mp hsort
    have hk0le : keycmp k0 k ≠ .gt := by
      simpa using hlt 0 (Nat.succ_pos pos)
    have hk0k : keycmp k0 k = .lt ∨ k0 = k := by
      rcases keycmp_trichotomy k0 k with h | h | h
      · exact Or.inl h
      · exact Or.inr ((keycmp_eq_iff _ _).mp h)
      · exact absurd h hk0le
    have htb : ∀ x ∈ ks, bndOk (some k0) hi x := tail_keys_bnd hsort hbnds
    obtain ⟨hadd, hone, htwo⟩ := insert_child_correct rest ks (some k0) hi
      pos k e hwf2.2 hps.2 htb ⟨hk0k, hbk.2⟩ hek
      (fun i hi2 => by simpa using hlt (i + 1) (Nat.succ_lt_succ hi2))
      (fun i h1 h2 => by
        simpa using hgt (i + 1) (Nat.succ_le_succ h1)
          (Nat.succ_lt_succ h2))
      (by simpa using hle) r add nn hr
    have hAgt : ∀ a ∈ entriesOf c, keycmp k a.key = .gt := by
      intro a ha
      have hub := (entriesOf_bnd c lo (some k0) hwf2.1 a ha).2
      rw [keycmp_gt_iff_lt]
      exact keycmp_lt_of_lt_of_le hub (keycmp_ne_gt_of_le hk0k)
    have hsplitList : listPut k e (entriesOfList (c :: rest)) =
        (entriesOf c ++ (listPut k e (entriesOfList rest)).1,
          (listPut k e (entriesOfList rest)).2) := by
      rw [entriesOfList_cons]
      exact listPut_append_right _ _ _ _ hAgt
    refine ⟨?_, ?_, ?_⟩
    · rw [hsplitList]
      exact hadd
    · intro c2 hc2
      obtain ⟨habs2, hcwf2⟩ := hone c2 hc2
      constructor
      · show entriesOfList (c :: rest.set pos c2) = _
        rw [entriesOfList_cons, hsplitList, habs2]
      · show ChildrenWF lo (k0 :: ks) (c :: rest.set pos c2) hi
        exact ⟨hwf2.1, hcwf2⟩
    · intro l sep rt h2
      obtain ⟨habs2, hcwf2, hsort2, hbnd2, hsepb2⟩ := htwo l sep rt h2
      have hsepstrict : keycmp k0 sep = .lt := hsepb2.1
      refine ⟨?_, ?_, ?_, ?_, ?_⟩
      · show entriesOfList (c :: insertAt (rest.set pos l) (pos + 1) rt) =
          _
        rw [entriesOfList_cons, hsplitList, habs2]
      · show ChildrenWF lo (k0 :: insertAt ks pos sep)
          (c :: insertAt (rest.set pos l) (pos + 1) rt) hi
        exact ⟨hwf2.1, hcwf2⟩
      · show (k0 :: insertAt ks pos sep).Pairwise keyLt
        rw [List.pairwise_cons]
        refine ⟨?_, hsort2⟩
        intro x hx
        rcases mem_insertAt hx with rfl | hx
        · exact hsepstrict
        · exact hps.1 x hx
      · intro x hx
        have hx2 : x ∈ k0 :: insertAt ks pos sep := hx
        rcases List.mem_cons.mp hx2 with rfl | hx2
        · exact hbnds x (by simp)
        · rcases mem_insertAt hx2 with rfl | hx3
          · refine ⟨?_, hsepb2.2⟩
            cases lo with
            | none => trivial
            | some l2 =>
              rcases (hbnds k0 (by simp)).1 with h | h
              · exact Or.inl (keycmp_lt_trans h hsepstrict)
              · left
                rw [h]
                exact hsepstrict
          · exact hbnds x (by simp [hx3])
      · refine ⟨?_, hsepb2.2⟩
        cases lo with
        | none => trivial
        | some l2 =>
          rcases (hbnds k0 (by simp)).1 with h | h
          · exact keycmp_lt_trans h hsepstrict
          · rw [h]
            exact hsepstrict

end

/-! ## Correctness of the tombstoning delete -/

mutual

theorem delete_correct : ∀ (t : BPNode) (lo hi : Option (List Nat))
    (k : List Nat), TreeWF lo t hi →
    entriesOf (delete_at t k).1 = (listDel k (entriesOf t)).1 ∧
    (delete_at t k).2 = (listDel k (entriesOf t)).2 ∧
    TreeWF lo (delete_at t k).1 hi
  | .leaf es, lo, hi, k, hwf => by
    have hs : (leafKeys es).Pairwise keyLt := hwf.1
    have hb : ∀ x ∈ leafKeys es, bndOk lo hi x := hwf.2
    have hkl : (leafKeys es).length = es.length := leafKeys_length es
    have hlt := (@leaf_find_pos_spec (leafKeys es) k hs).1
    have hnlt := (@leaf_find_pos_spec (leafKeys es) k hs).2.1
    have hle := (@leaf_find_pos_spec (leafKeys es) k hs).2.2
    have hltE : ∀ i, i < leaf_find_pos (leafKeys es) k →
        keycmp (es.getD i default).key k = .lt := by
      intro i hi
      rw [← leafKeys_getD es i (by omega)]
      exact hlt i hi
    rw [entriesOf_leaf]
    by_cases hfound : leaf_find_pos (leafKeys es) k < es.length ∧
        keycmp (es.getD (leaf_find_pos (leafKeys es) k) default).key k =
          .eq ∧
        (es.getD (leaf_find_pos (leafKeys es) k) default).deleted = false
    · rcases hfound with ⟨hposlt, heq, hlive⟩
      have hdel := listDel_found es (leaf_find_pos (leafKeys es) k) k
        hltE hposlt heq hlive
      have hres : delete_at (.leaf es) k =
          (.leaf (es.set (leaf_find_pos (leafKeys es) k)
            { es.getD (leaf_find_pos (leafKeys es) k) default with
              deleted := true }), true) := by
        simp only [delete_at]
        rw [if_pos ⟨hposlt, heq, hlive⟩]
      have hkeys : leafKeys (es.set (leaf_find_pos (leafKeys es) k)
          { es.getD (leaf_find_pos (leafKeys es) k) default with
            deleted := true }) = leafKeys es := by
        rw [leafKeys_set]
        show (leafKeys es).set (leaf_find_pos (leafKeys es) k)
          (es.getD (leaf_find_pos (leafKeys es) k) default).key = _
        have hgd : (leafKeys es).getD (leaf_find_pos (leafKeys es) k) [] =
            (es.getD (leaf_find_pos (leafKeys es) k) default).key :=
          leafKeys_getD es _ hposlt
        rw [← hgd, set_getD_self]
      rw [hres, hdel]
      refine ⟨?_, rfl, ?_⟩
      · rw [entriesOf_leaf]
      · exact ⟨by rw [hkeys]; exact hs, by rw [hkeys]; exact hb⟩
    · have hmiss : leaf_find_pos (leafKeys es) k = es.length ∨
          keycmp (es.getD (leaf_find_pos (leafKeys es) k) default).key k =
            .gt ∨
          (keycmp (es.getD (leaf_find_pos (leafKeys es) k) default).key k =
            .eq ∧
           (es.getD (leaf_find_pos (leafKeys es) k) default).deleted =
             true) := by
        by_cases hplt : leaf_find_pos (leafKeys es) k < es.length
        · by_cases heq : keycmp
              (es.getD (leaf_find_pos (leafKeys es) k) default).key k = .eq
          · refine Or.inr (Or.inr ⟨heq, ?_⟩)
            by_cases hd :
                (es.getD (leaf_find_pos (leafKeys es) k) default).deleted =
                  true
            · exact hd
            · exact absurd ⟨hplt, heq, by simpa using hd⟩ hfound
          · have hnl := hnlt (leaf_find_pos (leafKeys es) k) (le_refl _)
              (by omega)
            rw [leafKeys_getD es _ hplt] at hnl
            rcases keycmp_trichotomy
              (es.getD (leaf_find_pos (leafKeys es) k) default).key k with
              h | h | h
            · exact absurd h hnl
            · exact absurd h heq
            · exact Or.inr (Or.inl h)
        · exact Or.inl (by omega)
      have hdel := listDel_miss es (leaf_find_pos (leafKeys es) k) k
        hltE hmiss
      have hres : delete_at (.leaf es) k = (.leaf es, false) := by
        simp only [delete_at]
        rw [if_neg hfound]
      rw [hres, hdel]
      exact ⟨entriesOf_leaf es, rfl, hwf⟩
  | .internal ks cs, lo, hi, k, hwf => by
    have hsort : ks.Pairwise keyLt := hwf.1
    have hbnds : ∀ x ∈ ks, bndOk lo hi x := hwf.2.1
    have hcwf : ChildrenWF lo ks cs hi := hwf.2.2
    have hspec := @internal_find_pos_spec ks k hsort
    obtain ⟨habs, hflag, hcwf2⟩ := delete_child_correct cs ks lo hi
      (internal_find_pos ks k) k hcwf hsort hbnds hspec.1 hspec.2.1
      hspec.2.2
    have hres : delete_at (.internal ks cs) k =
        (.internal ks (delete_at_child cs (internal_find_pos ks k) k).1,
          (delete_at_child cs (internal_find_pos ks k) k).2) := by
      simp only [delete_at]
    rw [entriesOf_internal, hres]
    exact ⟨by rw [entriesOf_internal]; exact habs, hflag,
      hsort, hbnds, hcwf2⟩

theorem delete_child_correct : ∀ (cs : List BPNode)
    (ks : List (List Nat)) (lo hi : Option (List Nat)) (pos : Nat)
    (k : List Nat),
    ChildrenWF lo ks cs hi → ks.Pairwise keyLt →
    (∀ x ∈ ks, bndOk lo hi x) →
    (∀ i, i < pos → keycmp (ks.getD i []) k ≠ .gt) →
    (∀ i, pos ≤ i → i < ks.length → keycmp (ks.getD i []) k = .gt) →
    pos ≤ ks.length →
    entriesOfList (delete_at_child cs pos k).1 =
      (listDel k (entriesOfList cs)).1 ∧
    (delete_at_child cs pos k).2 = (listDel k (entriesOfList cs)).2 ∧
    ChildrenWF lo ks (delete_at_child cs pos k).1 hi
  | [], [], _, _, _, _, hwf, _, _, _, _, _ => (hwf : False).elim
  | [], _ :: _, _, _, _, _, hwf, _, _, _, _, _ => (hwf : False).elim
  | _ :: _ :: _, [], _, _, _, _, hwf, _, _, _, _, _ => (hwf : False).elim
  | [c], [], lo, hi, pos + 1, _, _, _, _, _, _, hle =>
    absurd hle (by simp)
  | [c], [], lo, hi, 0, k, hwf, _, _, _, _, _ => by
    obtain ⟨habs, hflag, hwf2⟩ := delete_correct c lo hi k hwf
    refine ⟨?_, ?_, ?_⟩
    · show entriesOfList [(delete_at c k).1] = _
      rw [entriesOfList_singleton, entriesOfList_singleton]
      exact habs
    · rw [entriesOfList_singleton]
      exact hflag
    · show ChildrenWF lo [] [(delete_at c k).1] hi
      exact hwf2
  | c :: rest, k0 :: ks, lo, hi, 0, k, hwf, hsort, hbnds, _, hgt, _ => by
    have hwf2 : TreeWF lo c (some k0) ∧ ChildrenWF (some k0) ks rest hi :=
      hwf
    have hps := List.pairwise_cons.mp hsort
    have hk0gt : keycmp k0 k = .gt := by
      simpa using hgt 0 (le_refl 0) (by simp)
    have hklt : keycmp k k0 = .lt := (keycmp_gt_iff_lt k0 k).mp hk0gt
    obtain ⟨habs, hflag, hwfc⟩ := delete_correct c lo (some k0) k hwf2.1
    have htb : ∀ x ∈ ks, bndOk (some k0) hi x := tail_keys_bnd hsort hbnds
    have hBlt : ∀ b ∈ entriesOfList rest, keycmp k b.key = .lt := by
      intro b hbm
      have hlb := (entriesOfList_bnd rest ks (some k0) hi hwf2.2 hps.2
        htb b hbm).1
      exact keycmp_lt_of_lt_of_le hklt (keycmp_ne_gt_of_le hlb)
    have hsplitList : listDel k (entriesOfList (c :: rest)) =
        ((listDel k (entriesOf c)).1 ++ entriesOfList rest,
          (listDel k (entriesOf c)).2) := by
      rw [entriesOfList_cons]
      exact listDel_append_left _ _ _ hBlt
    refine ⟨?_, ?_, ?_⟩
    · show entriesOfList ((delete_at c k).1 :: rest) = _
      rw [entriesOfList_cons, hsplitList, habs]
    · rw [hsplitList]
      exact hflag
    · show ChildrenWF lo (k0 :: ks) ((delete_at c k).1 :: rest) hi
      exact ⟨hwfc, hwf2.2⟩
  | c :: rest, k0 :: ks, lo, hi, pos + 1, k, hwf, hsort, hbnds, hlt, hgt,
      hle => by
    have hwf2 : TreeWF lo c (some k0) ∧ ChildrenWF (some k0) ks rest hi :=
      hwf
    have hps := List.pairwise_cons.mp hsort
    have hk0le : keycmp k0 k ≠ .gt := by
      simpa using hlt 0 (Nat.succ_pos pos)
    have hk0k : keycmp k0 k = .lt ∨ k0 = k := by
      rcases keycmp_trichotomy k0 k with h | h | h
      · exact Or.inl h
      · exact Or.inr ((keycmp_eq_iff _ _).mp h)
      · exact absurd h hk0le
    have htb : ∀ x ∈ ks, bndOk (some k0) hi x := tail_keys_bnd hsort hbnds
    obtain ⟨habs, hflag, hcwf2⟩ := delete_child_correct rest ks (some k0)
      hi pos k hwf2.2 hps.2 htb
      (fun i hi2 => by simpa using hlt (i + 1) (Nat.succ_lt_succ hi2))
      (fun i h1 h2 => by
        simpa using hgt (i + 1) (Nat.succ_le_succ h1)
          (Nat.succ_lt_succ h2))
      (by simpa using hle)
    have hAgt : ∀ a ∈ entriesOf c, keycmp k a.key = .gt := by
      intro a ha
      have hub := (entriesOf_bnd c lo (some k0) hwf2.1 a ha).2
      rw [keycmp_gt_iff_lt]
      exact keycmp_lt_of_lt_of_le hub (keycmp_ne_gt_of_le hk0k)
    have hsplitList : listDel k (entriesOfList (c :: rest)) =
        (entriesOf c ++ (listDel k (entriesOfList rest)).1,
          (listDel k (entriesOfList rest)).2) := by
      rw [entriesOfList_cons]
      exact listDel_append_right _ _ _ hAgt
    refine ⟨?_, ?_, ?_⟩
    · show entriesOfList (c :: (delete_at_child rest pos k).1) = _
      rw [entriesOfList_cons, hsplitList, habs]
    · rw [hsplitList]
      exact hflag
    · show ChildrenWF lo (k0 :: ks)
        (c :: (delete_at_child rest pos k).1) hi
      exact ⟨hwf2.1, hcwf2⟩

end

/-! ## Correctness of the descent lookup -/

lemma leafLookup_spec (es : List Entry) (k : List Nat)
    (hs : (leafKeys es).Pairwise keyLt) :
    leafLookup es k = listGet k es := by
  have hkl : (leafKeys es).length = es.length := leafKeys_length es
  have hlt := (@leaf_find_pos_spec (leafKeys es) k hs).1
  have hnlt := (@leaf_find_pos_spec (leafKeys es) k hs).2.1
  have hle := (@leaf_find_pos_spec (leafKeys es) k hs).2.2
  have hltE : ∀ i, i < leaf_find_pos (leafKeys es) k →
      keycmp (es.getD i default).key k = .lt := by
    intro i hi
    rw [← leafKeys_getD es i (by omega)]
    exact hlt i hi
  by_cases hfnd : leaf_find_pos (leafKeys es) k < es.length ∧
      keycmp (es.getD (leaf_find_pos (leafKeys es) k) default).key k = .eq
  · rcases hfnd with ⟨hposlt, heq⟩
    have hget := listGet_found es (leaf_find_pos (leafKeys es) k) k
      hltE hposlt heq
    rw [hget]
    unfold leafLookup
    by_cases hd : (es.getD (leaf_find_pos (leafKeys es) k) default).deleted =
        true
    · rw [if_neg (by rintro ⟨-, -, h⟩; rw [hd] at h; cases h), if_pos hd]
    · have hdf : (es.getD (leaf_find_pos (leafKeys es) k) default).deleted =
          false := by simpa using hd
      rw [if_pos ⟨hposlt, heq, hdf⟩, hdf, if_neg Bool.false_ne_true]
  · have hmiss : leaf_find_pos (leafKeys es) k = es.length ∨
        keycmp (es.getD (leaf_find_pos (leafKeys es) k) default).key k =
          .gt ∨
        (keycmp (es.getD (leaf_find_pos (leafKeys es) k) default).key k =
          .eq ∧
         (es.getD (leaf_find_pos (leafKeys es) k) default).deleted =
           true) := by
      by_cases hplt : leaf_find_pos (leafKeys es) k < es.length
      · by_cases heq : keycmp
            (es.getD (leaf_find_pos (leafKeys es) k) default).key k = .eq
        · exact absurd ⟨hplt, heq⟩ hfnd
        · have hnl := hnlt (leaf_find_pos (leafKeys es) k) (le_refl _)
            (by omega)
          rw [leafKeys_getD es _ hplt] at hnl
          rcases keycmp_trichotomy
            (es.getD (leaf_find_pos (leafKeys es) k) default).key k with
            h | h | h
          · exact absurd h hnl
          · exact absurd h heq
          · exact Or.inr (Or.inl h)
      · exact Or.inl (by omega)
    rw [listGet_miss es (leaf_find_pos (leafKeys es) k) k hltE hmiss]
    unfold leafLookup
    rw [if_neg (by rintro ⟨h1, h2, -⟩; exact hfnd ⟨h1, h2⟩)]

mutual

theorem find_leaf_correct : ∀ (t : BPNode) (lo hi : Option (List Nat))
    (k : List Nat), TreeWF lo t hi →
    leafLookup (find_leaf t k) k = listGet k (entriesOf t)
  | .leaf es, lo, hi, k, hwf => by
    rw [entriesOf_leaf]
    show leafLookup es k = _
    exact leafLookup_spec es k hwf.1
  | .internal ks cs, lo, hi, k, hwf => by
    have hsort : ks.Pairwise keyLt := hwf.1
    have hspec := @internal_find_pos_spec ks k hsort
    rw [entriesOf_internal]
    show leafLookup (find_leaf_child cs (internal_find_pos ks k) k) k = _
    exact find_child_correct cs ks lo hi (internal_find_pos ks k) k
      hwf.2.2 hsort hwf.2.1 hspec.1 hspec.2.1 hspec.2.2

theorem find_child_correct : ∀ (cs : List BPNode) (ks : List (List Nat))
    (lo hi : Option (List Nat)) (pos : Nat) (k : List Nat),
    ChildrenWF lo ks cs hi → ks.Pairwise keyLt →
    (∀ x ∈ ks, bndOk lo hi x) →
    (∀ i, i < pos → keycmp (ks.getD i []) k ≠ .gt) →
    (∀ i, pos ≤ i → i < ks.length → keycmp (ks.getD i []) k = .gt) →
    pos ≤ ks.length →
    leafLookup (find_leaf_child cs pos k) k =
      listGet k (entriesOfList cs)
  | [], [], _, _, _, _, hwf, _, _, _, _, _ => (hwf : False).elim
  | [], _ :: _, _, _, _, _, hwf, _, _, _, _, _ => (hwf : False).elim
  | _ :: _ :: _, [], _, _, _, _, hwf, _, _, _, _, _ => (hwf : False).elim
  | [c], [], lo, hi, pos + 1, _, _, _, _, _, _, hle =>
    absurd hle (by simp)
  | [c], [], lo, hi, 0, k, hwf, _, _, _, _, _ => by
    show leafLookup (find_leaf c k) k = _
    rw [entriesOfList_singleton]
    exact find_leaf_correct c lo hi k hwf
  | c :: rest, k0 :: ks, lo, hi, 0, k, hwf, hsort, hbnds, _, hgt, _ => by
    have hwf2 : TreeWF lo c (some k0) ∧ ChildrenWF (some k0) ks rest hi :=
      hwf
    have hps := List.pairwise_cons.mp hsort
    have hk0gt : keycmp k0 k = .gt := by
      simpa using hgt 0 (le_refl 0) (by simp)
    have hklt : keycmp k k0 = .lt := (keycmp_gt_iff_lt k0 k).mp hk0gt
    have htb : ∀ x ∈ ks, bndOk (some k0) hi x := tail_keys_bnd hsort hbnds
    have hBlt : ∀ b ∈ entriesOfList rest, keycmp k b.key = .lt := by
      intro b hbm
      have hlb := (entriesOfList_bnd rest ks (some k0) hi hwf2.2 hps.2
        htb b hbm).1
      exact keycmp_lt_of_lt_of_le hklt (keycmp_ne_gt_of_le hlb)
    show leafLookup (find_leaf c k) k = _
    rw [entriesOfList_cons, listGet_append_left _ _ _ hBlt]
    exact find_leaf_correct c lo (some k0) k hwf2.1
  | c :: rest, k0 :: ks, lo, hi, pos + 1, k, hwf, hsort, hbnds, hlt, hgt,
      hle => by
    have hwf2 : TreeWF lo c (some k0) ∧ ChildrenWF (some k0) ks rest hi :=
      hwf
    have hps := List.pairwise_cons.mp hsort
    have hk0le : keycmp k0 k ≠ .gt := by
      simpa using hlt 0 (Nat.succ_pos pos)
    have hk0k : keycmp k0 k = .lt ∨ k0 = k := by
      rcases keycmp_trichotomy k0 k with h | h | h
      · exact Or.inl h
      · exact Or.inr ((keycmp_eq_iff _ _).mp h)
      · exact absurd h hk0le
    have htb : ∀ x ∈ ks, bndOk (some k0) hi x := tail_keys_bnd hsort hbnds
    have hAgt : ∀ a ∈ entriesOf c, keycmp k a.key = .gt := by
      intro a ha
      have hub := (entriesOf_bnd c lo (some k0) hwf2.1 a ha).2
      rw [keycmp_gt_iff_lt]
      exact keycmp_lt_of_lt_of_le hub (keycmp_ne_gt_of_le hk0k)
    show leafLookup (find_leaf_child rest pos k) k = _
    rw [entriesOfList_cons, listGet_append_right _ _ _ hAgt]
    exact find_child_correct rest ks (some k0) hi pos k hwf2.2 hps.2 htb
      (fun i hi2 => by simpa using hlt (i + 1) (Nat.succ_lt_succ hi2))
      (fun i h1 h2 => by
        simpa using hgt (i + 1) (Nat.succ_le_succ h1)
          (Nat.succ_lt_succ h2))
      (by simpa using hle)

end

/-! ## Membership and cost behaviour of the reference operations -/

lemma listPut_mem : ∀ (es : List Entry) (k : List Nat) (e : Entry),
    e.key = k → ∀ x ∈ (listPut k e es).1, x.key = k ∨ x ∈ es
  | [], k, e, hek, x, hx => by
    simp [listPut] at hx
    subst hx
    exact Or.inl hek
  | e0 :: rest, k, e, hek, x, hx => by
    cases hc : keycmp k e0.key
    · rw [listPut, hc] at hx
      rcases List.mem_cons.mp hx with rfl | hx
      · exact Or.inl hek
      · exact Or.inr hx
    · by_cases hd : e0.deleted
      · rw [listPut, hc] at hx
        simp only [hd, if_true] at hx
        rcases List.mem_cons.mp hx with rfl | hx
        · exact Or.inl hek
        · exact Or.inr (by simp [hx])
      · rw [listPut, hc] at hx
        simp only [hd, if_false] at hx
        rcases List.mem_cons.mp hx with rfl | hx
        · left
          show e0.key = k
          exact ((keycmp_eq_iff k e0.key).mp hc).symm
        · exact Or.inr (by simp [hx])
    · rw [listPut, hc] at hx
      rcases List.mem_cons.mp hx with rfl | hx
      · exact Or.inr (by simp)
      · rcases listPut_mem rest k e hek x hx with h | h
        · exact Or.inl h
        · exact Or.inr (by simp [h])

lemma listDel_live_mem : ∀ (es : List Entry) (k : List Nat) (x : Entry),
    x ∈ (listDel k es).1 → x.deleted = false → x ∈ es
  | [], k, x, hx, _ => by simp [listDel] at hx
  | e0 :: rest, k, x, hx, hlive => by
    cases hc : keycmp k e0.key
    · rw [listDel, hc] at hx
      exact hx
    · by_cases hd : e0.deleted
      · rw [listDel, hc] at hx
        simp only [hd, if_true] at hx
        exact hx
      · rw [listDel, hc] at hx
        simp only [hd, if_false] at hx
        rcases List.mem_cons.mp hx with rfl | hx
        · simp at hlive
        · exact by simp [hx]
    · rw [listDel, hc] at hx
      rcases List.mem_cons.mp hx with rfl | hx
      · simp
      · exact by simp [listDel_live_mem rest k x hx hlive]

lemma listGet_put_self : ∀ (es : List Entry) (k : List Nat) (e : Entry),
    e.key = k → e.deleted = false →
    listGet k (listPut k e es).1 = some e.value
  | [], k, e, hek, hed => by
    have hkk : keycmp k e.key = .eq := by
      rw [hek]
      exact keycmp_refl k
    simp [listPut, listGet, hkk, hed]
  | e0 :: rest, k, e, hek, hed => by
    have hkk : keycmp k e.key = .eq := by
      rw [hek]
      exact keycmp_refl k
    cases hc : keycmp k e0.key
    · rw [listPut, hc]
      simp [listGet, hkk, hed]
    · by_cases hd : e0.deleted
      · rw [listPut, hc]
        simp only [hd, if_true]
        simp [listGet, hkk, hed]
      · have hdf : e0.deleted = false := by simpa using hd
        rw [listPut, hc, hdf, if_neg Bool.false_ne_true]
        simp [listGet, hc]
    · rw [listPut, hc]
      rw [listGet]
      show (match keycmp k e0.key with
        | Ordering.lt => none
        | Ordering.eq => if e0.deleted = true then none else some e0.value
        | Ordering.gt => listGet k (listPut k e rest).1) = _
      rw [hc]
      exact listGet_put_self rest k e hek hed

lemma listCost_cons (x : Entry) (l : List Entry) :
    listCost (x :: l) = entryCost x + listCost l := by
  simp [listCost]

lemma listPut_cost : ∀ (es : List Entry) (k : List Nat) (e : Entry),
    listCost (listPut k e es).1 ≤ listCost es + entryCost e
  | [], k, e => by simp [listPut, listCost]
  | e0 :: rest, k, e => by
    cases hc : keycmp k e0.key
    · rw [listPut, hc]
      simp only [listCost_cons]
      omega
    · by_cases hd : e0.deleted
      · rw [listPut, hc]
        simp only [hd, if_true, listCost_cons]
        omega
      · have hdf : e0.deleted = false := by simpa using hd
        rw [listPut, hc, hdf, if_neg Bool.false_ne_true]
        show listCost (({ key := e0.key, value := e.value, deleted := false } : Entry) :: rest) ≤ _
        rw [listCost_cons, listCost_cons]
        have h1 : entryCost { key := e0.key, value := e.value, deleted := false } =
            ENTRY_SIZE + poolRound (e0.key.length + 1) +
              poolRound (e.value.length + 1) := rfl
        have h2 : entryCost e0 = ENTRY_SIZE +
            poolRound (e0.key.length + 1) +
            poolRound (e0.value.length + 1) := rfl
        have h3 : entryCost e = ENTRY_SIZE +
            poolRound (e.key.length + 1) +
            poolRound (e.value.length + 1) := rfl
        omega
    · rw [listPut, hc]
      simp only [listCost_cons]
      have := listPut_cost rest k e
      omega

lemma listDel_cost : ∀ (es : List Entry) (k : List Nat),
    listCost (listDel k es).1 = listCost es
  | [], k => rfl
  | e0 :: rest, k => by
    cases hc : keycmp k e0.key
    · rw [listDel, hc]
    · by_cases hd : e0.deleted
      · rw [listDel, hc]
        simp only [hd, if_true]
      · have hdf : e0.deleted = false := by simpa using hd
        rw [listDel, hc, hdf, if_neg Bool.false_ne_true]
        show listCost (({ key := e0.key, value := e0.value, deleted := true } : Entry) :: rest) = _
        rw [listCost_cons, listCost_cons]
        have h1 : entryCost { key := e0.key, value := e0.value, deleted := true } = entryCost e0 := rfl
        rw [h1]
    · rw [listDel, hc]
      simp only [listCost_cons, listDel_cost rest k]

lemma liveList_length (t : BPNode) :
    (liveList t).length = liveLen (entriesOf t) := rfl

lemma treeCost_listCost (t : BPNode) :
    treeCost t = listCost (entriesOf t) := rfl

/-! ## The bloom test reads only the bloom fields -/

lemma bloom_maybe_congr (d1 d2 : KVS) (h1 : d1.bloom = d2.bloom)
    (h2 : d1.bloom_bits = d2.bloom_bits) (x : List Nat) :
    bloom_maybe d1 x = bloom_maybe d2 x := by
  unfold bloom_maybe bloom_get_bit
  rw [h1, h2]

/-! ## Arena positions stay within the arena -/

lemma kvs_put_raw_oom_pool (db : KVS) (k v : List Nat)
    (hple : db.pool_pos ≤ db.pool_size)
    (hnofit : db.pool_size < db.pool_pos + ENTRY_SIZE +
      poolRound (k.length + 1) + poolRound (v.length + 1)) :
    db.pool_pos ≤ (kvs_put_raw db k v).1.pool_pos ∧
    (kvs_put_raw db k v).1.pool_pos ≤ db.pool_size := by
  have hE : poolRound ENTRY_SIZE = ENTRY_SIZE := by decide
  unfold kvs_put_raw pool_alloc
  rw [hE]
  set rk := poolRound (k.length + 1) with hrk
  set rv := poolRound (v.length + 1) with hrv
  by_cases h1 : db.pool_size < db.pool_pos + ENTRY_SIZE
  · by_cases h2 : db.pool_size < db.pool_pos + rk
    · by_cases h3 : db.pool_size < db.pool_pos + rv
      · refine ⟨?_, ?_⟩ <;> simp [h1, h2, h3] <;> omega
      · refine ⟨?_, ?_⟩ <;> simp [h1, h2, h3] <;> omega
    · by_cases h3 : db.pool_size < db.pool_pos + rk + rv
      · refine ⟨?_, ?_⟩ <;> simp [h1, h2, h3] <;> omega
      · refine ⟨?_, ?_⟩ <;> simp [h1, h2, h3] <;> omega
  · by_cases h2 : db.pool_size < db.pool_pos + ENTRY_SIZE + rk
    · by_cases h3 : db.pool_size < db.pool_pos + ENTRY_SIZE + rv
      · refine ⟨?_, ?_⟩ <;> simp [h1, h2, h3] <;> omega
      · refine ⟨?_, ?_⟩ <;> simp [h1, h2, h3] <;> omega
    · by_cases h3 : db.pool_size < db.pool_pos + ENTRY_SIZE + rk + rv
      · refine ⟨?_, ?_⟩ <;> simp [h1, h2, h3] <;> omega
      · exact absurd hnofit (by omega)

/-! ## What a successful put does to the store, in reference terms -/

lemma put_mid_fields (db : KVS) (k v : List Nat) :
    (put_mid db k v).pool_pos = db.pool_pos + ENTRY_SIZE +
      poolRound (k.length + 1) + poolRound (v.length + 1) ∧
    (put_mid db k v).pool_size = db.pool_size ∧
    (put_mid db k v).bloom = (bloom_add db k).bloom ∧
    (put_mid db k v).bloom_bits = db.bloom_bits ∧
    (put_mid db k v).bloom_set_bits = (bloom_add db k).bloom_set_bits :=
  ⟨rfl, rfl, rfl, rfl, rfl⟩

lemma put_mid_spec (db : KVS) (k v : List Nat) (hI : Inv db) :
    entriesOf (put_mid db k v).root =
      (listPut k { key := k, value := v, deleted := false }
        (entriesOf db.root)).1 ∧
    (put_mid db k v).count = db.count +
      (if (listPut k { key := k, value := v, deleted := false }
        (entriesOf db.root)).2 then 1 else 0) ∧
    TreeWF none (put_mid db k v).root none := by
  rcases hr : insert_recursive db.root k
    { key := k, value := v, deleted := false } with ⟨rr, add, nn⟩
  obtain ⟨habs, hflag, hwfres⟩ := insert_correct db.root none none k
    { key := k, value := v, deleted := false } hI.wf ⟨trivial, trivial⟩ rfl
  rw [hr] at habs hflag hwfres
  cases rr with
  | one t =>
    have hroot : (put_mid db k v).root = t := by
      simp only [put_mid]
      rw [hr]
    have hcount : (put_mid db k v).count =
        db.count + (if add then 1 else 0) := by
      simp only [put_mid]
      rw [hr]
    have habsE : entriesOf t = (listPut k
        { key := k, value := v, deleted := false }
        (entriesOf db.root)).1 := habs
    have hflagE : add = (listPut k
        { key := k, value := v, deleted := false }
        (entriesOf db.root)).2 := hflag
    refine ⟨?_, ?_, ?_⟩
    · rw [hroot]
      exact habsE
    · rw [hcount, hflagE]
    · rw [hroot]
      exact hwfres
  | two l sep rt =>
    have hroot : (put_mid db k v).root = .internal [sep] [l, rt] := by
      simp only [put_mid]
      rw [hr]
    have hcount : (put_mid db k v).count =
        db.count + (if add then 1 else 0) := by
      simp only [put_mid]
      rw [hr]
    obtain ⟨hL, hS, hR⟩ := hwfres
    have habsE : entriesOf (BPNode.internal [sep] [l, rt]) = (listPut k
        { key := k, value := v, deleted := false }
        (entriesOf db.root)).1 := by
      rw [entriesOf_internal, entriesOfList_cons, entriesOfList_singleton]
      exact habs
    have hflagE : add = (listPut k
        { key := k, value := v, deleted := false }
        (entriesOf db.root)).2 := hflag
    refine ⟨?_, ?_, ?_⟩
    · rw [hroot]
      exact habsE
    · rw [hcount, hflagE]
    · rw [hroot]
      exact ⟨by simp, fun x hx => ⟨trivial, trivial⟩, hL, hR⟩

/-! ## The store invariant is preserved by every operation -/

lemma Inv_check_expand (d : KVS) (hI : Inv d) :
    Inv (bloom_check_expand d) := by
  obtain ⟨hroot, hcount, hpp, hps, hh, hnc⟩ := bloom_check_expand_frame d
  have hbits := check_expand_bits d
  by_cases hc : d.bloom_bits ≤ 2 * d.bloom_set_bits ∧
      d.bloom_bits < KVS_BLOOM_MAX_BITS
  · rw [if_pos hc] at hbits
    have hne : (bloom_check_expand d).bloom_bits ≠ d.bloom_bits := by
      rw [hbits]
      have hpos := hI.bits_pos
      rcases Nat.le_total (d.bloom_bits * 4) KVS_BLOOM_MAX_BITS with h | h
      · rw [min_eq_left h]
        omega
      · rw [min_eq_right h]
        have := hc.2
        omega
    have hcov := check_expand_covers d hne
    refine ⟨?_, ?_, ?_, ?_, ?_, ?_, ?_, ?_⟩
    · rw [hroot]
      exact hI.wf
    · rw [hcount, hroot]
      exact hI.count_eq
    · intro e he hlive
      rw [hroot] at he
      exact hcov e he hlive
    · rw [hpp, hps]
      exact hI.pool_le
    · rw [hps]
      exact hI.pool_sz
    · rw [hroot, hpp]
      exact hI.cost_le
    · rw [hbits]
      have hpos := hI.bits_pos
      have hmax : 0 < KVS_BLOOM_MAX_BITS := by decide
      rcases Nat.le_total (d.bloom_bits * 4) KVS_BLOOM_MAX_BITS with h | h
      · rw [min_eq_left h]
        omega
      · rw [min_eq_right h]
        exact hmax
    · rw [hbits]
      exact min_le_right _ _
  · have heq : bloom_check_expand d = d := by
      unfold bloom_check_expand
      rw [if_neg hc]
    rw [heq]
    exact hI

lemma Inv_put_mid (db : KVS) (k v : List Nat) (hI : Inv db)
    (hfit : db.pool_pos + ENTRY_SIZE + poolRound (k.length + 1) +
      poolRound (v.length + 1) ≤ db.pool_size) :
    Inv (put_mid db k v) := by
  obtain ⟨habs, hcount, hwf⟩ := put_mid_spec db k v hI
  obtain ⟨hpp, hps, hbl, hbb, hbsb⟩ := put_mid_fields db k v
  refine ⟨hwf, ?_, ?_, ?_, ?_, ?_, ?_, ?_⟩
  · rw [hcount]
    have h2 : (liveList (put_mid db k v).root).length =
        liveLen (entriesOf (put_mid db k v).root) := rfl
    rw [h2, habs, listPut_liveLen _ _ _ rfl]
    have hc2 : db.count = liveLen (entriesOf db.root) := hI.count_eq
    rw [hc2]
  · intro e he hlive
    rw [habs] at he
    have hmem := listPut_mem (entriesOf db.root) k _ rfl e he
    have hmaybe : bloom_maybe (put_mid db k v) e.key =
        bloom_maybe (bloom_add db k) e.key := by
      apply bloom_maybe_congr
      · rw [hbl]
      · rw [hbb, (bloom_add_frame db k).2.2.2.2.2.2]
    rw [hmaybe]
    rcases hmem with hk | hold
    · rw [hk]
      exact bloom_add_self db k
    · exact bloom_maybe_mono_add db e.key k (hI.sound e hold hlive)
  · rw [hpp, hps]
    exact hfit
  · rw [hps]
    exact hI.pool_sz
  · rw [hpp]
    have h1 : treeCost (put_mid db k v).root =
        listCost (entriesOf (put_mid db k v).root) := rfl
    rw [h1, habs]
    have h2 := listPut_cost (entriesOf db.root) k
      { key := k, value := v, deleted := false }
    have h3 : treeCost db.root ≤ db.pool_pos := hI.cost_le
    have h4 : listCost (entriesOf db.root) = treeCost db.root := rfl
    have h5 : entryCost { key := k, value := v, deleted := false } =
        ENTRY_SIZE + poolRound (k.length + 1) +
          poolRound (v.length + 1) := rfl
    omega
  · rw [hbb]
    exact hI.bits_pos
  · rw [hbb]
    exact hI.bits_le

lemma Inv_put (db : KVS) (k v : List Nat) (hI : Inv db) :
    Inv (kvs_put_raw db k v).1 := by
  by_cases hfit : db.pool_pos + ENTRY_SIZE + poolRound (k.length + 1) +
      poolRound (v.length + 1) ≤ db.pool_size
  · rw [kvs_put_raw_success db k v hfit]
    show Inv (if (put_mid db k v).count % 1000 = 0 then
      bloom_check_expand (put_mid db k v) else put_mid db k v)
    by_cases hc : (put_mid db k v).count % 1000 = 0
    · rw [if_pos hc]
      exact Inv_check_expand _ (Inv_put_mid db k v hI hfit)
    · rw [if_neg hc]
      exact Inv_put_mid db k v hI hfit
  · have hnofit : db.pool_size < db.pool_pos + ENTRY_SIZE +
        poolRound (k.length + 1) + poolRound (v.length + 1) := by omega
    have hoom := (put_oom_characterization db k v).1.mpr hnofit
    obtain ⟨hroot, hcount, hheight, hnc, hbl, hbb, hbsb, hpsz⟩ :=
      (put_oom_characterization db k v).2 hoom
    obtain ⟨hmono, hle2⟩ := kvs_put_raw_oom_pool db k v hI.pool_le hnofit
    refine ⟨?_, ?_, ?_, ?_, ?_, ?_, ?_, ?_⟩
    · rw [hroot]
      exact hI.wf
    · rw [hcount, hroot]
      exact hI.count_eq
    · intro e he hlive
      rw [hroot] at he
      exact (bloom_maybe_congr _ db hbl hbb e.key).trans
        (hI.sound e he hlive)
    · rw [hpsz]
      exact hle2
    · rw [hpsz]
      exact hI.pool_sz
    · rw [hroot]
      have := hI.cost_le
      omega
    · rw [hbb]
      exact hI.bits_pos
    · rw [hbb]
      exact hI.bits_le

lemma kvs_put_raw_ok_fields (db : KVS) (k v : List Nat)
    (h : (kvs_put_raw db k v).2 = KVS_OK) :
    (kvs_put_raw db k v).1.root = (put_mid db k v).root ∧
    (kvs_put_raw db k v).1.count = (put_mid db k v).count := by
  have hfit : db.pool_pos + ENTRY_SIZE + poolRound (k.length + 1) +
      poolRound (v.length + 1) ≤ db.pool_size := by
    by_contra hn
    have hoom := (put_oom_characterization db k v).1.mpr (by omega)
    rw [h] at hoom
    exact absurd hoom (by decide)
  rw [kvs_put_raw_success db k v hfit]
  show (if (put_mid db k v).count % 1000 = 0 then
      bloom_check_expand (put_mid db k v) else put_mid db k v).root =
        (put_mid db k v).root ∧
    (if (put_mid db k v).count % 1000 = 0 then
      bloom_check_expand (put_mid db k v) else put_mid db k v).count =
        (put_mid db k v).count
  by_cases hc : (put_mid db k v).count % 1000 = 0
  · rw [if_pos hc]
    exact ⟨(bloom_check_expand_frame _).1, (bloom_check_expand_frame _).2.1⟩
  · rw [if_neg hc]
    exact ⟨rfl, rfl⟩

lemma Inv_delete (db : KVS) (k : List Nat) (hI : Inv db) :
    Inv (kvs_delete db k).1 := by
  simp only [kvs_delete]
  by_cases hbm : bloom_maybe db k = false
  · rw [if_pos hbm]
    exact hI
  · rw [if_neg hbm]
    rcases hr : delete_at db.root k with ⟨t2, flag⟩
    obtain ⟨habs, hflag, hwf2⟩ := delete_correct db.root none none k hI.wf
    rw [hr] at habs hflag hwf2
    have habsE : entriesOf t2 = (listDel k (entriesOf db.root)).1 := habs
    have hflagE : flag = (listDel k (entriesOf db.root)).2 := hflag
    have hwfE : TreeWF none t2 none := hwf2
    cases flag with
    | false =>
      rw [if_neg (by simp)]
      exact hI
    | true =>
      rw [if_pos rfl]
      have hld := listDel_liveLen (entriesOf db.root) k
      rw [← hflagE] at hld
      simp only [if_true] at hld
      refine ⟨?_, ?_, ?_, ?_, ?_, ?_, ?_, ?_⟩
      · show TreeWF none t2 none
        exact hwfE
      · show db.count - 1 = (liveList t2).length
        have h2 : (liveList t2).length = liveLen (entriesOf t2) := rfl
        have hc2 : db.count = liveLen (entriesOf db.root) := hI.count_eq
        rw [h2, habsE]
        omega
      · intro e he hlive
        have he2 : e ∈ entriesOf t2 := he
        rw [habsE] at he2
        have hmem := listDel_live_mem (entriesOf db.root) k e he2 hlive
        exact (bloom_maybe_congr _ db rfl rfl e.key).trans
          (hI.sound e hmem hlive)
      · exact hI.pool_le
      · exact hI.pool_sz
      · show treeCost t2 ≤ db.pool_pos
        have h1 : treeCost t2 = listCost (entriesOf t2) := rfl
        rw [h1, habsE, listDel_cost]
        exact hI.cost_le
      · exact hI.bits_pos
      · exact hI.bits_le

lemma Inv_open : Inv kvs_open := by
  refine ⟨?_, ?_, ?_, ?_, rfl, ?_, ?_, ?_⟩
  · exact ⟨by simp [leafKeys], by simp [leafKeys]⟩
  · rfl
  · intro e he _
    have he2 : e ∈ entriesOf (.leaf []) := he
    rw [entriesOf_leaf] at he2
    simp at he2
  · exact Nat.zero_le _
  · exact Nat.le_refl _
  · decide
  · decide

lemma Inv_step (db : KVS) (op : KVSOp) (hI : Inv db) :
    Inv (kvs_step db op) := by
  cases op with
  | put k v =>
    show Inv (kvs_put_raw db k v).1
    exact Inv_put db k v hI
  | del k =>
    show Inv (kvs_delete db k).1
    exact Inv_delete db k hI
  | get k =>
    exact hI

lemma Inv_reachable (db : KVS) (h : Reachable db) : Inv db := by
  obtain ⟨ops, hops⟩ := h
  have hall : ∀ (l : List KVSOp) (d : KVS), Inv d →
      Inv (l.foldl kvs_step d) := by
    intro l
    induction l with
    | nil => exact fun d hd => hd
    | cons op rest ih =>
      intro d hd
      exact ih _ (Inv_step d op hd)
  rw [← hops]
  exact hall ops kvs_open Inv_open

/-! ## Delete misses leave the list unchanged -/

lemma listDel_noop : ∀ (es : List Entry) (k : List Nat),
    (listDel k es).2 = false → (listDel k es).1 = es
  | [], k, _ => rfl
  | e0 :: rest, k, hf => by
    cases hc : keycmp k e0.key
    · simp [listDel, hc]
    · by_cases hd : e0.deleted
      · simp [listDel, hc, hd]
      · have hdf : e0.deleted = false := by simpa using hd
        simp [listDel, hc, hdf] at hf
    · simp only [listDel, hc] at hf ⊢
      simp at hf ⊢
      exact listDel_noop rest k hf

lemma listDel_flag_imp : ∀ (es : List Entry) (k : List Nat),
    (listDel k es).2 = true →
    ∃ e ∈ es, e.deleted = false ∧ e.key = k
  | [], k, hf => by simp [listDel] at hf
  | e0 :: rest, k, hf => by
    cases hc : keycmp k e0.key
    · rw [listDel, hc] at hf
      exact absurd hf (by simp)
    · by_cases hd : e0.deleted
      · rw [listDel, hc] at hf
        simp only [hd, if_true] at hf
        exact absurd hf (by simp)
      · refine ⟨e0, by simp, by simpa using hd, ?_⟩
        exact ((keycmp_eq_iff k e0.key).mp hc).symm
    · rw [listDel, hc] at hf
      obtain ⟨e, he, hp⟩ := listDel_flag_imp rest k hf
      exact ⟨e, by simp [he], hp⟩

/-! ## What delete does to the flat entry sequence -/

lemma kvs_delete_entries (db : KVS) (k : List Nat) (hI : Inv db) :
    entriesOf (kvs_delete db k).1.root =
      (listDel k (entriesOf db.root)).1 := by
  simp only [kvs_delete]
  by_cases hbm : bloom_maybe db k = false
  · rw [if_pos hbm]
    by_cases hfl : (listDel k (entriesOf db.root)).2 = true
    · obtain ⟨e, he, hlive, hekey⟩ := listDel_flag_imp _ _ hfl
      have hs := hI.sound e he hlive
      rw [hekey, hbm] at hs
      exact absurd hs (by simp)
    · rw [listDel_noop (entriesOf db.root) k (by simpa using hfl)]
  · rw [if_neg hbm]
    rcases hr : delete_at db.root k with ⟨t2, flag⟩
    obtain ⟨habs, hflag, _⟩ := delete_correct db.root none none k hI.wf
    rw [hr] at habs hflag
    cases flag with
    | true =>
      rw [if_pos rfl]
      exact habs
    | false =>
      rw [if_neg (by simp)]
      rw [listDel_noop (entriesOf db.root) k (by simpa using hflag.symm)]

/-! ## get through the descent -/

lemma kvs_get_raw_eq (db : KVS) (key : List Nat) :
    kvs_get_raw db key = if bloom_maybe db key = false then none
      else leafLookup (find_leaf db.root key) key := by
  simp only [kvs_get_raw, leafLookup]
  by_cases h : leaf_find_pos (leafKeys (find_leaf db.root key)) key <
      (find_leaf db.root key).length ∧
    keycmp ((find_leaf db.root key).getD
      (leaf_find_pos (leafKeys (find_leaf db.root key)) key)
        default).key key = Ordering.eq ∧
    ((find_leaf db.root key).getD
      (leaf_find_pos (leafKeys (find_leaf db.root key)) key)
        default).deleted = false
  · rw [if_pos h, if_pos h]
  · rw [if_neg h, if_neg h]

lemma kvs_get_raw_spec (db : KVS) (k : List Nat) (hI : Inv db)
    (hbm : bloom_maybe db k = true) :
    kvs_get_raw db k = listGet k (entriesOf db.root) := by
  rw [kvs_get_raw_eq, if_neg (by simp [hbm])]
  exact find_leaf_correct db.root none none k hI.wf

/-! ## The order invariant in the form the spec states it -/

mutual

theorem TreeWF_NodesSorted : ∀ (t : BPNode) (lo hi : Option (List Nat)),
    TreeWF lo t hi → NodesSorted t
  | .leaf es, _, _, hwf => hwf.1
  | .internal ks cs, lo, hi, hwf =>
    ⟨hwf.1, ChildrenWF_NodesSortedList cs ks lo hi hwf.2.2⟩

theorem ChildrenWF_NodesSortedList : ∀ (cs : List BPNode)
    (ks : List (List Nat)) (lo hi : Option (List Nat)),
    ChildrenWF lo ks cs hi → NodesSortedList cs
  | [], _, _, _, _ => True.intro
  | [c], [], lo, hi, hwf => ⟨TreeWF_NodesSorted c lo hi hwf, True.intro⟩
  | _ :: _ :: _, [], _, _, hwf => (hwf : False).elim
  | c :: c2 :: rest2, k0 :: ks, lo, hi, hwf => by
    have hwf2 : TreeWF lo c (some k0) ∧
        ChildrenWF (some k0) ks (c2 :: rest2) hi := hwf
    exact ⟨TreeWF_NodesSorted c lo (some k0) hwf2.1,
      ChildrenWF_NodesSortedList (c2 :: rest2) ks (some k0) hi hwf2.2⟩
  | [c], k0 :: ks, lo, hi, hwf => by
    have hwf2 : TreeWF lo c (some k0) ∧ ChildrenWF (some k0) ks [] hi :=
      hwf
    exact ⟨TreeWF_NodesSorted c lo (some k0) hwf2.1, True.intro⟩

end

/-! ## foreach visits exactly the live entries -/

lemma filterMap_live_length (es : List Entry) :
    (es.filterMap (fun e => if e.deleted then none
      else some (e.key, e.value))).length =
    (es.filter (fun e => !e.deleted)).length := by
  induction es with
  | nil => rfl
  | cons e rest ih =>
    by_cases hd : e.deleted
    · simp [List.filterMap_cons, List.filter_cons, hd, ih]
    · simp [List.filterMap_cons, List.filter_cons, hd, ih]

lemma kvs_foreach_length (db : KVS) :
    (kvs_foreach db).length = (liveList db.root).length := by
  have h : ∀ (L : List (List Entry)),
      ((L.map (fun es => es.filterMap (fun e => if e.deleted then none
        else some (e.key, e.value)))).flatten).length =
      ((L.flatten).filter (fun e => !e.deleted)).length := by
    intro L
    induction L with
    | nil => rfl
    | cons es rest ih =>
      simp only [List.map_cons, List.flatten_cons, List.length_append,
        List.filter_append, filterMap_live_length, ih]
  unfold kvs_foreach liveList entriesOf
  exact h (leavesOf db.root)

/-- C7: from any reachable store, put(K, v1), delete(K), put(K, v2) makes
get(K) return v2, and the live count equals its value right after the
first put: the tombstoned slot is revived and count is re-incremented
exactly once.  The two puts are assumed to succeed (return KVS_OK), which
is the arena-fit condition. -/
theorem c7_put_delete_put_get (db : KVS) (k v1 v2 : List Nat)
    (hreach : Reachable db)
    (h1 : (kvs_put_raw db k v1).2 = KVS_OK)
    (h2 : (kvs_put_raw (kvs_delete (kvs_put_raw db k v1).1 k).1 k v2).2 =
      KVS_OK) :
    kvs_get_raw (kvs_put_raw (kvs_delete (kvs_put_raw db k v1).1 k).1
      k v2).1 k = some v2 ∧
    (kvs_put_raw (kvs_delete (kvs_put_raw db k v1).1 k).1 k v2).1.count =
      (kvs_put_raw db k v1).1.count := by
  have hI0 : Inv db := Inv_reachable db hreach
  have hI1 : Inv (kvs_put_raw db k v1).1 := Inv_put db k v1 hI0
  have hI2 : Inv (kvs_delete (kvs_put_raw db k v1).1 k).1 :=
    Inv_delete _ k hI1
  have hI3 : Inv (kvs_put_raw (kvs_delete (kvs_put_raw db k v1).1 k).1
      k v2).1 := Inv_put _ k v2 hI2
  have hE1 : entriesOf (kvs_put_raw db k v1).1.root =
      (listPut k { key := k, value := v1, deleted := false }
        (entriesOf db.root)).1 := by
    rw [(kvs_put_raw_ok_fields db k v1 h1).1]
    exact (put_mid_spec db k v1 hI0).1
  have hE2 : entriesOf (kvs_delete (kvs_put_raw db k v1).1 k).1.root =
      (listDel k (entriesOf (kvs_put_raw db k v1).1.root)).1 :=
    kvs_delete_entries _ k hI1
  have hE3 : entriesOf (kvs_put_raw
      (kvs_delete (kvs_put_raw db k v1).1 k).1 k v2).1.root =
      (listPut k { key := k, value := v2, deleted := false }
        (entriesOf (kvs_delete (kvs_put_raw db k v1).1 k).1.root)).1 := by
    rw [(kvs_put_raw_ok_fields _ k v2 h2).1]
    exact (put_mid_spec _ k v2 hI2).1
  have hc7 := c7_list (entriesOf db.root) k
    { key := k, value := v1, deleted := false }
    { key := k, value := v2, deleted := false } rfl rfl rfl rfl
  have hget3 : listGet k (entriesOf (kvs_put_raw
      (kvs_delete (kvs_put_raw db k v1).1 k).1 k v2).1.root) =
      some v2 := by
    rw [hE3, hE2, hE1]
    exact hc7.2.2.1
  have hbm3 : bloom_maybe (kvs_put_raw
      (kvs_delete (kvs_put_raw db k v1).1 k).1 k v2).1 k = true := by
    obtain ⟨e, he, hlive, hekey, hval⟩ := listGet_some_imp _ _ _ hget3
    have hs := hI3.sound e he hlive
    rw [hekey] at hs
    exact hs
  constructor
  · rw [kvs_get_raw_spec _ k hI3 hbm3]
    exact hget3
  · have hc3 : (kvs_put_raw (kvs_delete (kvs_put_raw db k v1).1 k).1
        k v2).1.count = liveLen (entriesOf (kvs_put_raw
        (kvs_delete (kvs_put_raw db k v1).1 k).1 k v2).1.root) :=
      hI3.count_eq
    have hc1 : (kvs_put_raw db k v1).1.count =
        liveLen (entriesOf (kvs_put_raw db k v1).1.root) := hI1.count_eq
    have hlive31 : liveLen (entriesOf (kvs_put_raw
        (kvs_delete (kvs_put_raw db k v1).1 k).1 k v2).1.root) =
        liveLen (entriesOf (kvs_put_raw db k v1).1.root) := by
      rw [hE3, hE2, hE1]
      exact hc7.2.2.2
    omega

theorem c7_put_delete_put_get_witness :
    Reachable kvs_open ∧
    (kvs_put_raw kvs_open [97] [49]).2 = KVS_OK ∧
    (kvs_put_raw (kvs_delete (kvs_put_raw kvs_open [97] [49]).1 [97]).1
      [97] [50]).2 = KVS_OK ∧
    (kvs_get_raw (kvs_put_raw
        (kvs_delete (kvs_put_raw kvs_open [97] [49]).1 [97]).1
        [97] [50]).1 [97] = some [50] ∧
     (kvs_put_raw (kvs_delete (kvs_put_raw kvs_open [97] [49]).1 [97]).1
        [97] [50]).1.count = (kvs_put_raw kvs_open [97] [49]).1.count) :=
  ⟨⟨[], rfl⟩, by decide, by decide,
    c7_put_delete_put_get kvs_open [97] [49] [50] ⟨[], rfl⟩ (by decide)
      (by decide)⟩

/-- C8: in every store reachable from a fresh store by puts and deletes
(and gets), the count field equals the number of entries kvs_foreach
visits, which is the number of non-tombstoned entries reachable from the
root. -/
theorem c8_count_matches_foreach (db : KVS) (h : Reachable db) :
    db.count = (kvs_foreach db).length := by
  rw [kvs_foreach_length]
  exact (Inv_reachable db h).count_eq

theorem c8_count_matches_foreach_witness :
    Reachable (kvs_run [.put [97] [49], .put [98] [50], .del [97]]) ∧
    (kvs_run [.put [97] [49], .put [98] [50], .del [97]]).count =
      (kvs_foreach
        (kvs_run [.put [97] [49], .put [98] [50], .del [97]])).length :=
  ⟨⟨[.put [97] [49], .put [98] [50], .del [97]], rfl⟩,
    c8_count_matches_foreach _
      ⟨[.put [97] [49], .put [98] [50], .del [97]], rfl⟩⟩

/-- C9: in every store reachable by any sequence of puts, deletes and
gets, the key array of every node, leaf and internal, is strictly
increasing under keycmp, the lexicographic byte comparison with the
shorter-key-first tiebreak; insert and both splits preserve the order. -/
theorem c9_reachable_nodes_sorted (db : KVS) (h : Reachable db) :
    NodesSorted db.root :=
  TreeWF_NodesSorted db.root none none (Inv_reachable db h).wf

theorem c9_reachable_nodes_sorted_witness :
    Reachable (kvs_run [.put [98] [50], .put [97] [49], .get [97]]) ∧
    NodesSorted (kvs_run [.put [98] [50], .put [97] [49], .get [97]]).root :=
  ⟨⟨[.put [98] [50], .put [97] [49], .get [97]], rfl⟩,
    c9_reachable_nodes_sorted _
      ⟨[.put [98] [50], .put [97] [49], .get [97]], rfl⟩⟩

/-! ## Byte codec facts -/

lemma le_bytes_length (n v : Nat) : (le_bytes n v).length = n := by
  simp [le_bytes]

lemma le_bytes_succ (n v : Nat) :
    le_bytes (n + 1) v = v % 256 :: le_bytes n (v >>> 8) := by
  unfold le_bytes
  rw [List.range_succ_eq_map, List.map_cons, List.map_map]
  refine List.cons_eq_cons.mpr ⟨by simp, ?_⟩
  apply List.map_congr_left
  intro i _
  show v >>> (8 * (i + 1)) % 256 = (v >>> 8) >>> (8 * i) % 256
  rw [show 8 * (i + 1) = 8 + 8 * i by ring, Nat.shiftRight_add]

lemma bytes_val_cons (b : Nat) (bs : List Nat) :
    bytes_val (b :: bs) = b % 256 + 256 * bytes_val bs := rfl

lemma bytes_val_le_bytes : ∀ (n v : Nat),
    bytes_val (le_bytes n v) = v % 2 ^ (8 * n)
  | 0, v => by simp [le_bytes, bytes_val, Nat.mod_one]
  | n + 1, v => by
    rw [le_bytes_succ, bytes_val_cons, bytes_val_le_bytes n (v >>> 8)]
    rw [Nat.shiftRight_eq_div_pow]
    have h1 : (2 : Nat) ^ (8 * (n + 1)) = 256 * 2 ^ (8 * n) := by
      rw [Nat.mul_succ, Nat.pow_add]
      norm_num
      ring
    rw [h1, Nat.mod_mul]
    have h2 : (2 : Nat) ^ 8 = 256 := by norm_num
    rw [h2]
    omega

lemma readBytes_exact (file : List Nat) (g : Nat → Nat) (pos n : Nat)
    (h : pos + n ≤ file.length) :
    readBytes file g pos n = (file.drop pos).take n := by
  unfold readBytes
  apply List.ext_getElem
  · simp
    omega
  · intro i h1 h2
    simp only [List.getElem_map, List.getElem_range]
    rw [if_pos (by simp at h1; omega)]
    rw [List.getD_eq_getElem _ _ (by simp at h1; omega)]
    rw [List.getElem_take, List.getElem_drop]

lemma readBytes_at_append (pre A B : List Nat) (g : Nat → Nat) (n : Nat)
    (hn : n = A.length) :
    readBytes (pre ++ (A ++ B)) g pre.length n = A := by
  subst hn
  rw [readBytes_exact _ g _ _ (by simp)]
  rw [List.drop_left, List.take_left]

/-! ## Entry records in the file -/

lemma entry_bytes_eq (e : Entry) (h1 : e.key.length < 2 ^ 32)
    (h2 : e.value.length < 2 ^ 32) :
    entry_bytes e = le_bytes 4 e.key.length ++ le_bytes 4 e.value.length ++
      e.key ++ e.value := by
  unfold entry_bytes
  rw [Nat.mod_eq_of_lt h1, Nat.mod_eq_of_lt h2, List.take_length,
    List.take_length]

/-! ## Size bounds from the arena accounting -/

lemma le_poolRound (n : Nat) : n ≤ poolRound n := by
  unfold poolRound
  omega

lemma entryCost_ge (e : Entry) : ENTRY_SIZE ≤ entryCost e := by
  unfold entryCost
  omega

lemma entryCost_key_le (e : Entry) : e.key.length + 1 ≤ entryCost e := by
  have := le_poolRound (e.key.length + 1)
  unfold entryCost
  omega

lemma entryCost_value_le (e : Entry) : e.value.length + 1 ≤ entryCost e := by
  have := le_poolRound (e.value.length + 1)
  unfold entryCost
  omega

lemma listCost_ge_length : ∀ (es : List Entry),
    ENTRY_SIZE * es.length ≤ listCost es
  | [] => by simp [listCost]
  | e :: rest => by
    rw [listCost_cons]
    have h1 := entryCost_ge e
    have h2 := listCost_ge_length rest
    simp only [List.length_cons]
    have h3 : ENTRY_SIZE = 32 := rfl
    rw [h3] at h1 h2 ⊢
    omega

lemma listCost_mem_le : ∀ (es : List Entry) (e : Entry), e ∈ es →
    entryCost e ≤ listCost es
  | [], e, he => absurd he (by simp)
  | e0 :: rest, e, he => by
    rw [listCost_cons]
    rcases List.mem_cons.mp he with rfl | he
    · omega
    · have := listCost_mem_le rest e he
      omega

/-! ## The flat key sequence of a well-formed tree is strictly sorted -/

mutual

theorem entriesOf_keys_sorted : ∀ (t : BPNode) (lo hi : Option (List Nat)),
    TreeWF lo t hi → (leafKeys (entriesOf t)).Pairwise keyLt
  | .leaf es, _, _, hwf => by
    rw [entriesOf_leaf]
    exact hwf.1
  | .internal ks cs, lo, hi, hwf => by
    rw [entriesOf_internal]
    exact entriesOfList_keys_sorted cs ks lo hi hwf.2.2 hwf.1 hwf.2.1

theorem entriesOfList_keys_sorted : ∀ (cs : List BPNode)
    (ks : List (List Nat)) (lo hi : Option (List Nat)),
    ChildrenWF lo ks cs hi → ks.Pairwise keyLt →
    (∀ x ∈ ks, bndOk lo hi x) →
    (leafKeys (entriesOfList cs)).Pairwise keyLt
  | [], [], _, _, hwf, _, _ => (hwf : False).elim
  | [], _ :: _, _, _, hwf, _, _ => (hwf : False).elim
  | _ :: _ :: _, [], _, _, hwf, _, _ => (hwf : False).elim
  | [c], [], lo, hi, hwf, _, _ => by
    rw [entriesOfList_singleton]
    exact entriesOf_keys_sorted c lo hi hwf
  | c :: rest, k0 :: ks, lo, hi, hwf, hsort, hbnds => by
    have hwf2 : TreeWF lo c (some k0) ∧ ChildrenWF (some k0) ks rest hi :=
      hwf
    have hps := List.pairwise_cons.mp hsort
    have htb : ∀ x ∈ ks, bndOk (some k0) hi x := tail_keys_bnd hsort hbnds
    rw [entriesOfList_cons]
    unfold leafKeys
    rw [List.map_append, List.pairwise_append]
    refine ⟨?_, ?_, ?_⟩
    · exact entriesOf_keys_sorted c lo (some k0) hwf2.1
    · exact entriesOfList_keys_sorted rest ks (some k0) hi hwf2.2 hps.2 htb
    · intro a ha b hb
      obtain ⟨ea, hea, rfl⟩ := List.mem_map.mp ha
      obtain ⟨eb, heb, rfl⟩ := List.mem_map.mp hb
      have hub := (entriesOf_bnd c lo (some k0) hwf2.1 ea hea).2
      have hlb := (entriesOfList_bnd rest ks (some k0) hi hwf2.2 hps.2
        htb eb heb).1
      exact keycmp_lt_of_lt_of_le hub (keycmp_ne_gt_of_le hlb)

end

/-! ## The entry section of a saved store -/

lemma filterMap_entry_bytes (es : List Entry) :
    es.filterMap (fun e => if e.deleted then none
      else some (entry_bytes e)) =
    (es.filter (fun e => !e.deleted)).map entry_bytes := by
  induction es with
  | nil => rfl
  | cons e rest ih =>
    by_cases hd : e.deleted
    · simp [List.filterMap_cons, List.filter_cons, hd, ih]
    · simp [List.filterMap_cons, List.filter_cons, hd, ih]

lemma save_entry_section (db : KVS) :
    ((leavesOf db.root).map (fun es =>
      (es.filterMap (fun e => if e.deleted then none
        else some (entry_bytes e))).flatten)).flatten =
    ((liveList db.root).map entry_bytes).flatten := by
  unfold liveList entriesOf
  have h : ∀ (L : List (List Entry)),
      (L.map (fun es => (es.filterMap (fun e => if e.deleted then none
        else some (entry_bytes e))).flatten)).flatten =
      (((L.flatten).filter (fun e => !e.deleted)).map
        entry_bytes).flatten := by
    intro L
    induction L with
    | nil => rfl
    | cons es rest ih =>
      rw [List.map_cons, List.flatten_cons, List.flatten_cons,
        List.filter_append, List.map_append, List.flatten_append,
        filterMap_entry_bytes, ih]
  exact h (leavesOf db.root)

/-! ## foreach as the live pair list -/

lemma filterMap_live_pairs (es : List Entry) :
    es.filterMap (fun e => if e.deleted then none
      else some (e.key, e.value)) =
    (es.filter (fun e => !e.deleted)).map (fun e => (e.key, e.value)) := by
  induction es with
  | nil => rfl
  | cons e rest ih =>
    by_cases hd : e.deleted
    · simp [List.filterMap_cons, List.filter_cons, hd, ih]
    · simp [List.filterMap_cons, List.filter_cons, hd, ih]

lemma kvs_foreach_pairs (db : KVS) :
    kvs_foreach db =
      (liveList db.root).map (fun e => (e.key, e.value)) := by
  unfold kvs_foreach liveList entriesOf
  have h : ∀ (L : List (List Entry)),
      (L.map (fun es => es.filterMap (fun e => if e.deleted then none
        else some (e.key, e.value)))).flatten =
      ((L.flatten).filter (fun e => !e.deleted)).map
        (fun e => (e.key, e.value)) := by
    intro L
    induction L with
    | nil => rfl
    | cons es rest ih =>
      rw [List.map_cons, List.flatten_cons, List.flatten_cons,
        List.filter_append, List.map_append, filterMap_live_pairs, ih]
  exact h (leavesOf db.root)

lemma filter_live_of_all (L : List Entry)
    (h : ∀ e ∈ L, e.deleted = false) :
    L.filter (fun e => !e.deleted) = L := by
  induction L with
  | nil => rfl
  | cons e rest ih =>
    have he := h e (by simp)
    simp [List.filter_cons, he, ih (fun x hx => h x (by simp [hx]))]

lemma liveList_live (t : BPNode) : ∀ e ∈ liveList t, e.deleted = false := by
  intro e he
  unfold liveList at he
  have := List.of_mem_filter he
  simpa using this

lemma liveList_mem (t : BPNode) : ∀ e ∈ liveList t, e ∈ entriesOf t := by
  intro e he
  unfold liveList at he
  exact List.mem_of_mem_filter he

/-! ## A successful put advances the arena by the entry cost -/

lemma kvs_put_raw_ok_pool (db : KVS) (k v : List Nat)
    (hfit : db.pool_pos + ENTRY_SIZE + poolRound (k.length + 1) +
      poolRound (v.length + 1) ≤ db.pool_size) :
    (kvs_put_raw db k v).1.pool_pos = db.pool_pos + ENTRY_SIZE +
      poolRound (k.length + 1) + poolRound (v.length + 1) ∧
    (kvs_put_raw db k v).1.pool_size = db.pool_size ∧
    (kvs_put_raw db k v).2 = KVS_OK := by
  rw [kvs_put_raw_success db k v hfit]
  refine ⟨?_, ?_, rfl⟩
  · show (if (put_mid db k v).count % 1000 = 0 then
        bloom_check_expand (put_mid db k v) else put_mid db k v).pool_pos =
      _
    by_cases hc : (put_mid db k v).count % 1000 = 0
    · rw [if_pos hc, (bloom_check_expand_frame _).2.2.1]
      exact (put_mid_fields db k v).1
    · rw [if_neg hc]
      exact (put_mid_fields db k v).1
  · show (if (put_mid db k v).count % 1000 = 0 then
        bloom_check_expand (put_mid db k v) else put_mid db k v).pool_size =
      _
    by_cases hc : (put_mid db k v).count % 1000 = 0
    · rw [if_pos hc, (bloom_check_expand_frame _).2.2.2.1]
      exact (put_mid_fields db k v).2.1
    · rw [if_neg hc]
      exact (put_mid_fields db k v).2.1

/-! ## The entry replay loop rebuilds exactly the listed entries

The file tail from the read position holds the length-prefixed records of
the entries in L, each key above every key already in the store, and the
arena has room for all of them; then the loop terminates with the store
holding the old entries followed by L. -/

lemma load_loop_replay : ∀ (L : List Entry) (pre : List Nat) (db : KVS)
    (g : Nat → Nat),
    Inv db →
    (∀ e ∈ L, e.deleted = false) →
    (∀ e ∈ L, e.key.length < 2 ^ 32 ∧ e.value.length < 2 ^ 32) →
    (leafKeys (entriesOf db.root ++ L)).Pairwise keyLt →
    db.pool_pos + listCost L ≤ db.pool_size →
    entriesOf (load_loop (pre ++ (L.map entry_bytes).flatten) g pre.length
      db L.length).root = entriesOf db.root ++ L
  | [], pre, db, g, _, _, _, _, _ => by
    simp [load_loop]
  | e0 :: L2, pre, db, g, hI, hlive, hlens, hsorted, hfit => by
    have hk32 : e0.key.length < 2 ^ 32 := (hlens e0 (by simp)).1
    have hv32 : e0.value.length < 2 ^ 32 := (hlens e0 (by simp)).2
    have hE := entry_bytes_eq e0 hk32 hv32
    have hec : entryCost e0 = ENTRY_SIZE + poolRound (e0.key.length + 1) +
        poolRound (e0.value.length + 1) := rfl
    have hlc : listCost (e0 :: L2) = entryCost e0 + listCost L2 :=
      listCost_cons e0 L2
    have hfit0 : db.pool_pos + ENTRY_SIZE +
        poolRound (e0.key.length + 1) + poolRound (e0.value.length + 1) ≤
        db.pool_size := by omega
    have hfile : pre ++ ((e0 :: L2).map entry_bytes).flatten =
        pre ++ (le_bytes 4 e0.key.length ++ (le_bytes 4 e0.value.length ++ (e0.key ++ (e0.value ++ (List.map entry_bytes L2).flatten)))) := by
      rw [List.map_cons, List.flatten_cons, hE]
      simp [List.append_assoc]
    have hr1 : readBytes (pre ++ (le_bytes 4 e0.key.length ++ (le_bytes 4 e0.value.length ++ (e0.key ++ (e0.value ++ (List.map entry_bytes L2).flatten))))) g pre.length 4 =
        le_bytes 4 e0.key.length :=
      readBytes_at_append pre _ _ g 4 (by rw [le_bytes_length])
    have hklen : bytes_val (readBytes (pre ++ (le_bytes 4 e0.key.length ++ (le_bytes 4 e0.value.length ++ (e0.key ++ (e0.value ++ (List.map entry_bytes L2).flatten))))) g pre.length 4) =
        e0.key.length := by
      rw [hr1, bytes_val_le_bytes]
      have h232 : (2 : Nat) ^ (8 * 4) = 2 ^ 32 := by norm_num
      rw [h232]
      exact Nat.mod_eq_of_lt hk32
    have hr2 : readBytes (pre ++ (le_bytes 4 e0.key.length ++ (le_bytes 4 e0.value.length ++ (e0.key ++ (e0.value ++ (List.map entry_bytes L2).flatten))))) g (pre.length + 4) 4 =
        le_bytes 4 e0.value.length := by
      have h2 := readBytes_at_append (pre ++ le_bytes 4 e0.key.length)
        (le_bytes 4 e0.value.length)
        (e0.key ++ (e0.value ++ (List.map entry_bytes L2).flatten)) g 4
        (by rw [le_bytes_length])
      rw [List.append_assoc, List.length_append, le_bytes_length] at h2
      exact h2
    have hvlen : bytes_val (readBytes (pre ++ (le_bytes 4 e0.key.length ++ (le_bytes 4 e0.value.length ++ (e0.key ++ (e0.value ++ (List.map entry_bytes L2).flatten))))) g (pre.length + 4) 4) =
        e0.value.length := by
      rw [hr2, bytes_val_le_bytes]
      have h232 : (2 : Nat) ^ (8 * 4) = 2 ^ 32 := by norm_num
      rw [h232]
      exact Nat.mod_eq_of_lt hv32
    have hr3 : readBytes (pre ++ (le_bytes 4 e0.key.length ++ (le_bytes 4 e0.value.length ++ (e0.key ++ (e0.value ++ (List.map entry_bytes L2).flatten))))) g (pre.length + 4 + 4) e0.key.length =
        e0.key := by
      have h3 := readBytes_at_append
        ((pre ++ le_bytes 4 e0.key.length) ++ le_bytes 4 e0.value.length)
        e0.key (e0.value ++ (List.map entry_bytes L2).flatten) g
        e0.key.length rfl
      simp only [List.append_assoc, List.length_append,
        le_bytes_length] at h3
      exact h3
    have hr4 : readBytes (pre ++ (le_bytes 4 e0.key.length ++ (le_bytes 4 e0.value.length ++ (e0.key ++ (e0.value ++ (List.map entry_bytes L2).flatten))))) g (pre.length + (4 + (4 + e0.key.length)))
        e0.value.length = e0.value := by
      have h4 := readBytes_at_append
        (((pre ++ le_bytes 4 e0.key.length) ++
          le_bytes 4 e0.value.length) ++ e0.key)
        e0.value ((List.map entry_bytes L2).flatten) g
        e0.value.length rfl
      simp only [List.append_assoc, List.length_append,
        le_bytes_length] at h4
      exact h4
    have hlenF : (pre ++ (le_bytes 4 e0.key.length ++ (le_bytes 4 e0.value.length ++ (e0.key ++ (e0.value ++ (List.map entry_bytes L2).flatten))))).length = pre.length + (4 + (4 + (e0.key.length +
        (e0.value.length + ((List.map entry_bytes L2).flatten).length)))) := by
      simp [le_bytes_length]
    have hm1 : min (pre.length + 4) (pre ++ (le_bytes 4 e0.key.length ++ (le_bytes 4 e0.value.length ++ (e0.key ++ (e0.value ++ (List.map entry_bytes L2).flatten))))).length = pre.length + 4 := by
      rw [hlenF]
      omega
    have hm2 : min (pre.length + 4 + 4) (pre ++ (le_bytes 4 e0.key.length ++ (le_bytes 4 e0.value.length ++ (e0.key ++ (e0.value ++ (List.map entry_bytes L2).flatten))))).length =
        pre.length + 4 + 4 := by
      rw [hlenF]
      omega
    have hm3 : min (pre.length + 4 + 4 + e0.key.length) (pre ++ (le_bytes 4 e0.key.length ++ (le_bytes 4 e0.value.length ++ (e0.key ++ (e0.value ++ (List.map entry_bytes L2).flatten))))).length =
        pre.length + (4 + (4 + e0.key.length)) := by
      rw [hlenF]
      omega
    have hm4 : min (pre.length + (4 + (4 + e0.key.length)) +
        e0.value.length)
        (pre ++ (le_bytes 4 e0.key.length ++ (le_bytes 4 e0.value.length ++ (e0.key ++ (e0.value ++ (List.map entry_bytes L2).flatten))))).length = (pre ++ entry_bytes e0).length := by
      rw [hlenF, List.length_append, hE]
      simp [le_bytes_length]
      omega
    have hF2 : (pre ++ (le_bytes 4 e0.key.length ++ (le_bytes 4 e0.value.length ++ (e0.key ++ (e0.value ++ (List.map entry_bytes L2).flatten))))) =
        (pre ++ entry_bytes e0) ++ (List.map entry_bytes L2).flatten := by
      rw [hE]
      simp [List.append_assoc]
    -- the put that this record replays
    have hok := kvs_put_raw_ok_pool db e0.key e0.value hfit0
    have hdb1 : entriesOf (kvs_put_raw db e0.key e0.value).1.root =
        entriesOf db.root ++ [e0] := by
      rw [(kvs_put_raw_ok_fields db e0.key e0.value hok.2.2).1]
      rw [(put_mid_spec db e0.key e0.value hI).1]
      have hall : ∀ x ∈ entriesOf db.root, keycmp e0.key x.key = .gt := by
        intro x hx
        unfold leafKeys at hsorted
        rw [List.map_append] at hsorted
        have hcross := (List.pairwise_append.mp hsorted).2.2
        have hx2 := hcross x.key (List.mem_map_of_mem _ hx) e0.key
          (by rw [List.map_cons]; simp)
        rw [keycmp_gt_iff_lt]
        exact hx2
      rw [listPut_all_gt (entriesOf db.root) e0.key _ hall]
      have he0 : ({ key := e0.key, value := e0.value, deleted := false } :
          Entry) = e0 := by
        have hl := hlive e0 (by simp)
        cases e0 with
        | mk k2 v2 d2 =>
          simp only at hl
          rw [hl]
      rw [he0]
    have hIH := load_loop_replay L2 (pre ++ entry_bytes e0)
      (kvs_put_raw db e0.key e0.value).1 g
      (Inv_put db e0.key e0.value hI)
      (fun e he => hlive e (by simp [he]))
      (fun e he => hlens e (by simp [he]))
      (by
        rw [hdb1, List.append_assoc]
        exact hsorted)
      (by
        rw [hok.1, hok.2.1]
        omega)
    rw [hfile]
    simp only [List.length_cons]
    simp only [load_loop]
    rw [hklen, hm1, hvlen, hm2, hr3, hm3, hr4, hm4, hF2, hIH, hdb1]
    simp [List.append_assoc]

/-! ## Cost bounds on a reachable store -/

lemma listCost_filter_le (p : Entry → Bool) : ∀ (es : List Entry),
    listCost (es.filter p) ≤ listCost es
  | [] => Nat.le_refl _
  | e :: rest => by
    by_cases hp : p e
    · rw [List.filter_cons, if_pos hp, listCost_cons, listCost_cons]
      have := listCost_filter_le p rest
      omega
    · rw [List.filter_cons, if_neg hp, listCost_cons]
      have := listCost_filter_le p rest
      omega

lemma hdr_count_lt (db : KVS) (hI : Inv db) : db.count < 2 ^ (8 * 8) := by
  have hszlit : KVS_DEFAULT_POOL_SIZE = 134217728 := rfl
  have hE32 : ENTRY_SIZE = 32 := rfl
  have hcostroot : listCost (entriesOf db.root) = treeCost db.root := rfl
  have hcost1 := hI.cost_le
  have hcost2 := hI.pool_le
  have hcost3 := hI.pool_sz
  have h1 : db.count = (liveList db.root).length := hI.count_eq
  have h2 : (liveList db.root).length ≤ (entriesOf db.root).length :=
    List.length_filter_le _ _
  have h3 := listCost_ge_length (entriesOf db.root)
  rw [hE32] at h3
  have h9 : (2 : Nat) ^ (8 * 8) = 18446744073709551616 := by norm_num
  omega

lemma hdr_bits_lt (db : KVS) (hI : Inv db) : db.bloom_bits < 2 ^ (8 * 8) := by
  have h1 := hI.bits_le
  have h2 : KVS_BLOOM_MAX_BITS = 67108864 := by norm_num [KVS_BLOOM_MAX_BITS]
  have h9 : (2 : Nat) ^ (8 * 8) = 18446744073709551616 := by norm_num
  omega

lemma save_bytes_split (db : KVS) :
    kvs_save_bytes db = le_bytes 4 KVS_MAGIC ++ (le_bytes 8 db.count ++ (le_bytes 8 db.bloom_bits ++ (bloom_bytes db ++ (List.map entry_bytes (liveList db.root)).flatten))) := by
  unfold kvs_save_bytes
  rw [save_entry_section]
  simp [List.append_assoc]

lemma save_bytes_len (db : KVS) :
    (le_bytes 4 KVS_MAGIC ++ (le_bytes 8 db.count ++ (le_bytes 8 db.bloom_bits ++ (bloom_bytes db ++ (List.map entry_bytes (liveList db.root)).flatten)))).length = 4 + (8 + (8 + (db.bloom_bits / 8 +
      ((List.map entry_bytes (liveList db.root)).flatten).length))) := by
  simp [le_bytes_length, bloom_bytes]

lemma save_read_magic (rest : List Nat) (g : Nat → Nat) :
    bytes_val (readBytes (le_bytes 4 KVS_MAGIC ++ rest) g 0 4) =
      KVS_MAGIC := by
  have h0 := readBytes_at_append [] (le_bytes 4 KVS_MAGIC) rest g 4
    (by rw [le_bytes_length])
  simp only [List.nil_append, List.length_nil] at h0
  rw [h0, bytes_val_le_bytes]
  decide

lemma save_read_count (db : KVS) (rest : List Nat) (g : Nat → Nat)
    (hI : Inv db) :
    bytes_val (readBytes (le_bytes 4 KVS_MAGIC ++
      (le_bytes 8 db.count ++ rest)) g 4 8) = db.count := by
  have h2 := readBytes_at_append (le_bytes 4 KVS_MAGIC)
    (le_bytes 8 db.count) rest g 8 (by rw [le_bytes_length])
  rw [le_bytes_length] at h2
  rw [h2, bytes_val_le_bytes]
  exact Nat.mod_eq_of_lt (hdr_count_lt db hI)

lemma save_read_bits (db : KVS) (rest : List Nat) (g : Nat → Nat)
    (hI : Inv db) :
    bytes_val (readBytes (le_bytes 4 KVS_MAGIC ++
      (le_bytes 8 db.count ++ (le_bytes 8 db.bloom_bits ++ rest))) g
      12 8) = db.bloom_bits := by
  have h3 := readBytes_at_append
    (le_bytes 4 KVS_MAGIC ++ le_bytes 8 db.count)
    (le_bytes 8 db.bloom_bits) rest g 8 (by rw [le_bytes_length])
  have hAB : (le_bytes 4 KVS_MAGIC ++ le_bytes 8 db.count).length = 12 := by
    simp [le_bytes_length]
  rw [List.append_assoc, hAB] at h3
  rw [h3, bytes_val_le_bytes]
  exact Nat.mod_eq_of_lt (hdr_bits_lt db hI)

lemma kvs_load_save_parsed (db : KVS) (g : Nat → Nat) (hI : Inv db) :
    kvs_load (kvs_save_bytes db) g =
      some (load_loop ((le_bytes 4 KVS_MAGIC ++ (le_bytes 8 db.count ++ (le_bytes 8 db.bloom_bits ++ bloom_bytes db))) ++ (List.map entry_bytes (liveList db.root)).flatten) g (le_bytes 4 KVS_MAGIC ++ (le_bytes 8 db.count ++ (le_bytes 8 db.bloom_bits ++ bloom_bytes db))).length { kvs_open with bloom_bits := db.bloom_bits, bloom := bytes_val (readBytes ((le_bytes 4 KVS_MAGIC ++ (le_bytes 8 db.count ++ (le_bytes 8 db.bloom_bits ++ bloom_bytes db))) ++ (List.map entry_bytes (liveList db.root)).flatten) g 20 (db.bloom_bits / 8)) } db.count) := by
  have hmin0 : min 4 (le_bytes 4 KVS_MAGIC ++ (le_bytes 8 db.count ++ (le_bytes 8 db.bloom_bits ++ (bloom_bytes db ++ (List.map entry_bytes (liveList db.root)).flatten)))).length = 4 := by
    rw [save_bytes_len]
    omega
  have hmin1 : min (4 + 8) (le_bytes 4 KVS_MAGIC ++ (le_bytes 8 db.count ++ (le_bytes 8 db.bloom_bits ++ (bloom_bytes db ++ (List.map entry_bytes (liveList db.root)).flatten)))).length = 12 := by
    rw [save_bytes_len]
    omega
  have hmin2 : min (12 + 8) (le_bytes 4 KVS_MAGIC ++ (le_bytes 8 db.count ++ (le_bytes 8 db.bloom_bits ++ (bloom_bytes db ++ (List.map entry_bytes (liveList db.root)).flatten)))).length = 20 := by
    rw [save_bytes_len]
    omega
  have hmin3 : min (20 + db.bloom_bits / 8) (le_bytes 4 KVS_MAGIC ++ (le_bytes 8 db.count ++ (le_bytes 8 db.bloom_bits ++ (bloom_bytes db ++ (List.map entry_bytes (liveList db.root)).flatten)))).length =
      (le_bytes 4 KVS_MAGIC ++ (le_bytes 8 db.count ++ (le_bytes 8 db.bloom_bits ++ bloom_bytes db))).length := by
    rw [save_bytes_len]
    simp [le_bytes_length, bloom_bytes]
    omega
  have hS2 : le_bytes 4 KVS_MAGIC ++ (le_bytes 8 db.count ++ (le_bytes 8 db.bloom_bits ++ (bloom_bytes db ++ (List.map entry_bytes (liveList db.root)).flatten))) = (le_bytes 4 KVS_MAGIC ++ (le_bytes 8 db.count ++ (le_bytes 8 db.bloom_bits ++ bloom_bytes db))) ++ (List.map entry_bytes (liveList db.root)).flatten := by
    simp [List.append_assoc]
  rw [save_bytes_split]
  simp only [kvs_load]
  rw [save_read_magic _ g, if_neg (by simp), hmin0,
    save_read_count db _ g hI, hmin1, save_read_bits db _ g hI, hmin2,
    hmin3, hS2]

/-- C5: saving a store and loading the file back yields a store with
exactly the same live key and value pairs, for every oracle standing for
the uninitialised read memory. -/
theorem c5_save_load_roundtrip (db : KVS) (g : Nat → Nat)
    (h : Reachable db) :
    ∃ db2, kvs_load (kvs_save_bytes db) g = some db2 ∧
      kvs_foreach db2 = kvs_foreach db := by
  have hI := Inv_reachable db h
  have hszlit : KVS_DEFAULT_POOL_SIZE = 134217728 := rfl
  have hE32 : ENTRY_SIZE = 32 := rfl
  have hcostroot : listCost (entriesOf db.root) = treeCost db.root := rfl
  have hcost1 := hI.cost_le
  have hcost2 := hI.pool_le
  have hcost3 := hI.pool_sz
  have hlensL : ∀ e ∈ liveList db.root,
      e.key.length < 2 ^ 32 ∧ e.value.length < 2 ^ 32 := by
    intro e he
    have hmem := liveList_mem db.root e he
    have h1 := listCost_mem_le (entriesOf db.root) e hmem
    have h2 := entryCost_key_le e
    have h3 := entryCost_value_le e
    have h9 : (2 : Nat) ^ 32 = 4294967296 := by norm_num
    omega
  have hsortL : (leafKeys (liveList db.root)).Pairwise keyLt := by
    have h1 := entriesOf_keys_sorted db.root none none hI.wf
    unfold liveList leafKeys
    exact h1.sublist (List.Sublist.map _ (List.filter_sublist _))
  rw [kvs_load_save_parsed db g hI]
  generalize bytes_val (readBytes ((le_bytes 4 KVS_MAGIC ++ (le_bytes 8 db.count ++ (le_bytes 8 db.bloom_bits ++ bloom_bytes db))) ++ (List.map entry_bytes (liveList db.root)).flatten) g 20
    (db.bloom_bits / 8)) = bv
  have hInv0 : Inv ({ kvs_open with bloom_bits := db.bloom_bits, bloom := bv }) := by
    refine ⟨⟨by simp [leafKeys], by simp [leafKeys]⟩, rfl, ?_,
      Nat.zero_le _, rfl, Nat.le_refl _, hI.bits_pos, hI.bits_le⟩
    intro e he _
    have he2 : e ∈ entriesOf (.leaf []) := he
    rw [entriesOf_leaf] at he2
    simp at he2
  have hsorted0 : (leafKeys (entriesOf ({ kvs_open with bloom_bits := db.bloom_bits, bloom := bv }).root ++ liveList db.root)).Pairwise keyLt := by
    show (leafKeys (entriesOf (.leaf []) ++ liveList db.root)).Pairwise
      keyLt
    rw [entriesOf_leaf, List.nil_append]
    exact hsortL
  have hfit0 : ({ kvs_open with bloom_bits := db.bloom_bits, bloom := bv }).pool_pos + listCost (liveList db.root) ≤ ({ kvs_open with bloom_bits := db.bloom_bits, bloom := bv }).pool_size := by
    show 0 + listCost (liveList db.root) ≤ KVS_DEFAULT_POOL_SIZE
    have h1 : listCost (liveList db.root) ≤ listCost (entriesOf db.root) :=
      listCost_filter_le _ _
    omega
  have hre := load_loop_replay (liveList db.root) (le_bytes 4 KVS_MAGIC ++ (le_bytes 8 db.count ++ (le_bytes 8 db.bloom_bits ++ bloom_bytes db)))
    ({ kvs_open with bloom_bits := db.bloom_bits, bloom := bv }) g
    hInv0 (liveList_live db.root) hlensL hsorted0 hfit0
  rw [← hI.count_eq] at hre
  refine ⟨_, rfl, ?_⟩
  have hent : entriesOf (load_loop ((le_bytes 4 KVS_MAGIC ++ (le_bytes 8 db.count ++ (le_bytes 8 db.bloom_bits ++ bloom_bytes db))) ++ (List.map entry_bytes (liveList db.root)).flatten) g
      (le_bytes 4 KVS_MAGIC ++ (le_bytes 8 db.count ++ (le_bytes 8 db.bloom_bits ++ bloom_bytes db))).length ({ kvs_open with bloom_bits := db.bloom_bits, bloom := bv }) db.count).root = liveList db.root := by
    rw [hre]
    show entriesOf (.leaf []) ++ liveList db.root = liveList db.root
    rw [entriesOf_leaf, List.nil_append]
  have h2 : liveList (load_loop ((le_bytes 4 KVS_MAGIC ++ (le_bytes 8 db.count ++ (le_bytes 8 db.bloom_bits ++ bloom_bytes db))) ++ (List.map entry_bytes (liveList db.root)).flatten) g
      (le_bytes 4 KVS_MAGIC ++ (le_bytes 8 db.count ++ (le_bytes 8 db.bloom_bits ++ bloom_bytes db))).length ({ kvs_open with bloom_bits := db.bloom_bits, bloom := bv }) db.count).root = liveList db.root := by
    show (entriesOf (load_loop ((le_bytes 4 KVS_MAGIC ++ (le_bytes 8 db.count ++ (le_bytes 8 db.bloom_bits ++ bloom_bytes db))) ++ (List.map entry_bytes (liveList db.root)).flatten) g
      (le_bytes 4 KVS_MAGIC ++ (le_bytes 8 db.count ++ (le_bytes 8 db.bloom_bits ++ bloom_bytes db))).length ({ kvs_open with bloom_bits := db.bloom_bits, bloom := bv }) db.count).root).filter
        (fun e => !e.deleted) = liveList db.root
    rw [hent]
    exact filter_live_of_all _ (liveList_live db.root)
  rw [kvs_foreach_pairs, kvs_foreach_pairs, h2]

theorem c5_save_load_roundtrip_witness :
    Reachable (kvs_run [.put [97] [49]]) ∧
    (∃ db2, kvs_load (kvs_save_bytes (kvs_run [.put [97] [49]]))
        (fun _ => 0) = some db2 ∧
      kvs_foreach db2 = kvs_foreach (kvs_run [.put [97] [49]])) :=
  ⟨⟨[.put [97] [49]], rfl⟩,
    c5_save_load_roundtrip _ (fun _ => 0) ⟨[.put [97] [49]], rfl⟩⟩

end KVSModel
